import Mathlib

/-!
A chained hash map over a growable vector.

Shallow embedding of `src/vector.c` and `src/hashmap.c`.

Conventions of the embedding.

* Pointers are replaced by what they point to. A `keyT` is a value of type `K`, a `valueT` a value
  of type `V`; a possibly-NULL pointer is an `Option`. The guards on NULL arguments at the head of
  each C function therefore have no counterpart: every argument is a live object.
* `malloc`, `calloc` and `realloc` succeed. The branches that the C code takes only when one of
  them returns NULL are not represented, except in the definitions whose name ends in `_mem`,
  which take the outcomes of the allocation requests as an argument.
* `size_t` values are natural numbers. The only subtraction that could wrap, `capacity - 1`, is
  applied to capacities that are at least 1 in every state the map can reach
  (`WF.cap_pos` below). The `size--` of `hashmap_erase` follows a successful `hashmap_at`, so
  the size is at least 1 in every state that satisfies the invariant `WF`; nothing is stated
  about calls on a state that does not satisfy it.
* `double` load factors are rationals: the quotient of two `size_t` values by a power of two is
  exact in binary floating point, and 0.75 and 0.25 are representable.
* A function that mutates its argument and returns an `int` returns the pair of the `int` and the
  new object.
-/

namespace Hashmap

/-! ## Constants of `vector.h` and `hashmap.h` -/

/-- Modelled from the spec: `VECTOR_INITIAL_CAP` of `vector.h`, the initial capacity 16. -/
def VECTOR_INITIAL_CAP : Nat := 16

/-- Modelled from the spec: `VECTOR_GROWTH_FACTOR` of `vector.h`, the growth factor 2. -/
def VECTOR_GROWTH_FACTOR : Nat := 2

/-- Modelled from the spec: `VECTOR_MAX_LOAD_FACTOR` of `vector.h`, the maximal load 0.75. -/
def VECTOR_MAX_LOAD_FACTOR : ℚ := 3 / 4

/-- Modelled from the spec: `VECTOR_MIN_LOAD_FACTOR` of `vector.h`, the minimal load 0.25. -/
def VECTOR_MIN_LOAD_FACTOR : ℚ := 1 / 4

/-- Modelled from the spec: `HASH_MAP_INITIAL_CAP` of `hashmap.h`, the initial capacity 16. -/
def HASH_MAP_INITIAL_CAP : Nat := 16

/-- Modelled from the spec: `HASH_MAP_GROWTH_FACTOR` of `hashmap.h`, the growth factor 2. -/
def HASH_MAP_GROWTH_FACTOR : Nat := 2

/-- Modelled from the spec: `HASH_MAP_MAX_LOAD_FACTOR` of `hashmap.h`, the maximal load 0.75. -/
def HASH_MAP_MAX_LOAD_FACTOR : ℚ := 3 / 4

/-- Modelled from the spec: `HASH_MAP_MIN_LOAD_FACTOR` of `hashmap.h`, the minimal load 0.25. -/
def HASH_MAP_MIN_LOAD_FACTOR : ℚ := 1 / 4

/-- The macro `MINIMIZE` of `hashmap.c`. -/
def MINIMIZE : Int := 0

/-- The macro `MAGNIFY` of `hashmap.c`. -/
def MAGNIFY : Int := 1

/-! ## Pairs -/

/-- Modelled from the spec: the `pair` record of `pair.h`. Its key, its value and its key
comparator are kept; the copy and free functions act on ownership only and the value comparator
is never called by the hash map. -/
structure pair (K V : Type) where
  key : K
  value : V
  key_cmp : K → K → Bool

/-- Modelled from the spec: `pair_copy` of `pair.c` returns an owned copy of a pair, that is a
pair with the same key, the same value and the same functions. -/
def pair_copy {K V : Type} (p : pair K V) : pair K V := p

/-- Modelled from the spec: `pair_cmp` of `pair.c`, the element comparator handed to the chains.
The hash map never calls it (it never calls `vector_find`); two pairs are compared by their
keys. -/
def pair_cmp {K V : Type} (p q : pair K V) : Bool := p.key_cmp p.key q.key

/-! ## `vector.c` -/

/-- The `vector` record. `data` lists the slots `[0, size)` of the C array, so that `size` is its
length; the slots from `size` on are never read. -/
structure vector (α : Type) where
  data : List α
  capacity : Nat
  elem_copy_func : α → α
  elem_cmp_func : α → α → Bool

/-- The field `size` of a vector. -/
def vector.size {α : Type} (v : vector α) : Nat := v.data.length

/-- `vector_alloc`: an empty vector of capacity `VECTOR_INITIAL_CAP`. -/
def vector_alloc {α : Type} (elem_copy_func : α → α) (elem_cmp_func : α → α → Bool) : vector α :=
  { data := [], capacity := VECTOR_INITIAL_CAP,
    elem_copy_func := elem_copy_func, elem_cmp_func := elem_cmp_func }

/-- `vector_at`: the element at `ind`, NULL when `size <= ind`. -/
def vector_at {α : Type} (v : vector α) (ind : Nat) : Option α :=
  if v.size ≤ ind then none else v.data[ind]?

/-- `vector_find`: the first index whose element compares equal to `value`, else -1. -/
def vector_find {α : Type} (v : vector α) (value : α) : Int :=
  match v.data.findIdx? (fun e => v.elem_cmp_func e value) with
  | some i => (i : Int)
  | none => -1

/-- `vector_get_load_factor`: `size / capacity`, and -1 when the capacity is 0. -/
def vector_get_load_factor {α : Type} (v : vector α) : ℚ :=
  if v.capacity = 0 then -1 else (v.size : ℚ) / (v.capacity : ℚ)

/-- `vector_push_back`: `size++` and the store of the copy into slot `size - 1` are the append
to `data`; the capacity is multiplied by the growth factor when the new load exceeds the
maximum. -/
def vector_push_back {α : Type} (v : vector α) (value : α) : Int × vector α :=
  let v1 : vector α := { v with data := v.data ++ [v.elem_copy_func value] }
  if VECTOR_MAX_LOAD_FACTOR < vector_get_load_factor v1 then
    (1, { v1 with capacity := v1.capacity * VECTOR_GROWTH_FACTOR })
  else
    (1, v1)

/-- `vector_erase`: fails when `size <= ind`; otherwise `size--` and the left shift of the slots
after `ind` are the removal of position `ind` from `data`, and the capacity is divided by the
growth factor when the new load is below the minimum. -/
def vector_erase {α : Type} (v : vector α) (ind : Nat) : Int × vector α :=
  if v.size ≤ ind ∨ v.size = 0 ∨ (vector_at v ind).isNone then (0, v)
  else
    let v1 : vector α := { v with data := v.data.eraseIdx ind }
    if vector_get_load_factor v1 < VECTOR_MIN_LOAD_FACTOR then
      (1, { v1 with capacity := v1.capacity / VECTOR_GROWTH_FACTOR })
    else
      (1, v1)

/-- The loop of `vector_clear`, from index `n - 1` down to 0. -/
def vector_clear_loop {α : Type} (v : vector α) : Nat → vector α
  | 0 => v
  | n + 1 => vector_clear_loop (vector_erase v n).2 n

/-- `vector_clear`: erases every index from the last to the first, then sets `size` to 0. -/
def vector_clear {α : Type} (v : vector α) : vector α :=
  { vector_clear_loop v v.size with data := [] }

/-! ## `hashmap.c` -/

/-- The `hashmap` record: `buckets` is the array of `capacity` slots, each NULL or a chain. -/
structure hashmap (K V : Type) where
  buckets : List (Option (vector (pair K V)))
  size : Nat
  capacity : Nat
  hash_func : K → Nat

/-- `hashmap_alloc`: `HASH_MAP_INITIAL_CAP` empty slots (`calloc`), size 0. -/
def hashmap_alloc {K V : Type} (func : K → Nat) : hashmap K V :=
  { buckets := List.replicate HASH_MAP_INITIAL_CAP none, size := 0,
    capacity := HASH_MAP_INITIAL_CAP, hash_func := func }

/-- `hashmap_get_load_factor`: `size / capacity`, and -1 when the capacity is 0. -/
def hashmap_get_load_factor {K V : Type} (m : hashmap K V) : ℚ :=
  if m.capacity = 0 then -1 else (m.size : ℚ) / (m.capacity : ℚ)

/-- `hashmap_at`: scans the chain of slot `hash_func (key) & (capacity - 1)` and returns the value
of the first pair whose comparator accepts `(key, curr->key)`; NULL when the slot is empty or no
pair matches. -/
def hashmap_at {K V : Type} (m : hashmap K V) (key : K) : Option V :=
  let ind := m.hash_func key &&& (m.capacity - 1)
  match m.buckets.getD ind none with
  | none => none
  | some v =>
    match v.data.find? (fun curr => curr.key_cmp key curr.key) with
    | some curr => some curr.value
    | none => none

/-- The statement pair that `resize_buckets` and `hashmap_insert` apply to a slot: allocate the
chain when the slot is NULL, then `vector_push_back` the pair. Returns what `vector_push_back`
returned and the array. -/
def bucket_push_back {K V : Type} (buckets : List (Option (vector (pair K V)))) (ind : Nat)
    (p : pair K V) : Int × List (Option (vector (pair K V))) :=
  let v := match buckets.getD ind none with
    | none => vector_alloc pair_copy pair_cmp
    | some v => v
  let r := vector_push_back v p
  (r.1, buckets.set ind (some r.2))

/-- `resize_buckets`: a new array of `capacity * 2` (magnify) or `capacity / 2` slots, filled by
walking the old slots in index order and each chain in order, pushing every pair to slot
`hash_func (key) & (new_buckets_capacity - 1)` of the new array. -/
def resize_buckets {K V : Type} (m : hashmap K V) (magnify : Int) :
    List (Option (vector (pair K V))) :=
  let new_buckets_capacity :=
    if magnify ≠ 0 then m.capacity * HASH_MAP_GROWTH_FACTOR
    else m.capacity / HASH_MAP_GROWTH_FACTOR
  let new_buckets : List (Option (vector (pair K V))) := List.replicate new_buckets_capacity none
  m.buckets.foldl
    (fun nb slot =>
      match slot with
      | none => nb
      | some old =>
        old.data.foldl
          (fun nb curr_pair =>
            (bucket_push_back nb (m.hash_func curr_pair.key &&& (new_buckets_capacity - 1))
              curr_pair).2)
          nb)
    new_buckets

/-- `hashmap_insert`: fails when `hashmap_at` finds the key. Otherwise `size++`; when the new load
exceeds the maximum the pair goes to slot `hash_func (key) & (capacity * 2 - 1)` of the array
built by `resize_buckets`, which replaces the old one together with the doubled capacity; when it
does not, the pair goes to slot `hash_func (key) & (capacity - 1)` of the current array. -/
def hashmap_insert {K V : Type} (m : hashmap K V) (in_pair : pair K V) : Int × hashmap K V :=
  if (hashmap_at m in_pair.key).isSome then (0, m)
  else
    let m1 : hashmap K V := { m with size := m.size + 1 }
    if HASH_MAP_MAX_LOAD_FACTOR < hashmap_get_load_factor m1 then
      let ind := m1.hash_func in_pair.key &&& (m1.capacity * HASH_MAP_GROWTH_FACTOR - 1)
      let new_buckets := resize_buckets m1 MAGNIFY
      let r := bucket_push_back new_buckets ind in_pair
      if r.1 ≠ 0 then
        (1, { m1 with buckets := r.2, capacity := m1.capacity * HASH_MAP_GROWTH_FACTOR })
      else (0, m)
    else
      let ind := m1.hash_func in_pair.key &&& (m1.capacity - 1)
      let r := bucket_push_back m1.buckets ind in_pair
      if r.1 ≠ 0 then (1, { m1 with buckets := r.2 })
      else (0, { m with buckets := r.2 })

/-- The closing loop of `hashmap_erase` over the chain `v`: `rest` is what is left to scan and
`i` the index of its head. At the first pair whose comparator accepts `(curr_pair->key, key)`
and for which `vector_erase (v, i)` succeeds the loop stops with the chain after the removal; a
failed `vector_erase` leaves the chain as it was and the scan goes on. `none` when the loop runs
to its end. -/
def erase_scan {K V : Type} (key : K) (v : vector (pair K V)) :
    List (pair K V) → Nat → Option (vector (pair K V))
  | [], _ => none
  | curr_pair :: rest, i =>
    if curr_pair.key_cmp curr_pair.key key then
      let r := vector_erase v i
      if r.1 ≠ 0 then some r.2 else erase_scan key v rest (i + 1)
    else erase_scan key v rest (i + 1)

/-- The loop of the shrinking branch of `hashmap_erase` over the chain `v` of the new array. It
stops at the first pair whose comparator accepts `(curr_pair->key, key)`: with `some (some w)`
when `vector_erase (v, i)` succeeds and leaves the chain `w`, with `some none` when it fails (the
`return 0` of the source). `none` when the loop runs to its end. -/
def shrink_scan {K V : Type} (key : K) (v : vector (pair K V)) :
    List (pair K V) → Nat → Option (Option (vector (pair K V)))
  | [], _ => none
  | curr_pair :: rest, i =>
    if curr_pair.key_cmp curr_pair.key key then
      let r := vector_erase v i
      if r.1 ≠ 0 then some (some r.2) else some none
    else shrink_scan key v rest (i + 1)

/-- `hashmap_erase`: fails when `hashmap_at` does not find the key. Otherwise `size--`; when the
new load is below the minimum, the pair is removed from slot `hash_func (key) & (capacity / 2 - 1)`
of the array built by `resize_buckets`, which replaces the old one together with the halved
capacity; when it is not, the pair is removed from its chain in the current array by the closing
loop. That loop also runs when the loop of the shrinking branch ends without a match, on the
chain of the new array, which is then dropped. When the closing loop removes nothing, the size
is restored and the call fails. A NULL chain, which the source would dereference, is a failed
call here; `hashmap_at` having found the key, the chain is not NULL. -/
def hashmap_erase {K V : Type} (m : hashmap K V) (key : K) : Int × hashmap K V :=
  if (hashmap_at m key).isNone then (0, m)
  else
    let ind := m.hash_func key &&& (m.capacity - 1)
    let m1 : hashmap K V := { m with size := m.size - 1 }
    if hashmap_get_load_factor m1 < HASH_MAP_MIN_LOAD_FACTOR then
      let new_buckets := resize_buckets m1 MINIMIZE
      let ind := m1.hash_func key &&& (m1.capacity / HASH_MAP_GROWTH_FACTOR - 1)
      match new_buckets.getD ind none with
      | none => (0, m)
      | some curr_vector =>
        match shrink_scan key curr_vector curr_vector.data 0 with
        | some (some v) =>
          (1, { m1 with buckets := new_buckets.set ind (some v),
                        capacity := m1.capacity / HASH_MAP_GROWTH_FACTOR })
        | some none => (0, m1)
        | none =>
          match erase_scan key curr_vector curr_vector.data 0 with
          | some _ => (1, m1)
          | none => (0, m)
    else
      match m1.buckets.getD ind none with
      | none => (0, m)
      | some curr_vector =>
        match erase_scan key curr_vector curr_vector.data 0 with
        | some v => (1, { m1 with buckets := m1.buckets.set ind (some v) })
        | none => (0, m)

/-- The inner loop of `hashmap_apply_if` over the pairs of one chain, in chain order: when
`keyT_func (curr->key) == 1` the value is replaced by what `valT_func` makes of it and the counter
goes up by one. Returns the counter and the chain after the loop. -/
def apply_if_chain {K V : Type} (keyT_func : K → Int) (valT_func : V → V) (counter : Int) :
    List (pair K V) → Int × List (pair K V)
  | [] => (counter, [])
  | curr :: rest =>
    if keyT_func curr.key = 1 then
      let r := apply_if_chain keyT_func valT_func (counter + 1) rest
      (r.1, { curr with value := valT_func curr.value } :: r.2)
    else
      let r := apply_if_chain keyT_func valT_func counter rest
      (r.1, curr :: r.2)

/-- The outer loop of `hashmap_apply_if` over the slots, in index order: a NULL slot is skipped,
the chain of another slot goes through the inner loop. -/
def apply_if_buckets {K V : Type} (keyT_func : K → Int) (valT_func : V → V) (counter : Int) :
    List (Option (vector (pair K V))) → Int × List (Option (vector (pair K V)))
  | [] => (counter, [])
  | none :: rest =>
    let r := apply_if_buckets keyT_func valT_func counter rest
    (r.1, none :: r.2)
  | some v :: rest =>
    let c := apply_if_chain keyT_func valT_func counter v.data
    let r := apply_if_buckets keyT_func valT_func c.1 rest
    (r.1, some { v with data := c.2 } :: r.2)

/-- `hashmap_apply_if`: walks every slot and every pair of its chain, applies `valT_func` in
place to the value of each pair whose key makes `keyT_func` return 1, and returns the number of
these pairs. -/
def hashmap_apply_if {K V : Type} (m : hashmap K V) (keyT_func : K → Int) (valT_func : V → V) :
    Int × hashmap K V :=
  let r := apply_if_buckets keyT_func valT_func 0 m.buckets
  (r.1, { m with buckets := r.2 })

/-! ## Vocabulary of the statements -/

/-- The pairs of a slot: none for a NULL slot, the chain otherwise. -/
def slot_data {α : Type} (s : Option (vector α)) : List α :=
  match s with
  | none => []
  | some v => v.data

/-- Every pair stored in an array of slots, in slot order and then chain order. -/
def all_pairs {α : Type} (bs : List (Option (vector α))) : List α :=
  bs.flatMap slot_data

/-- The key comparator of a pair is a lawful equality. -/
def lawful {K V : Type} (p : pair K V) : Prop :=
  ∀ a b : K, p.key_cmp a b = true ↔ a = b

/-- The representation invariant of an array `bs` of `cap` slots under the hash function `f`. -/
structure table_ok {K V : Type} (f : K → Nat) (cap : Nat)
    (bs : List (Option (vector (pair K V)))) : Prop where
  len : bs.length = cap
  cap_pos : 0 < cap
  copy : ∀ v, some v ∈ bs → v.elem_copy_func = pair_copy
  law : ∀ p ∈ all_pairs bs, lawful p
  placed : ∀ i v, bs[i]? = some (some v) → ∀ p ∈ v.data, f p.key &&& (cap - 1) = i
  nodup : ((all_pairs bs).map pair.key).Nodup

/-- The invariant of a hash map: the representation invariant of its array, the size bookkeeping
and the arithmetic relations between size and capacity. -/
structure WF {K V : Type} (m : hashmap K V) : Prop where
  table : table_ok m.hash_func m.capacity m.buckets
  size_eq : m.size = (all_pairs m.buckets).length
  pow2 : ∃ e : Nat, m.capacity = 2 ^ e
  max_load : 4 * m.size ≤ 3 * m.capacity
  min_load : m.capacity ≤ 4 * m.size ∨ m.capacity ≤ 16

/-- A call on a hash map: an insert of a pair or an erase of a key. -/
inductive call (K V : Type) where
  | insert (in_pair : pair K V) : call K V
  | erase (key : K) : call K V

/-- The key a call is about. -/
def call.key {K V : Type} : call K V → K
  | call.insert in_pair => in_pair.key
  | call.erase key => key

/-- The pair handed to an insert has a lawful key comparator. -/
def call.lawful {K V : Type} : call K V → Prop
  | call.insert in_pair => Hashmap.lawful in_pair
  | call.erase _ => True

/-- The effect of a call: what it returns and the map it leaves. -/
def run_call {K V : Type} (m : hashmap K V) : call K V → Int × hashmap K V
  | call.insert in_pair => hashmap_insert m in_pair
  | call.erase key => hashmap_erase m key

/-- The maps reachable from `hashmap_alloc func` by calls of `hashmap_insert` (on pairs with a
lawful key comparator) and `hashmap_erase`. -/
inductive reachable {K V : Type} (func : K → Nat) : hashmap K V → Prop where
  | alloc : reachable func (hashmap_alloc func)
  | step (m : hashmap K V) (c : call K V) :
      reachable func m → c.lawful → reachable func (run_call m c).2

/-- The test loop `for (i ...) hashmap_insert (t, pair_lst[i])`: the return values in call order
and the final map. -/
def hashmap_insert_all {K V : Type} (m : hashmap K V) :
    List (pair K V) → List Int × hashmap K V
  | [] => ([], m)
  | p :: ps =>
    let r := hashmap_insert m p
    let rs := hashmap_insert_all r.2 ps
    (r.1 :: rs.1, rs.2)

/-- The test loop `for (i ...) hashmap_erase (t, key_i)`: the return values in call order and the
final map. -/
def hashmap_erase_all {K V : Type} (m : hashmap K V) : List K → List Int × hashmap K V
  | [] => ([], m)
  | k :: ks =>
    let r := hashmap_erase m k
    let rs := hashmap_erase_all r.2 ks
    (r.1 :: rs.1, rs.2)

/-- A key is present in a map when one of the stored pairs has it. -/
def present {K V : Type} (m : hashmap K V) (k : K) : Prop :=
  ∃ q ∈ all_pairs m.buckets, q.key = k

/-- The capacity after `n` successful inserts into a map of size `s` and capacity `c`, by the
test of `hashmap_insert`: double when `0.75 < (s + 1) / c`. -/
def grow_schedule (s c : Nat) : Nat → Nat
  | 0 => c
  | n + 1 => grow_schedule (s + 1) (if 3 * c < 4 * (s + 1) then c * 2 else c) n

/-- The capacity after `n` successful erases from a map of size `s` and capacity `c`, by the
test of `hashmap_erase`: halve when `(s - 1) / c < 0.25`. -/
def shrink_schedule (s c : Nat) : Nat → Nat
  | 0 => c
  | n + 1 => shrink_schedule (s - 1) (if 4 * (s - 1) < c then c / 2 else c) n

/-- A pair as the test suite builds them: the key comparator is the equality of the keys. -/
def test_pair (k v : Nat) : pair Nat Nat :=
  { key := k, value := v, key_cmp := fun a b => decide (a = b) }

/-- The pairs of keys `0 .. n - 1`, the pair of key `i` holding the value `i`, in key order. -/
def test_pairs (n : Nat) : List (pair Nat Nat) :=
  (List.range n).map (fun i => test_pair i i)

/-- The map of the test suite after its first `n` inserts: the pairs `test_pairs n` inserted
into a fresh map whose hash function returns the key. -/
def test_map (n : Nat) : hashmap Nat Nat :=
  (hashmap_insert_all (hashmap_alloc (fun k => k)) (test_pairs n)).2

/-- The load factor that `test_hash_map_get_load_factor` asserts while it erases its 34 keys,
when `i` keys are left: over 64 slots for `15 < i`, 32 for `8 <= i <= 15`, 16 for `4 <= i <= 7`,
8 for `2 <= i <= 3` and 4 for `i < 2`. -/
def test_load_factor (i : Nat) : ℚ :=
  if 15 < i then (i : ℚ) / 64
  else if 8 ≤ i then (i : ℚ) / 32
  else if 4 ≤ i then (i : ℚ) / 16
  else if 2 ≤ i then (i : ℚ) / 8
  else (i : ℚ) / 4

/-- What `hashmap_apply_if` does to one pair: the value goes through `valT_func` when the key
makes `keyT_func` return 1, and nothing changes otherwise. -/
def apply_to_pair {K V : Type} (keyT_func : K → Int) (valT_func : V → V) (p : pair K V) :
    pair K V :=
  if keyT_func p.key = 1 then { p with value := valT_func p.value } else p

/-- Slot `i` of the map is allocated: it is inside the array and not NULL. -/
def allocated {K V : Type} (m : hashmap K V) (i : Nat) : Prop :=
  (m.buckets.getD i none).isSome = true

/-- Slot `i` of the map holds at least one pair. -/
def holds_pair {K V : Type} (m : hashmap K V) (i : Nat) : Prop :=
  0 < (slot_data (m.buckets.getD i none)).length

/-- A call on a vector: `vector_push_back`, `vector_erase` or `vector_clear`. -/
inductive vector_call (α : Type) where
  | push_back (value : α) : vector_call α
  | erase (ind : Nat) : vector_call α
  | clear : vector_call α

/-- The vector that a call leaves. -/
def run_vector_call {α : Type} (v : vector α) : vector_call α → vector α
  | vector_call.push_back value => (vector_push_back v value).2
  | vector_call.erase ind => (vector_erase v ind).2
  | vector_call.clear => vector_clear v

/-- The vectors reachable from `vector_alloc` by calls of `vector_push_back`, `vector_erase` and
`vector_clear`. -/
inductive vector_reachable {α : Type} (elem_copy_func : α → α) (elem_cmp_func : α → α → Bool) :
    vector α → Prop where
  | alloc : vector_reachable elem_copy_func elem_cmp_func
      (vector_alloc elem_copy_func elem_cmp_func)
  | step (v : vector α) (c : vector_call α) :
      vector_reachable elem_copy_func elem_cmp_func v →
      vector_reachable elem_copy_func elem_cmp_func (run_vector_call v c)

/-- The invariant of a vector: the capacity is a power of two and the load is at most 0.75. -/
structure vector_ok {α : Type} (v : vector α) : Prop where
  pow2 : ∃ e : Nat, v.capacity = 2 ^ e
  max_load : 4 * v.size ≤ 3 * v.capacity

/-- A fresh vector of numbers: the copy of a number is the number, the comparator is the
equality. -/
def test_vector : vector Nat :=
  vector_alloc (fun x => x) (fun a b => decide (a = b))

/-- A vector of capacity 16 that holds the given numbers. -/
def test_vector_of (l : List Nat) : vector Nat :=
  { test_vector with data := l }

/-- A map whose five keys 0 .. 4 share slot 0 of the 16 slots and part over the slots 0 and 16
of 32 slots: the hash of a key is 0 when the key is even and 16 when it is odd. -/
def test_chain_map : hashmap Nat Nat :=
  (hashmap_insert_all (hashmap_alloc (fun k => 16 * (k % 2))) (test_pairs 5)).2

/-! ## `vector.c` and `hashmap.c` with allocations that may fail

The definitions above take every `malloc`, `calloc` and `realloc` to succeed. The definitions of
this section keep the branches of a failed request: `mem` lists the outcomes of the coming
requests of `vector.c` and `hashmap.c`, in the order of the requests, and every function returns
the outcomes it has not used. The copy functions of the pairs are still taken to succeed. -/

/-- The outcome of the next allocation request, and the outcomes left for the requests after
it. A request succeeds when no outcome is listed for it. -/
def next_alloc : List Bool → Bool × List Bool
  | [] => (true, [])
  | ok :: rest => (ok, rest)

/-- `vector_alloc` with its two requests: the `malloc` of the record and the `malloc` of the
array; NULL when one of them fails. -/
def vector_alloc_mem {α : Type} (elem_copy_func : α → α) (elem_cmp_func : α → α → Bool)
    (mem : List Bool) : Option (vector α) × List Bool :=
  let a := next_alloc mem
  if a.1 = false then (none, a.2)
  else
    let b := next_alloc a.2
    if b.1 = false then (none, b.2)
    else (some (vector_alloc elem_copy_func elem_cmp_func), b.2)

/-- `vector_push_back` with its request: the `realloc` of the growing branch. When it fails the
capacity and the size are restored and the call returns 0. -/
def vector_push_back_mem {α : Type} (v : vector α) (value : α) (mem : List Bool) :
    Int × vector α × List Bool :=
  let v1 : vector α := { v with data := v.data ++ [v.elem_copy_func value] }
  if VECTOR_MAX_LOAD_FACTOR < vector_get_load_factor v1 then
    let a := next_alloc mem
    if a.1 = false then (0, v, a.2)
    else (1, { v1 with capacity := v1.capacity * VECTOR_GROWTH_FACTOR }, a.2)
  else
    (1, v1, mem)

/-- `vector_erase` with its request: the `realloc` of the shrinking branch. When it fails the
size is restored and the call returns 0. -/
def vector_erase_mem {α : Type} (v : vector α) (ind : Nat) (mem : List Bool) :
    Int × vector α × List Bool :=
  if v.size ≤ ind ∨ v.size = 0 ∨ (vector_at v ind).isNone then (0, v, mem)
  else
    let v1 : vector α := { v with data := v.data.eraseIdx ind }
    if vector_get_load_factor v1 < VECTOR_MIN_LOAD_FACTOR then
      let a := next_alloc mem
      if a.1 = false then (0, v, a.2)
      else (1, { v1 with capacity := v1.capacity / VECTOR_GROWTH_FACTOR }, a.2)
    else
      (1, v1, mem)

/-- The statement pair of `bucket_push_back` with its requests: when the slot is NULL and
`vector_alloc` fails, the slot stays NULL and 0 is returned; otherwise what `vector_push_back`
returns is returned, and the slot holds the chain, also when the push failed. -/
def bucket_push_back_mem {K V : Type} (buckets : List (Option (vector (pair K V)))) (ind : Nat)
    (p : pair K V) (mem : List Bool) :
    Int × List (Option (vector (pair K V))) × List Bool :=
  match buckets.getD ind none with
  | none =>
    match vector_alloc_mem pair_copy pair_cmp mem with
    | (none, mem1) => (0, buckets, mem1)
    | (some v, mem1) =>
      let r := vector_push_back_mem v p mem1
      (r.1, buckets.set ind (some r.2.1), r.2.2)
  | some v =>
    let r := vector_push_back_mem v p mem
    (r.1, buckets.set ind (some r.2.1), r.2.2)

/-- The loops of `resize_buckets` over the stored pairs, in the order of the old array: a failed
`vector_alloc` or `vector_push_back` ends them with NULL (the new array is deleted). -/
def resize_loop_mem {K V : Type} (f : K → Nat) (new_buckets_capacity : Nat) :
    List (pair K V) → List (Option (vector (pair K V))) → List Bool →
      Option (List (Option (vector (pair K V)))) × List Bool
  | [], new_buckets, mem => (some new_buckets, mem)
  | curr_pair :: rest, new_buckets, mem =>
    let r := bucket_push_back_mem new_buckets (f curr_pair.key &&& (new_buckets_capacity - 1))
      curr_pair mem
    if r.1 ≠ 0 then resize_loop_mem f new_buckets_capacity rest r.2.1 r.2.2
    else (none, r.2.2)

/-- `resize_buckets` with its requests: the `calloc` of the new array, then those of the loops.
NULL when one of them fails. -/
def resize_buckets_mem {K V : Type} (m : hashmap K V) (magnify : Int) (mem : List Bool) :
    Option (List (Option (vector (pair K V)))) × List Bool :=
  let new_buckets_capacity :=
    if magnify ≠ 0 then m.capacity * HASH_MAP_GROWTH_FACTOR
    else m.capacity / HASH_MAP_GROWTH_FACTOR
  let a := next_alloc mem
  if a.1 = false then (none, a.2)
  else
    resize_loop_mem m.hash_func new_buckets_capacity (all_pairs m.buckets)
      (List.replicate new_buckets_capacity none) a.2

/-- `hashmap_insert` with its requests. Every failing branch restores the size (`size--`) and
returns 0: a failed `resize_buckets`, and a failed `vector_alloc` or `vector_push_back` for the
incoming pair, on the new array or on the current one. -/
def hashmap_insert_mem {K V : Type} (m : hashmap K V) (in_pair : pair K V) (mem : List Bool) :
    Int × hashmap K V × List Bool :=
  if (hashmap_at m in_pair.key).isSome then (0, m, mem)
  else
    let m1 : hashmap K V := { m with size := m.size + 1 }
    if HASH_MAP_MAX_LOAD_FACTOR < hashmap_get_load_factor m1 then
      let ind := m1.hash_func in_pair.key &&& (m1.capacity * HASH_MAP_GROWTH_FACTOR - 1)
      match resize_buckets_mem m1 MAGNIFY mem with
      | (none, mem1) => (0, m, mem1)
      | (some new_buckets, mem1) =>
        let r := bucket_push_back_mem new_buckets ind in_pair mem1
        if r.1 ≠ 0 then
          (1, { m1 with buckets := r.2.1, capacity := m1.capacity * HASH_MAP_GROWTH_FACTOR },
            r.2.2)
        else (0, m, r.2.2)
    else
      let ind := m1.hash_func in_pair.key &&& (m1.capacity - 1)
      let r := bucket_push_back_mem m1.buckets ind in_pair mem
      if r.1 ≠ 0 then (1, { m1 with buckets := r.2.1 }, r.2.2)
      else (0, { m with buckets := r.2.1 }, r.2.2)

/-- The closing loop of `hashmap_erase` with the requests of `vector_erase`: after a failed
`vector_erase` the scan goes on. -/
def erase_scan_mem {K V : Type} (key : K) (v : vector (pair K V)) :
    List (pair K V) → Nat → List Bool → Option (vector (pair K V)) × List Bool
  | [], _, mem => (none, mem)
  | curr_pair :: rest, i, mem =>
    if curr_pair.key_cmp curr_pair.key key then
      let r := vector_erase_mem v i mem
      if r.1 ≠ 0 then (some r.2.1, r.2.2) else erase_scan_mem key v rest (i + 1) r.2.2
    else erase_scan_mem key v rest (i + 1) mem

/-- The loop of the shrinking branch of `hashmap_erase` with the requests of `vector_erase`:
`some none` is the `return 0` that follows a failed `vector_erase`. -/
def shrink_scan_mem {K V : Type} (key : K) (v : vector (pair K V)) :
    List (pair K V) → Nat → List Bool → Option (Option (vector (pair K V))) × List Bool
  | [], _, mem => (none, mem)
  | curr_pair :: rest, i, mem =>
    if curr_pair.key_cmp curr_pair.key key then
      let r := vector_erase_mem v i mem
      if r.1 ≠ 0 then (some (some r.2.1), r.2.2) else (some none, r.2.2)
    else shrink_scan_mem key v rest (i + 1) mem

/-- `hashmap_erase` with its requests. A failed `resize_buckets` restores the size (`size++`)
and returns 0, and so does the closing loop when it removes nothing. The `return 0` that follows
a failed `vector_erase` in the shrinking branch comes without `size++`: the map keeps its array
and the decremented size. -/
def hashmap_erase_mem {K V : Type} (m : hashmap K V) (key : K) (mem : List Bool) :
    Int × hashmap K V × List Bool :=
  if (hashmap_at m key).isNone then (0, m, mem)
  else
    let ind := m.hash_func key &&& (m.capacity - 1)
    let m1 : hashmap K V := { m with size := m.size - 1 }
    if hashmap_get_load_factor m1 < HASH_MAP_MIN_LOAD_FACTOR then
      match resize_buckets_mem m1 MINIMIZE mem with
      | (none, mem1) => (0, m, mem1)
      | (some new_buckets, mem1) =>
        let ind := m1.hash_func key &&& (m1.capacity / HASH_MAP_GROWTH_FACTOR - 1)
        match new_buckets.getD ind none with
        | none => (0, m, mem1)
        | some curr_vector =>
          match shrink_scan_mem key curr_vector curr_vector.data 0 mem1 with
          | (some (some v), mem2) =>
            (1, { m1 with buckets := new_buckets.set ind (some v),
                          capacity := m1.capacity / HASH_MAP_GROWTH_FACTOR }, mem2)
          | (some none, mem2) => (0, m1, mem2)
          | (none, mem2) =>
            match erase_scan_mem key curr_vector curr_vector.data 0 mem2 with
            | (some _, mem3) => (1, m1, mem3)
            | (none, mem3) => (0, m, mem3)
    else
      match m1.buckets.getD ind none with
      | none => (0, m, mem)
      | some curr_vector =>
        match erase_scan_mem key curr_vector curr_vector.data 0 mem with
        | (some v, mem1) => (1, { m1 with buckets := m1.buckets.set ind (some v) }, mem1)
        | (none, mem1) => (0, m, mem1)

/-- The effect of a call when allocations may fail: what it returns, the map it leaves and the
outcomes it has not used. -/
def run_call_mem {K V : Type} (m : hashmap K V) :
    call K V → List Bool → Int × hashmap K V × List Bool
  | call.insert in_pair, mem => hashmap_insert_mem m in_pair mem
  | call.erase key, mem => hashmap_erase_mem m key mem

/-- The maps reachable from `hashmap_alloc func` by calls of `hashmap_insert` (on pairs with a
lawful key comparator) and `hashmap_erase`, successful or failed, under any outcomes of the
allocation requests of each call. -/
inductive reachable_mem {K V : Type} (func : K → Nat) : hashmap K V → Prop where
  | alloc : reachable_mem func (hashmap_alloc func)
  | step (m : hashmap K V) (c : call K V) (mem : List Bool) :
      reachable_mem func m → c.lawful → reachable_mem func (run_call_mem m c mem).2.1

/-- The map of `test_hash_map_insert` after its first insert, `hashmap_erase` of its one key
being the next call: the `realloc` of `vector_erase` is the fourth request of that call, after
the `calloc` of the halved array and the two `malloc` of `vector_alloc`. -/
def test_failed_erase : Int × hashmap Nat Nat × List Bool :=
  hashmap_erase_mem (hashmap_insert_mem (hashmap_alloc (fun k => k)) (test_pair 0 0) []).2.1 0
    [true, true, true, false]

/-! ## Lists of slots -/

theorem all_pairs_nil {α : Type} : all_pairs ([] : List (Option (vector α))) = [] := rfl

theorem all_pairs_cons {α : Type} (s : Option (vector α)) (bs : List (Option (vector α))) :
    all_pairs (s :: bs) = slot_data s ++ all_pairs bs := rfl

theorem all_pairs_replicate {α : Type} (n : Nat) :
    all_pairs (List.replicate n (none : Option (vector α))) = [] := by
  induction n with
  | zero => rfl
  | succ n ih => rw [List.replicate_succ, all_pairs_cons, ih]; rfl

/-- Replacing slot `i` replaces its chain inside the list of all pairs and nothing else. -/
theorem all_pairs_set {α : Type} (bs : List (Option (vector α))) (i : Nat) (h : i < bs.length)
    (s : Option (vector α)) :
    ∃ A B, all_pairs bs = A ++ slot_data (bs.getD i none) ++ B ∧
      all_pairs (bs.set i s) = A ++ slot_data s ++ B := by
  induction bs generalizing i with
  | nil => simp at h
  | cons b bs ih =>
    cases i with
    | zero =>
      exact ⟨[], all_pairs bs, by simp [all_pairs_cons], by simp [all_pairs_cons]⟩
    | succ i =>
      obtain ⟨A, B, h1, h2⟩ := ih i (by simpa using h)
      refine ⟨slot_data b ++ A, B, ?_, ?_⟩
      · simp [all_pairs_cons, h1]
      · simp [all_pairs_cons, h2]

theorem mem_all_pairs {α : Type} (bs : List (Option (vector α))) (p : α) :
    p ∈ all_pairs bs ↔ ∃ (i : Nat) (v : vector α), bs[i]? = some (some v) ∧ p ∈ v.data := by
  constructor
  · intro h
    obtain ⟨s, hs, hp⟩ := List.mem_flatMap.1 h
    cases s with
    | none => simp [slot_data] at hp
    | some v =>
      obtain ⟨i, hi, hv⟩ := List.getElem_of_mem hs
      exact ⟨i, v, by rw [List.getElem?_eq_getElem hi, hv], hp⟩
  · rintro ⟨i, v, hi, hp⟩
    exact List.mem_flatMap.2 ⟨some v, List.mem_iff_getElem?.2 ⟨i, hi⟩, hp⟩

theorem getD_of_getElem? {α : Type} (bs : List (Option α)) (i : Nat) (s : Option α)
    (h : bs[i]? = some s) : bs.getD i none = s := by
  simp [List.getD_eq_getElem?_getD, h]

theorem getElem?_of_getD {α : Type} (bs : List (Option α)) (i : Nat) (v : α)
    (h : bs.getD i none = some v) : bs[i]? = some (some v) := by
  rw [List.getD_eq_getElem?_getD] at h
  cases hb : bs[i]? with
  | none => simp [hb] at h
  | some s => simp [hb] at h; rw [h]

/-! ## Load factor tests as integer comparisons -/

theorem max_load_iff {K V : Type} (m : hashmap K V) (h : 0 < m.capacity) :
    HASH_MAP_MAX_LOAD_FACTOR < hashmap_get_load_factor m ↔ 3 * m.capacity < 4 * m.size := by
  unfold hashmap_get_load_factor HASH_MAP_MAX_LOAD_FACTOR
  rw [if_neg (by omega)]
  have hc : (0 : ℚ) < m.capacity := by exact_mod_cast h
  rw [lt_div_iff₀ hc]
  constructor
  · intro h1
    have h2 : (3 : ℚ) * m.capacity < 4 * m.size := by linarith
    exact_mod_cast h2
  · intro h1
    have h2 : (3 : ℚ) * m.capacity < 4 * m.size := by exact_mod_cast h1
    linarith

theorem min_load_iff {K V : Type} (m : hashmap K V) (h : 0 < m.capacity) :
    hashmap_get_load_factor m < HASH_MAP_MIN_LOAD_FACTOR ↔ 4 * m.size < m.capacity := by
  unfold hashmap_get_load_factor HASH_MAP_MIN_LOAD_FACTOR
  rw [if_neg (by omega)]
  have hc : (0 : ℚ) < m.capacity := by exact_mod_cast h
  rw [div_lt_iff₀ hc]
  constructor
  · intro h1
    have h2 : (4 : ℚ) * m.size < m.capacity := by linarith
    exact_mod_cast h2
  · intro h1
    have h2 : (4 : ℚ) * m.size < m.capacity := by exact_mod_cast h1
    linarith

/-! ## Vector operations on a chain -/

theorem vector_push_back_fst {α : Type} (v : vector α) (x : α) : (vector_push_back v x).1 = 1 := by
  unfold vector_push_back
  dsimp only
  split <;> rfl

theorem vector_push_back_data {α : Type} (v : vector α) (x : α) :
    (vector_push_back v x).2.data = v.data ++ [v.elem_copy_func x] := by
  unfold vector_push_back
  dsimp only
  split <;> rfl

theorem vector_push_back_copy {α : Type} (v : vector α) (x : α) :
    (vector_push_back v x).2.elem_copy_func = v.elem_copy_func := by
  unfold vector_push_back
  dsimp only
  split <;> rfl

theorem eraseIdx_middle {α : Type} (A B : List α) (q : α) :
    (A ++ q :: B).eraseIdx A.length = A ++ B := by
  induction A with
  | nil => rfl
  | cons a A ih => simp [List.eraseIdx, ih]

theorem getElem?_middle {α : Type} (A B : List α) (q : α) :
    (A ++ q :: B)[A.length]? = some q := by
  induction A with
  | nil => simp
  | cons a A ih => simpa using ih

/-- Erasing an index inside the chain succeeds and removes exactly that element. -/
theorem vector_erase_middle {α : Type} (v : vector α) (A B : List α) (q : α)
    (h : v.data = A ++ q :: B) :
    (vector_erase v A.length).1 = 1 ∧ (vector_erase v A.length).2.data = A ++ B ∧
      (vector_erase v A.length).2.elem_copy_func = v.elem_copy_func := by
  have hsz : v.size = A.length + (B.length + 1) := by simp [vector.size, h]
  have hat : vector_at v A.length = some q := by
    unfold vector_at
    rw [if_neg (by omega), h]
    exact getElem?_middle A B q
  have hguard : ¬ (v.size ≤ A.length ∨ v.size = 0 ∨ (vector_at v A.length).isNone = true) := by
    rw [hat]
    simp
    omega
  unfold vector_erase
  rw [if_neg hguard]
  dsimp only
  split <;> simp [h, eraseIdx_middle]

/-! ## Lookup -/

theorem index_lt (h cap : Nat) (hc : 0 < cap) : h &&& (cap - 1) < cap := by
  have h1 := @Nat.and_le_right h (cap - 1)
  omega

/-- Under the representation invariant `hashmap_at` finds exactly the stored pairs. -/
theorem hashmap_at_some_iff {K V : Type} (m : hashmap K V)
    (h : table_ok m.hash_func m.capacity m.buckets) (k : K) (v : V) :
    hashmap_at m k = some v ↔ ∃ p ∈ all_pairs m.buckets, p.key = k ∧ p.value = v := by
  constructor
  · intro hat
    unfold hashmap_at at hat
    dsimp only at hat
    cases hb : m.buckets.getD (m.hash_func k &&& (m.capacity - 1)) none with
    | none => rw [hb] at hat; simp at hat
    | some vec =>
      rw [hb] at hat
      dsimp only at hat
      cases hf : vec.data.find? (fun curr => curr.key_cmp k curr.key) with
      | none => rw [hf] at hat; simp at hat
      | some curr =>
        rw [hf] at hat
        have hmem : curr ∈ vec.data := List.mem_of_find?_eq_some hf
        have hpred := List.find?_some hf
        have hall : curr ∈ all_pairs m.buckets :=
          (mem_all_pairs _ _).2 ⟨_, vec, getElem?_of_getD _ _ _ hb, hmem⟩
        have hk := (h.law curr hall k curr.key).1 hpred
        exact ⟨curr, hall, hk.symm, by simpa using hat⟩
  · rintro ⟨p, hp, rfl, rfl⟩
    obtain ⟨i, vec, hi, hpv⟩ := (mem_all_pairs _ _).1 hp
    have hidx := h.placed i vec hi p hpv
    unfold hashmap_at
    dsimp only
    rw [hidx, getD_of_getElem? _ _ _ hi]
    dsimp only
    cases hf : vec.data.find? (fun curr => curr.key_cmp p.key curr.key) with
    | none =>
      have h1 := List.find?_eq_none.1 hf p hpv
      exact absurd ((h.law p hp p.key p.key).2 rfl) (by simpa using h1)
    | some curr =>
      have hmem := List.mem_of_find?_eq_some hf
      have hpred := List.find?_some hf
      have hall : curr ∈ all_pairs m.buckets := (mem_all_pairs _ _).2 ⟨i, vec, hi, hmem⟩
      have hk := (h.law curr hall p.key curr.key).1 hpred
      have hcp : curr = p := List.inj_on_of_nodup_map h.nodup hall hp hk.symm
      rw [hcp]

theorem hashmap_at_none_iff {K V : Type} (m : hashmap K V)
    (h : table_ok m.hash_func m.capacity m.buckets) (k : K) :
    hashmap_at m k = none ↔ ∀ p ∈ all_pairs m.buckets, p.key ≠ k := by
  constructor
  · intro hat p hp hk
    have h1 := (hashmap_at_some_iff m h k p.value).2 ⟨p, hp, hk, rfl⟩
    rw [hat] at h1
    exact Option.noConfusion h1
  · intro hall
    cases hat : hashmap_at m k with
    | none => rfl
    | some v =>
      obtain ⟨p, hp, hk, _⟩ := (hashmap_at_some_iff m h k v).1 hat
      exact absurd hk (hall p hp)

/-- Two well-formed tables that store the same pairs of key `k` answer `hashmap_at` alike. -/
theorem hashmap_at_congr {K V : Type} (m m2 : hashmap K V)
    (h : table_ok m.hash_func m.capacity m.buckets)
    (h2 : table_ok m2.hash_func m2.capacity m2.buckets) (k : K)
    (hiff : ∀ p : pair K V, p.key = k → (p ∈ all_pairs m2.buckets ↔ p ∈ all_pairs m.buckets)) :
    hashmap_at m2 k = hashmap_at m k := by
  apply Option.ext
  intro v
  rw [Option.mem_def, Option.mem_def, hashmap_at_some_iff m2 h2, hashmap_at_some_iff m h]
  constructor
  · rintro ⟨p, hp, hk, hv⟩
    exact ⟨p, (hiff p hk).1 hp, hk, hv⟩
  · rintro ⟨p, hp, hk, hv⟩
    exact ⟨p, (hiff p hk).2 hp, hk, hv⟩

/-! ## Pushing a pair to its slot -/

theorem bucket_push_back_fst {K V : Type} (bs : List (Option (vector (pair K V)))) (ind : Nat)
    (p : pair K V) : (bucket_push_back bs ind p).1 = 1 := by
  unfold bucket_push_back
  exact vector_push_back_fst _ _

/-- Pushing a new pair to the slot of its key keeps the representation invariant and adds the
pair, and only it, to the stored pairs. -/
theorem bucket_push_back_ok {K V : Type} (f : K → Nat) (cap : Nat)
    (bs : List (Option (vector (pair K V)))) (ind : Nat) (p : pair K V)
    (h : table_ok f cap bs) (hl : lawful p) (hidx : f p.key &&& (cap - 1) = ind)
    (hnew : p.key ∉ (all_pairs bs).map pair.key) :
    table_ok f cap (bucket_push_back bs ind p).2 ∧
      ∃ A B, all_pairs bs = A ++ B ∧ all_pairs (bucket_push_back bs ind p).2 = A ++ p :: B := by
  have hlt : ind < bs.length := by
    rw [h.len, ← hidx]
    exact index_lt _ _ h.cap_pos
  obtain ⟨v0, hv0, hdata, hcopy, hplaced⟩ :
      ∃ v0 : vector (pair K V),
        (bucket_push_back bs ind p).2 = bs.set ind (some (vector_push_back v0 p).2) ∧
        slot_data (bs.getD ind none) = v0.data ∧ v0.elem_copy_func = pair_copy ∧
        ∀ q ∈ v0.data, f q.key &&& (cap - 1) = ind := by
    cases hb : bs.getD ind none with
    | none =>
      refine ⟨vector_alloc pair_copy pair_cmp, ?_, rfl, rfl, ?_⟩
      · unfold bucket_push_back
        rw [hb]
      · intro q hq
        simp [vector_alloc] at hq
    | some v =>
      have hget := getElem?_of_getD _ _ _ hb
      refine ⟨v, ?_, rfl, h.copy v (List.mem_iff_getElem?.2 ⟨ind, hget⟩), h.placed ind v hget⟩
      unfold bucket_push_back
      rw [hb]
  obtain ⟨A, B, hA, hB⟩ := all_pairs_set bs ind hlt (some (vector_push_back v0 p).2)
  have hnewdata : (vector_push_back v0 p).2.data = v0.data ++ [p] := by
    rw [vector_push_back_data, hcopy]
    rfl
  rw [hdata] at hA
  have hB2 : all_pairs (bucket_push_back bs ind p).2 = (A ++ v0.data) ++ p :: B := by
    rw [hv0, hB]
    simp [slot_data, hnewdata]
  refine ⟨?_, A ++ v0.data, B, hA, hB2⟩
  have hmem : ∀ q, q ∈ all_pairs (bucket_push_back bs ind p).2 ↔ q = p ∨ q ∈ all_pairs bs := by
    intro q
    rw [hB2, hA]
    simp only [List.mem_append, List.mem_cons]
    tauto
  constructor
  · rw [hv0, List.length_set]
    exact h.len
  · exact h.cap_pos
  · intro v hv
    rw [hv0] at hv
    rcases List.mem_or_eq_of_mem_set hv with h1 | h1
    · exact h.copy v h1
    · have h2 : v = (vector_push_back v0 p).2 := Option.some.inj h1
      rw [h2, vector_push_back_copy, hcopy]
  · intro q hq
    rcases (hmem q).1 hq with h1 | h1
    · rw [h1]
      exact hl
    · exact h.law q h1
  · intro i v hi q hq
    rw [hv0, List.getElem?_set] at hi
    by_cases hii : ind = i
    · rw [if_pos hii, if_pos hlt] at hi
      have h2 : v = (vector_push_back v0 p).2 := (Option.some.inj (Option.some.inj hi)).symm
      rw [h2, hnewdata, List.mem_append, List.mem_singleton] at hq
      rcases hq with h3 | h3
      · rw [← hii]
        exact hplaced q h3
      · rw [h3, ← hii]
        exact hidx
    · rw [if_neg hii] at hi
      exact h.placed i v hi q hq
  · rw [hB2, List.map_append, List.map_cons]
    apply List.nodup_middle.2
    rw [List.nodup_cons, ← List.map_append, ← hA]
    exact ⟨hnew, h.nodup⟩

/-! ## Rehashing -/

theorem table_ok_empty {K V : Type} (f : K → Nat) (cap : Nat) (h : 0 < cap) :
    table_ok f cap (List.replicate cap (none : Option (vector (pair K V)))) := by
  refine ⟨List.length_replicate _ _, h, ?_, ?_, ?_, ?_⟩
  · intro v hv
    exact Option.noConfusion (List.eq_of_mem_replicate hv)
  · intro p hp
    rw [all_pairs_replicate] at hp
    cases hp
  · intro i v hi
    have h1 : some v ∈ List.replicate cap (none : Option (vector (pair K V))) :=
      List.mem_iff_getElem?.2 ⟨i, hi⟩
    exact Option.noConfusion (List.eq_of_mem_replicate h1)
  · rw [all_pairs_replicate]
    exact List.nodup_nil

/-- Pushing a list of new pairs, each to the slot of its key, keeps the representation
invariant and adds exactly these pairs. -/
theorem foldl_push_ok {K V : Type} (f : K → Nat) (cap : Nat) (ps : List (pair K V))
    (nb : List (Option (vector (pair K V)))) (h : table_ok f cap nb)
    (hl : ∀ p ∈ ps, lawful p) (hnd : ((ps ++ all_pairs nb).map pair.key).Nodup) :
    table_ok f cap
        (ps.foldl (fun nb curr_pair =>
          (bucket_push_back nb (f curr_pair.key &&& (cap - 1)) curr_pair).2) nb) ∧
      (all_pairs
        (ps.foldl (fun nb curr_pair =>
          (bucket_push_back nb (f curr_pair.key &&& (cap - 1)) curr_pair).2) nb)).Perm
        (ps ++ all_pairs nb) := by
  induction ps generalizing nb with
  | nil => exact ⟨h, List.Perm.refl _⟩
  | cons p ps ih =>
    have hnd1 : (p.key :: (ps ++ all_pairs nb).map pair.key).Nodup := by simpa using hnd
    have hnew : p.key ∉ (all_pairs nb).map pair.key := by
      intro hin
      apply (List.nodup_cons.1 hnd1).1
      rw [List.map_append]
      exact List.mem_append_right _ hin
    obtain ⟨hok, A, B, hA, hB⟩ :=
      bucket_push_back_ok f cap nb _ p h (hl p (List.mem_cons_self _ _)) rfl hnew
    have hperm1 : (ps ++ all_pairs (bucket_push_back nb (f p.key &&& (cap - 1)) p).2).Perm
        (p :: ps ++ all_pairs nb) := by
      rw [hB, hA]
      exact (List.Perm.append_left ps List.perm_middle).trans List.perm_middle
    have hnd2 :
        ((ps ++ all_pairs (bucket_push_back nb (f p.key &&& (cap - 1)) p).2).map pair.key).Nodup :=
      ((hperm1.map pair.key).nodup_iff).2 hnd
    obtain ⟨hok2, hperm2⟩ :=
      ih _ hok (fun q hq => hl q (List.mem_cons_of_mem _ hq)) hnd2
    exact ⟨hok2, hperm2.trans hperm1⟩

/-- The two nested loops of `resize_buckets` are one pass over the stored pairs. -/
theorem resize_buckets_eq {K V : Type} (m : hashmap K V) (magnify : Int) (cap : Nat)
    (hcap : cap = if magnify ≠ 0 then m.capacity * HASH_MAP_GROWTH_FACTOR
      else m.capacity / HASH_MAP_GROWTH_FACTOR) :
    resize_buckets m magnify =
      (all_pairs m.buckets).foldl (fun nb curr_pair =>
        (bucket_push_back nb (m.hash_func curr_pair.key &&& (cap - 1)) curr_pair).2)
        (List.replicate cap none) := by
  unfold resize_buckets
  dsimp only
  rw [← hcap]
  generalize (List.replicate cap none : List (Option (vector (pair K V)))) = init
  generalize m.buckets = bs
  induction bs generalizing init with
  | nil => rfl
  | cons b bs ih =>
    rw [List.foldl_cons, all_pairs_cons, List.foldl_append, ih]
    cases b <;> rfl

/-- The array built by `resize_buckets` satisfies the representation invariant for the new
capacity and stores the pairs of the old array. -/
theorem resize_ok {K V : Type} (m : hashmap K V) (magnify : Int) (cap : Nat)
    (hcap : cap = if magnify ≠ 0 then m.capacity * HASH_MAP_GROWTH_FACTOR
      else m.capacity / HASH_MAP_GROWTH_FACTOR)
    (hpos : 0 < cap) (h : table_ok m.hash_func m.capacity m.buckets) :
    table_ok m.hash_func cap (resize_buckets m magnify) ∧
      (all_pairs (resize_buckets m magnify)).Perm (all_pairs m.buckets) := by
  rw [resize_buckets_eq m magnify cap hcap]
  have h1 := foldl_push_ok m.hash_func cap (all_pairs m.buckets) (List.replicate cap none)
    (table_ok_empty m.hash_func cap hpos) h.law
    (by rw [all_pairs_replicate, List.append_nil]; exact h.nodup)
  rw [all_pairs_replicate, List.append_nil] at h1
  exact h1

/-! ## Removing a pair from its chain -/

/-- The closing loop of `hashmap_erase` removes the first pair that the comparator accepts. -/
theorem erase_scan_spec {K V : Type} (key : K) (v : vector (pair K V))
    (pre rest : List (pair K V)) (hv : v.data = pre ++ rest)
    (hex : ∃ q ∈ rest, q.key_cmp q.key key = true) :
    ∃ A q B w, v.data = A ++ q :: B ∧ q.key_cmp q.key key = true ∧
      erase_scan key v rest pre.length = some w ∧ w.data = A ++ B ∧
      w.elem_copy_func = v.elem_copy_func := by
  induction rest generalizing pre with
  | nil =>
    obtain ⟨q, hq, _⟩ := hex
    cases hq
  | cons c rest ih =>
    by_cases hc : c.key_cmp c.key key = true
    · obtain ⟨h1, h2, h3⟩ := vector_erase_middle v pre rest c hv
      refine ⟨pre, c, rest, (vector_erase v pre.length).2, hv, hc, ?_, h2, h3⟩
      simp only [erase_scan]
      rw [if_pos hc, if_pos (by rw [h1]; decide)]
    · have hv2 : v.data = (pre ++ [c]) ++ rest := by simp [hv]
      have hex2 : ∃ q ∈ rest, q.key_cmp q.key key = true := by
        obtain ⟨q, hq, hqk⟩ := hex
        rcases List.mem_cons.1 hq with h1 | h1
        · rw [h1] at hqk
          exact absurd hqk hc
        · exact ⟨q, h1, hqk⟩
      obtain ⟨A, q, B, w, h1, h2, h3, h4, h5⟩ := ih (pre ++ [c]) hv2 hex2
      refine ⟨A, q, B, w, h1, h2, ?_, h4, h5⟩
      simp only [erase_scan]
      rw [if_neg hc]
      simpa using h3

/-- The loop of the shrinking branch removes the first pair that the comparator accepts. -/
theorem shrink_scan_spec {K V : Type} (key : K) (v : vector (pair K V))
    (pre rest : List (pair K V)) (hv : v.data = pre ++ rest)
    (hex : ∃ q ∈ rest, q.key_cmp q.key key = true) :
    ∃ A q B w, v.data = A ++ q :: B ∧ q.key_cmp q.key key = true ∧
      shrink_scan key v rest pre.length = some (some w) ∧ w.data = A ++ B ∧
      w.elem_copy_func = v.elem_copy_func := by
  induction rest generalizing pre with
  | nil =>
    obtain ⟨q, hq, _⟩ := hex
    cases hq
  | cons c rest ih =>
    by_cases hc : c.key_cmp c.key key = true
    · obtain ⟨h1, h2, h3⟩ := vector_erase_middle v pre rest c hv
      refine ⟨pre, c, rest, (vector_erase v pre.length).2, hv, hc, ?_, h2, h3⟩
      simp only [shrink_scan]
      rw [if_pos hc, if_pos (by rw [h1]; decide)]
    · have hv2 : v.data = (pre ++ [c]) ++ rest := by simp [hv]
      have hex2 : ∃ q ∈ rest, q.key_cmp q.key key = true := by
        obtain ⟨q, hq, hqk⟩ := hex
        rcases List.mem_cons.1 hq with h1 | h1
        · rw [h1] at hqk
          exact absurd hqk hc
        · exact ⟨q, h1, hqk⟩
      obtain ⟨A, q, B, w, h1, h2, h3, h4, h5⟩ := ih (pre ++ [c]) hv2 hex2
      refine ⟨A, q, B, w, h1, h2, ?_, h4, h5⟩
      simp only [shrink_scan]
      rw [if_neg hc]
      simpa using h3

/-- Replacing a chain by the chain without one of its pairs keeps the representation invariant
and removes that pair, and only it, from the stored pairs. -/
theorem table_erase_ok {K V : Type} (f : K → Nat) (cap : Nat)
    (bs : List (Option (vector (pair K V)))) (h : table_ok f cap bs) (ind : Nat)
    (cv w : vector (pair K V)) (hget : bs.getD ind none = some cv)
    (A B : List (pair K V)) (q : pair K V) (hd : cv.data = A ++ q :: B) (hw : w.data = A ++ B)
    (hwc : w.elem_copy_func = cv.elem_copy_func) :
    table_ok f cap (bs.set ind (some w)) ∧
      (all_pairs bs).Perm (q :: all_pairs (bs.set ind (some w))) := by
  have hget2 := getElem?_of_getD _ _ _ hget
  have hlt : ind < bs.length := (List.getElem?_eq_some_iff.1 hget2).1
  obtain ⟨X, Y, hX, hY⟩ := all_pairs_set bs ind hlt (some w)
  rw [hget] at hX
  have hX2 : all_pairs bs = (X ++ A) ++ q :: (B ++ Y) := by
    rw [hX]
    simp [slot_data, hd]
  have hY2 : all_pairs (bs.set ind (some w)) = (X ++ A) ++ (B ++ Y) := by
    rw [hY]
    simp [slot_data, hw]
  have hperm : (all_pairs bs).Perm (q :: all_pairs (bs.set ind (some w))) := by
    rw [hX2, hY2]
    exact List.perm_middle
  have hsub : ∀ p, p ∈ all_pairs (bs.set ind (some w)) → p ∈ all_pairs bs := fun p hp =>
    hperm.symm.subset (List.mem_cons_of_mem _ hp)
  refine ⟨⟨?_, h.cap_pos, ?_, ?_, ?_, ?_⟩, hperm⟩
  · rw [List.length_set]
    exact h.len
  · intro v hv
    rcases List.mem_or_eq_of_mem_set hv with h1 | h1
    · exact h.copy v h1
    · have h2 : v = w := Option.some.inj h1
      rw [h2, hwc]
      exact h.copy cv (List.mem_iff_getElem?.2 ⟨ind, hget2⟩)
  · intro p hp
    exact h.law p (hsub p hp)
  · intro i v hi p hp
    rw [List.getElem?_set] at hi
    by_cases hii : ind = i
    · rw [if_pos hii, if_pos hlt] at hi
      have h2 : v = w := (Option.some.inj (Option.some.inj hi)).symm
      rw [h2, hw] at hp
      rw [← hii]
      apply h.placed ind cv hget2 p
      rw [hd]
      rcases List.mem_append.1 hp with h3 | h3
      · exact List.mem_append_left _ h3
      · exact List.mem_append_right _ (List.mem_cons_of_mem _ h3)
    · rw [if_neg hii] at hi
      exact h.placed i v hi p hp
  · have h1 := ((hperm.map pair.key).nodup_iff).1 h.nodup
    rw [List.map_cons] at h1
    exact (List.nodup_cons.1 h1).2

/-! ## The two operations on a well-formed map -/

theorem pow2_half (c s : Nat) (hp : ∃ e : Nat, c = 2 ^ e) (hs : 1 ≤ s) (hl : 4 * s ≤ 3 * c) :
    0 < c / 2 ∧ c = 2 * (c / 2) ∧ ∃ e : Nat, c / 2 = 2 ^ e := by
  obtain ⟨e, he⟩ := hp
  cases e with
  | zero =>
    rw [pow_zero] at he
    omega
  | succ e =>
    have h1 : c = 2 * 2 ^ e := by rw [he, pow_succ]; ring
    have h2 : c / 2 = 2 ^ e := by omega
    have h3 : 0 < 2 ^ e := Nat.pow_pos (by decide)
    exact ⟨by omega, by omega, e, h2⟩

/-- An insert of an absent key succeeds: the pair is added, the size grows by one, the capacity
doubles exactly when `3 * capacity < 4 * (size + 1)`, and the invariant is kept. -/
theorem insert_spec {K V : Type} (m : hashmap K V) (p : pair K V) (hm : WF m) (hp : lawful p)
    (habs : hashmap_at m p.key = none) :
    (hashmap_insert m p).1 = 1 ∧ WF (hashmap_insert m p).2 ∧
      (hashmap_insert m p).2.hash_func = m.hash_func ∧
      (hashmap_insert m p).2.size = m.size + 1 ∧
      (hashmap_insert m p).2.capacity =
        (if 3 * m.capacity < 4 * (m.size + 1) then m.capacity * 2 else m.capacity) ∧
      (all_pairs (hashmap_insert m p).2.buckets).Perm (p :: all_pairs m.buckets) := by
  have hnew : p.key ∉ (all_pairs m.buckets).map pair.key := by
    intro hin
    obtain ⟨q, hq, hqk⟩ := List.mem_map.1 hin
    exact (hashmap_at_none_iff m hm.table p.key).1 habs q hq hqk
  have hcond := max_load_iff { m with size := m.size + 1 } hm.table.cap_pos
  have hpos := hm.table.cap_pos
  have hsize := hm.size_eq
  have hmax := hm.max_load
  have hmin := hm.min_load
  obtain ⟨e, he⟩ := hm.pow2
  by_cases hg : 3 * m.capacity < 4 * (m.size + 1)
  · obtain ⟨htab, hperm⟩ := resize_ok { m with size := m.size + 1 } MAGNIFY (m.capacity * 2)
      (by simp [MAGNIFY, HASH_MAP_GROWTH_FACTOR]) (by omega) hm.table
    have hnew2 : p.key ∉
        (all_pairs (resize_buckets { m with size := m.size + 1 } MAGNIFY)).map pair.key := by
      intro hin
      exact hnew ((hperm.map pair.key).subset hin)
    obtain ⟨hok, A, B, hA, hB⟩ := bucket_push_back_ok m.hash_func (m.capacity * 2)
      (resize_buckets { m with size := m.size + 1 } MAGNIFY)
      (m.hash_func p.key &&& (m.capacity * 2 - 1)) p htab hp rfl hnew2
    have heq : hashmap_insert m p =
        (1, { buckets := (bucket_push_back (resize_buckets { m with size := m.size + 1 } MAGNIFY)
                (m.hash_func p.key &&& (m.capacity * 2 - 1)) p).2,
              size := m.size + 1, capacity := m.capacity * 2, hash_func := m.hash_func }) := by
      unfold hashmap_insert
      rw [habs]
      simp only [Option.isSome_none, Bool.false_eq_true, if_false]
      rw [if_pos (hcond.2 hg)]
      simp only [HASH_MAP_GROWTH_FACTOR]
      rw [if_pos (by rw [bucket_push_back_fst]; decide)]
    have hperm2 : (all_pairs (bucket_push_back
        (resize_buckets { m with size := m.size + 1 } MAGNIFY)
        (m.hash_func p.key &&& (m.capacity * 2 - 1)) p).2).Perm (p :: all_pairs m.buckets) := by
      rw [hB]
      refine List.perm_middle.trans (List.Perm.cons p ?_)
      rw [← hA]
      exact hperm
    rw [heq]
    refine ⟨rfl, ⟨hok, ?_, ⟨e + 1, ?_⟩, ?_, ?_⟩, rfl, rfl, ?_, hperm2⟩
    · show m.size + 1 = _
      rw [hperm2.length_eq, List.length_cons, hsize]
    · show m.capacity * 2 = _
      rw [he, pow_succ]
    · show 4 * (m.size + 1) ≤ 3 * (m.capacity * 2)
      omega
    · show m.capacity * 2 ≤ 4 * (m.size + 1) ∨ m.capacity * 2 ≤ 16
      omega
    · show m.capacity * 2 = _
      rw [if_pos hg]
  · obtain ⟨hok, A, B, hA, hB⟩ := bucket_push_back_ok m.hash_func m.capacity m.buckets
      (m.hash_func p.key &&& (m.capacity - 1)) p hm.table hp rfl hnew
    have heq : hashmap_insert m p =
        (1, { buckets := (bucket_push_back m.buckets (m.hash_func p.key &&& (m.capacity - 1)) p).2,
              size := m.size + 1, capacity := m.capacity, hash_func := m.hash_func }) := by
      unfold hashmap_insert
      rw [habs]
      simp only [Option.isSome_none, Bool.false_eq_true, if_false]
      rw [if_neg (fun h => hg (hcond.1 h))]
      rw [if_pos (by rw [bucket_push_back_fst]; decide)]
    have hperm2 : (all_pairs (bucket_push_back m.buckets
        (m.hash_func p.key &&& (m.capacity - 1)) p).2).Perm (p :: all_pairs m.buckets) := by
      rw [hB, hA]
      exact List.perm_middle
    rw [heq]
    refine ⟨rfl, ⟨hok, ?_, ⟨e, he⟩, ?_, ?_⟩, rfl, rfl, ?_, hperm2⟩
    · show m.size + 1 = _
      rw [hperm2.length_eq, List.length_cons, hsize]
    · show 4 * (m.size + 1) ≤ 3 * m.capacity
      omega
    · show m.capacity ≤ 4 * (m.size + 1) ∨ m.capacity ≤ 16
      omega
    · show m.capacity = _
      rw [if_neg hg]

/-- In a well-formed table the chain of the slot of `k` holds every stored pair of key `k`. -/
theorem chain_of_mem {K V : Type} (f : K → Nat) (cap : Nat)
    (bs : List (Option (vector (pair K V)))) (h : table_ok f cap bs) (q : pair K V)
    (hq : q ∈ all_pairs bs) :
    ∃ cv, bs.getD (f q.key &&& (cap - 1)) none = some cv ∧ q ∈ cv.data := by
  obtain ⟨i, cv, hi, hqv⟩ := (mem_all_pairs _ _).1 hq
  have hidx := h.placed i cv hi q hqv
  exact ⟨cv, by rw [hidx]; exact getD_of_getElem? _ _ _ hi, hqv⟩

/-- An erase of a present key succeeds: one pair of that key is removed, the size drops by one,
the capacity is halved exactly when `4 * (size - 1) < capacity`, and the invariant is kept. -/
theorem erase_spec {K V : Type} (m : hashmap K V) (k : K) (hm : WF m)
    (hpres : hashmap_at m k ≠ none) :
    (hashmap_erase m k).1 = 1 ∧ WF (hashmap_erase m k).2 ∧
      (hashmap_erase m k).2.hash_func = m.hash_func ∧
      (hashmap_erase m k).2.size + 1 = m.size ∧
      (hashmap_erase m k).2.capacity =
        (if 4 * (m.size - 1) < m.capacity then m.capacity / 2 else m.capacity) ∧
      ∃ q : pair K V, q.key = k ∧
        (all_pairs m.buckets).Perm (q :: all_pairs (hashmap_erase m k).2.buckets) := by
  obtain ⟨v0, hat⟩ := Option.ne_none_iff_exists'.1 hpres
  obtain ⟨q0, hq0, hq0k, _⟩ := (hashmap_at_some_iff m hm.table k v0).1 hat
  have hcond := min_load_iff { m with size := m.size - 1 } hm.table.cap_pos
  have hpos := hm.table.cap_pos
  have hsize := hm.size_eq
  have hmax := hm.max_load
  have hmin := hm.min_load
  have hs1 : 1 ≤ m.size := by
    rw [hsize]
    exact List.length_pos_of_mem hq0
  have hcmp : ∀ q ∈ all_pairs m.buckets, q.key_cmp q.key k = true → q.key = k := fun q hq hqk =>
    (hm.table.law q hq q.key k).1 hqk
  have hq0c : q0.key_cmp q0.key k = true := (hm.table.law q0 hq0 q0.key k).2 hq0k
  by_cases hs : 4 * (m.size - 1) < m.capacity
  · obtain ⟨hhalf, hdouble, hpow⟩ := pow2_half m.capacity m.size hm.pow2 hs1 hmax
    obtain ⟨htab, hperm⟩ := resize_ok { m with size := m.size - 1 } MINIMIZE (m.capacity / 2)
      (by simp [MINIMIZE, HASH_MAP_GROWTH_FACTOR]) hhalf hm.table
    have hq0n : q0 ∈ all_pairs (resize_buckets { m with size := m.size - 1 } MINIMIZE) :=
      hperm.symm.subset hq0
    obtain ⟨cv, hget, hq0v⟩ := chain_of_mem m.hash_func (m.capacity / 2) _ htab q0 hq0n
    rw [hq0k] at hget
    obtain ⟨A, q, B, w, hd, hqc, hscan, hw, hwc⟩ :=
      shrink_scan_spec k cv [] cv.data rfl ⟨q0, hq0v, hq0c⟩
    obtain ⟨hok, hperm2⟩ := table_erase_ok m.hash_func (m.capacity / 2) _ htab _ cv w hget
      A B q hd hw hwc
    have hqall : q ∈ all_pairs m.buckets :=
      hperm.subset (hperm2.symm.subset (List.mem_cons_self _ _))
    have heq : hashmap_erase m k =
        (1, { buckets := (resize_buckets { m with size := m.size - 1 } MINIMIZE).set
                (m.hash_func k &&& (m.capacity / 2 - 1)) (some w),
              size := m.size - 1, capacity := m.capacity / 2, hash_func := m.hash_func }) := by
      unfold hashmap_erase
      rw [hat]
      simp only [Option.isNone_some, Bool.false_eq_true, if_false]
      rw [if_pos (hcond.2 hs)]
      simp only [HASH_MAP_GROWTH_FACTOR]
      rw [hget]
      simp only []
      rw [show shrink_scan k cv cv.data 0 = some (some w) from hscan]
    have hperm3 := hperm.symm.trans hperm2
    rw [heq]
    refine ⟨rfl, ⟨hok, ?_, hpow, ?_, ?_⟩, rfl, ?_, ?_, q, hcmp q hqall hqc, hperm3⟩
    · show m.size - 1 = _
      have h1 := hperm3.length_eq
      rw [List.length_cons, ← hsize] at h1
      exact Nat.sub_eq_of_eq_add h1
    · show 4 * (m.size - 1) ≤ 3 * (m.capacity / 2)
      omega
    · show m.capacity / 2 ≤ 4 * (m.size - 1) ∨ m.capacity / 2 ≤ 16
      omega
    · show m.size - 1 + 1 = m.size
      omega
    · show m.capacity / 2 = _
      rw [if_pos hs]
  · obtain ⟨cv, hget, hq0v⟩ := chain_of_mem m.hash_func m.capacity _ hm.table q0 hq0
    rw [hq0k] at hget
    obtain ⟨A, q, B, w, hd, hqc, hscan, hw, hwc⟩ :=
      erase_scan_spec k cv [] cv.data rfl ⟨q0, hq0v, hq0c⟩
    obtain ⟨hok, hperm2⟩ := table_erase_ok m.hash_func m.capacity _ hm.table _ cv w hget
      A B q hd hw hwc
    have hqall : q ∈ all_pairs m.buckets := hperm2.symm.subset (List.mem_cons_self _ _)
    have heq : hashmap_erase m k =
        (1, { buckets := m.buckets.set (m.hash_func k &&& (m.capacity - 1)) (some w),
              size := m.size - 1, capacity := m.capacity, hash_func := m.hash_func }) := by
      unfold hashmap_erase
      rw [hat]
      simp only [Option.isNone_some, Bool.false_eq_true, if_false]
      rw [if_neg (fun h => hs (hcond.1 h))]
      rw [hget]
      simp only []
      rw [show erase_scan k cv cv.data 0 = some w from hscan]
    rw [heq]
    obtain ⟨e, he⟩ := hm.pow2
    refine ⟨rfl, ⟨hok, ?_, ⟨e, he⟩, ?_, ?_⟩, rfl, ?_, ?_, q, hcmp q hqall hqc, hperm2⟩
    · show m.size - 1 = _
      have h1 := hperm2.length_eq
      rw [List.length_cons, ← hsize] at h1
      exact Nat.sub_eq_of_eq_add h1
    · show 4 * (m.size - 1) ≤ 3 * m.capacity
      omega
    · show m.capacity ≤ 4 * (m.size - 1) ∨ m.capacity ≤ 16
      omega
    · show m.size - 1 + 1 = m.size
      omega
    · show m.capacity = _
      rw [if_neg hs]

/-- An insert of a present key fails and leaves the map as it was. -/
theorem insert_present {K V : Type} (m : hashmap K V) (p : pair K V)
    (hpres : hashmap_at m p.key ≠ none) : hashmap_insert m p = (0, m) := by
  obtain ⟨v0, hat⟩ := Option.ne_none_iff_exists'.1 hpres
  unfold hashmap_insert
  rw [hat]
  rfl

/-- An erase of an absent key fails and leaves the map as it was. -/
theorem erase_absent {K V : Type} (m : hashmap K V) (k : K)
    (habs : hashmap_at m k = none) : hashmap_erase m k = (0, m) := by
  unfold hashmap_erase
  rw [habs]
  rfl

theorem WF_alloc {K V : Type} (func : K → Nat) : WF (hashmap_alloc func : hashmap K V) := by
  refine ⟨table_ok_empty func 16 (by decide), ?_, ⟨4, rfl⟩, ?_, ?_⟩
  · show 0 = (all_pairs (List.replicate HASH_MAP_INITIAL_CAP none)).length
    rw [all_pairs_replicate]
    rfl
  · show 4 * 0 ≤ 3 * 16
    decide
  · right
    exact Nat.le_refl 16

theorem hashmap_at_alloc {K V : Type} (func : K → Nat) (k : K) :
    hashmap_at (hashmap_alloc func : hashmap K V) k = none := by
  rw [hashmap_at_none_iff _ (WF_alloc func).table]
  intro p hp
  have h1 : all_pairs (hashmap_alloc func : hashmap K V).buckets = [] := all_pairs_replicate _
  rw [h1] at hp
  cases hp

/-- Every call keeps the invariant and the hash function. -/
theorem run_call_WF {K V : Type} (m : hashmap K V) (c : call K V) (hm : WF m) (hc : c.lawful) :
    WF (run_call m c).2 ∧ (run_call m c).2.hash_func = m.hash_func := by
  cases c with
  | insert p =>
    show WF (hashmap_insert m p).2 ∧ (hashmap_insert m p).2.hash_func = m.hash_func
    by_cases h : hashmap_at m p.key = none
    · obtain ⟨_, h2, h3, _⟩ := insert_spec m p hm hc h
      exact ⟨h2, h3⟩
    · rw [insert_present m p h]
      exact ⟨hm, rfl⟩
  | erase k =>
    show WF (hashmap_erase m k).2 ∧ (hashmap_erase m k).2.hash_func = m.hash_func
    by_cases h : hashmap_at m k = none
    · rw [erase_absent m k h]
      exact ⟨hm, rfl⟩
    · obtain ⟨_, h2, h3, _⟩ := erase_spec m k hm h
      exact ⟨h2, h3⟩

/-- Every reachable map satisfies the invariant. -/
theorem reachable_WF {K V : Type} (func : K → Nat) (m : hashmap K V) (h : reachable func m) :
    WF m := by
  induction h with
  | alloc => exact WF_alloc func
  | step m c _ hc ih => exact (run_call_WF m c ih hc).1

theorem WF.cap_pos {K V : Type} {m : hashmap K V} (h : WF m) : 1 ≤ m.capacity :=
  h.table.cap_pos

/-! ## Lookups after a call -/

theorem at_insert_self {K V : Type} (m : hashmap K V) (p : pair K V) (hm : WF m) (hp : lawful p)
    (habs : hashmap_at m p.key = none) :
    hashmap_at (hashmap_insert m p).2 p.key = some p.value := by
  obtain ⟨_, h2, _, _, _, h6⟩ := insert_spec m p hm hp habs
  rw [hashmap_at_some_iff _ h2.table]
  exact ⟨p, h6.symm.subset (List.mem_cons_self _ _), rfl, rfl⟩

theorem at_insert_other {K V : Type} (m : hashmap K V) (p : pair K V) (hm : WF m) (hp : lawful p)
    (habs : hashmap_at m p.key = none) (k : K) (hk : k ≠ p.key) :
    hashmap_at (hashmap_insert m p).2 k = hashmap_at m k := by
  obtain ⟨_, h2, _, _, _, h6⟩ := insert_spec m p hm hp habs
  apply hashmap_at_congr m _ hm.table h2.table
  intro q hq
  rw [h6.mem_iff, List.mem_cons]
  constructor
  · rintro (h | h)
    · rw [h] at hq
      exact absurd hq.symm hk
    · exact h
  · exact Or.inr

theorem at_erase_self {K V : Type} (m : hashmap K V) (k : K) (hm : WF m)
    (hpres : hashmap_at m k ≠ none) : hashmap_at (hashmap_erase m k).2 k = none := by
  obtain ⟨_, h2, _, _, _, q, hqk, h6⟩ := erase_spec m k hm hpres
  rw [hashmap_at_none_iff _ h2.table]
  intro p hp hpk
  have h7 := ((h6.map pair.key).nodup_iff).1 hm.table.nodup
  rw [List.map_cons] at h7
  apply (List.nodup_cons.1 h7).1
  have h8 : q.key = p.key := hqk.trans hpk.symm
  rw [h8]
  exact List.mem_map_of_mem _ hp

theorem at_erase_other {K V : Type} (m : hashmap K V) (k : K) (hm : WF m)
    (hpres : hashmap_at m k ≠ none) (k2 : K) (hk : k2 ≠ k) :
    hashmap_at (hashmap_erase m k).2 k2 = hashmap_at m k2 := by
  obtain ⟨_, h2, _, _, _, q, hqk, h6⟩ := erase_spec m k hm hpres
  apply hashmap_at_congr m _ hm.table h2.table
  intro p hp
  rw [h6.mem_iff, List.mem_cons]
  constructor
  · exact Or.inr
  · rintro (h | h)
    · rw [h, hqk] at hp
      exact absurd hp.symm hk
    · exact h

/-! ## Sequences of calls -/

theorem present_iff_at {K V : Type} (m : hashmap K V) (hm : WF m) (k : K) :
    present m k ↔ hashmap_at m k ≠ none := by
  rw [Ne, hashmap_at_none_iff m hm.table]
  unfold present
  constructor
  · rintro ⟨q, hq, hk⟩ hall
    exact hall q hq hk
  · intro h
    by_contra hne
    exact h (fun q hq hk => hne ⟨q, hq, hk⟩)

theorem reachable_insert_all {K V : Type} (func : K → Nat) (m : hashmap K V)
    (ps : List (pair K V)) (hr : reachable func m) (hl : ∀ p ∈ ps, lawful p) :
    reachable func (hashmap_insert_all m ps).2 := by
  induction ps generalizing m with
  | nil => exact hr
  | cons p ps ih =>
    exact ih (hashmap_insert m p).2
      (reachable.step m (call.insert p) hr (hl p (List.mem_cons_self _ _)))
      (fun q hq => hl q (List.mem_cons_of_mem _ hq))

theorem reachable_erase_all {K V : Type} (func : K → Nat) (m : hashmap K V)
    (ks : List K) (hr : reachable func m) : reachable func (hashmap_erase_all m ks).2 := by
  induction ks generalizing m with
  | nil => exact hr
  | cons k ks ih =>
    exact ih (hashmap_erase m k).2 (reachable.step m (call.erase k) hr trivial)

/-- Inserting pairs of pairwise distinct absent keys: every call succeeds, the keys resolve to
their values, the other keys are not affected, and size and capacity follow the schedule. -/
theorem insert_all_spec {K V : Type} (m : hashmap K V) (ps : List (pair K V)) (hm : WF m)
    (hl : ∀ p ∈ ps, lawful p) (hd : (ps.map pair.key).Nodup)
    (habs : ∀ p ∈ ps, hashmap_at m p.key = none) :
    (hashmap_insert_all m ps).1 = List.replicate ps.length 1 ∧
      WF (hashmap_insert_all m ps).2 ∧
      (hashmap_insert_all m ps).2.size = m.size + ps.length ∧
      (hashmap_insert_all m ps).2.capacity = grow_schedule m.size m.capacity ps.length ∧
      (∀ p ∈ ps, hashmap_at (hashmap_insert_all m ps).2 p.key = some p.value) ∧
      (∀ k, k ∉ ps.map pair.key → hashmap_at (hashmap_insert_all m ps).2 k = hashmap_at m k) ∧
      (all_pairs (hashmap_insert_all m ps).2.buckets).Perm (ps ++ all_pairs m.buckets) := by
  induction ps generalizing m with
  | nil =>
    exact ⟨rfl, hm, rfl, rfl, fun p hp => absurd hp (List.not_mem_nil p), fun k _ => rfl,
      List.Perm.refl _⟩
  | cons p ps ih =>
    have hp := hl p (List.mem_cons_self _ _)
    have hpabs := habs p (List.mem_cons_self _ _)
    obtain ⟨h1, h2, _, h4, h5, h6⟩ := insert_spec m p hm hp hpabs
    rw [List.map_cons, List.nodup_cons] at hd
    have hne : ∀ q ∈ ps, q.key ≠ p.key := fun q hq hqk =>
      hd.1 (hqk ▸ List.mem_map_of_mem _ hq)
    have habs2 : ∀ q ∈ ps, hashmap_at (hashmap_insert m p).2 q.key = none := fun q hq => by
      rw [at_insert_other m p hm hp hpabs q.key (hne q hq)]
      exact habs q (List.mem_cons_of_mem _ hq)
    obtain ⟨i1, i2, i3, i4, i5, i6, i7⟩ :=
      ih (hashmap_insert m p).2 h2 (fun q hq => hl q (List.mem_cons_of_mem _ hq)) hd.2 habs2
    refine ⟨?_, i2, ?_, ?_, ?_, ?_,
      (i7.trans (List.Perm.append_left ps h6)).trans List.perm_middle⟩
    · show (hashmap_insert m p).1 :: (hashmap_insert_all (hashmap_insert m p).2 ps).1 = _
      rw [h1, i1]
      rfl
    · show (hashmap_insert_all (hashmap_insert m p).2 ps).2.size = _
      rw [i3, h4, List.length_cons]
      omega
    · show (hashmap_insert_all (hashmap_insert m p).2 ps).2.capacity = _
      rw [i4, h4, h5]
      rfl
    · intro q hq
      show hashmap_at (hashmap_insert_all (hashmap_insert m p).2 ps).2 q.key = _
      rcases List.mem_cons.1 hq with h | h
      · rw [h, i6 p.key hd.1]
        exact at_insert_self m p hm hp hpabs
      · exact i5 q h
    · intro k hk
      show hashmap_at (hashmap_insert_all (hashmap_insert m p).2 ps).2 k = _
      rw [List.map_cons, List.mem_cons, not_or] at hk
      rw [i6 k hk.2]
      exact at_insert_other m p hm hp hpabs k hk.1

/-- Erasing pairwise distinct present keys: every call succeeds, the keys are gone, the other
keys are not affected, and size and capacity follow the schedule. -/
theorem erase_all_spec {K V : Type} (m : hashmap K V) (ks : List K) (hm : WF m)
    (hd : ks.Nodup) (hpres : ∀ k ∈ ks, hashmap_at m k ≠ none) :
    (hashmap_erase_all m ks).1 = List.replicate ks.length 1 ∧
      WF (hashmap_erase_all m ks).2 ∧
      (hashmap_erase_all m ks).2.size + ks.length = m.size ∧
      (hashmap_erase_all m ks).2.capacity = shrink_schedule m.size m.capacity ks.length ∧
      (∀ k ∈ ks, hashmap_at (hashmap_erase_all m ks).2 k = none) ∧
      (∀ k, k ∉ ks → hashmap_at (hashmap_erase_all m ks).2 k = hashmap_at m k) := by
  induction ks generalizing m with
  | nil =>
    exact ⟨rfl, hm, rfl, rfl, fun k hk => absurd hk (List.not_mem_nil k), fun k _ => rfl⟩
  | cons k ks ih =>
    have hk := hpres k (List.mem_cons_self _ _)
    obtain ⟨h1, h2, _, h4, h5, _⟩ := erase_spec m k hm hk
    rw [List.nodup_cons] at hd
    have hne : ∀ q ∈ ks, q ≠ k := fun q hq hqk => hd.1 (hqk ▸ hq)
    have hpres2 : ∀ q ∈ ks, hashmap_at (hashmap_erase m k).2 q ≠ none := fun q hq => by
      rw [at_erase_other m k hm hk q (hne q hq)]
      exact hpres q (List.mem_cons_of_mem _ hq)
    obtain ⟨i1, i2, i3, i4, i5, i6⟩ := ih (hashmap_erase m k).2 h2 hd.2 hpres2
    refine ⟨?_, i2, ?_, ?_, ?_, ?_⟩
    · show (hashmap_erase m k).1 :: (hashmap_erase_all (hashmap_erase m k).2 ks).1 = _
      rw [h1, i1]
      rfl
    · show (hashmap_erase_all (hashmap_erase m k).2 ks).2.size + (ks.length + 1) = _
      omega
    · show (hashmap_erase_all (hashmap_erase m k).2 ks).2.capacity = _
      have h6 : (hashmap_erase m k).2.size = m.size - 1 := by omega
      rw [i4, h6, h5]
      rfl
    · intro q hq
      show hashmap_at (hashmap_erase_all (hashmap_erase m k).2 ks).2 q = _
      rcases List.mem_cons.1 hq with h | h
      · rw [h, i6 k hd.1]
        exact at_erase_self m k hm hk
      · exact i5 q h
    · intro q hq
      show hashmap_at (hashmap_erase_all (hashmap_erase m k).2 ks).2 q = _
      rw [List.mem_cons, not_or] at hq
      rw [i6 q hq.2]
      exact at_erase_other m k hm hk q hq.1

theorem test_pair_lawful (k v : Nat) : lawful (test_pair k v) := by
  intro a b
  simp [test_pair]

theorem test_pairs_lawful (n : Nat) : ∀ p ∈ test_pairs n, lawful p := by
  intro p hp
  obtain ⟨i, _, hi⟩ := List.mem_map.1 hp
  rw [← hi]
  exact test_pair_lawful i i

theorem test_pairs_keys (n : Nat) : (test_pairs n).map pair.key = List.range n := by
  unfold test_pairs
  rw [List.map_map]
  exact List.map_id _

theorem test_pairs_nodup (n : Nat) : ((test_pairs n).map pair.key).Nodup := by
  rw [test_pairs_keys]
  exact List.nodup_range n

theorem test_map_reachable (n : Nat) : reachable (fun k => k) (test_map n) :=
  reachable_insert_all _ _ _ reachable.alloc (test_pairs_lawful n)

theorem test_map_lookup (n k : Nat) (hk : k < n) : hashmap_at (test_map n) k = some k := by
  have h1 := (insert_all_spec (hashmap_alloc (fun k => k)) (test_pairs n) (WF_alloc _)
    (test_pairs_lawful n) (test_pairs_nodup n)
    (fun p _ => hashmap_at_alloc _ p.key)).2.2.2.2.1
  exact h1 (test_pair k k) (List.mem_map.2 ⟨k, List.mem_range.2 hk, rfl⟩)

theorem test_map_present (n k : Nat) (hk : k < n) : present (test_map n) k := by
  rw [present_iff_at _ (reachable_WF _ _ (test_map_reachable n)), test_map_lookup n k hk]
  exact Option.some_ne_none k

theorem test_map_mem (n k : Nat) (hk : k < n) :
    test_pair k k ∈ all_pairs (test_map n).buckets := by
  have h1 := (insert_all_spec (hashmap_alloc (fun k => k)) (test_pairs n) (WF_alloc _)
    (test_pairs_lawful n) (test_pairs_nodup n)
    (fun p _ => hashmap_at_alloc _ p.key)).2.2.2.2.2.2
  exact h1.symm.subset
    (List.mem_append_left _ (List.mem_map.2 ⟨k, List.mem_range.2 hk, rfl⟩))

theorem test_map_absent (n k : Nat) (hk : n ≤ k) : ¬ present (test_map n) k := by
  rw [present_iff_at _ (reachable_WF _ _ (test_map_reachable n))]
  have h1 := (insert_all_spec (hashmap_alloc (fun k => k)) (test_pairs n) (WF_alloc _)
    (test_pairs_lawful n) (test_pairs_nodup n)
    (fun p _ => hashmap_at_alloc _ p.key)).2.2.2.2.2.1 k
    (by rw [test_pairs_keys, List.mem_range]; omega)
  have h2 : hashmap_at (test_map n) k = none := by
    rw [← hashmap_at_alloc (fun k => k) k]
    exact h1
  rw [h2]
  exact fun h => h rfl

/-! ## The schedules of the test suite -/

theorem grow_table : ∀ n, n ≤ 48 →
    grow_schedule 0 16 n = if n ≤ 12 then 16 else if n ≤ 24 then 32 else 64 := by
  decide

theorem shrink_table : ∀ j, j ≤ 34 →
    shrink_schedule 34 64 j =
      if 15 < 34 - j then 64 else if 8 ≤ 34 - j then 32 else if 4 ≤ 34 - j then 16
      else if 2 ≤ 34 - j then 8 else if 1 ≤ 34 - j then 4 else 2 := by
  decide

theorem load_table (i c : Nat) (hi : i ≤ 34)
    (hc : c = if 15 < i then 64 else if 8 ≤ i then 32 else if 4 ≤ i then 16
      else if 2 ≤ i then 8 else if 1 ≤ i then 4 else 2) :
    (if c = 0 then (-1 : ℚ) else (i : ℚ) / (c : ℚ)) = test_load_factor i := by
  subst hc
  unfold test_load_factor
  interval_cases i <;> norm_num

/-- The capacity 1 is reached: four rounds of inserting and erasing one key, starting from the
fresh map, halve the 16 slots four times. -/
theorem capacity_one_reachable :
    reachable (fun k => k)
        (hashmap_erase (hashmap_insert (hashmap_erase (hashmap_insert (hashmap_erase
          (hashmap_insert (hashmap_erase (test_map 1) 0).2 (test_pair 0 0)).2 0).2
          (test_pair 0 0)).2 0).2 (test_pair 0 0)).2 0).2 ∧
      (hashmap_erase (hashmap_insert (hashmap_erase (hashmap_insert (hashmap_erase
        (hashmap_insert (hashmap_erase (test_map 1) 0).2 (test_pair 0 0)).2 0).2
        (test_pair 0 0)).2 0).2 (test_pair 0 0)).2 0).2.capacity = 1 := by
  refine ⟨?_, by decide!⟩
  have l := test_pair_lawful 0 0
  have h0 := test_map_reachable 1
  have h1 := reachable.step _ (call.erase 0) h0 trivial
  have h2 := reachable.step _ (call.insert (test_pair 0 0)) h1 l
  have h3 := reachable.step _ (call.erase 0) h2 trivial
  have h4 := reachable.step _ (call.insert (test_pair 0 0)) h3 l
  have h5 := reachable.step _ (call.erase 0) h4 trivial
  have h6 := reachable.step _ (call.insert (test_pair 0 0)) h5 l
  exact reachable.step _ (call.erase 0) h6 trivial

/-! ## The claims -/

/-- C1 (round trip): inserting pairs with pairwise distinct keys and lawful key comparators into
a map fresh from `hashmap_alloc` makes every `hashmap_insert` return 1; afterwards `hashmap_at`
on each inserted key returns the value inserted with it, and `hashmap_at` on a key that was never
inserted returns NULL. -/
theorem C1_round_trip {K V : Type} (func : K → Nat) (ps : List (pair K V))
    (hl : ∀ p ∈ ps, lawful p) (hd : (ps.map pair.key).Nodup) :
    (hashmap_insert_all (hashmap_alloc func) ps).1 = List.replicate ps.length 1 ∧
      (∀ p ∈ ps, hashmap_at (hashmap_insert_all (hashmap_alloc func) ps).2 p.key = some p.value) ∧
      (∀ k, k ∉ ps.map pair.key →
        hashmap_at (hashmap_insert_all (hashmap_alloc func) ps).2 k = none) := by
  obtain ⟨h1, _, _, _, h5, h6, _⟩ :=
    insert_all_spec (hashmap_alloc func) ps (WF_alloc func) hl hd
      (fun p _ => hashmap_at_alloc func p.key)
  refine ⟨h1, h5, fun k hk => ?_⟩
  rw [h6 k hk]
  exact hashmap_at_alloc func k

/-- Witness of C1: the 34 pairs of the test suite, hashed by their key. -/
theorem C1_round_trip_witness :
    (∀ p ∈ test_pairs 34, lawful p) ∧ ((test_pairs 34).map pair.key).Nodup ∧
      ((hashmap_insert_all (hashmap_alloc (fun k => k)) (test_pairs 34)).1 =
          List.replicate (test_pairs 34).length 1 ∧
        (∀ p ∈ test_pairs 34,
          hashmap_at (hashmap_insert_all (hashmap_alloc (fun k => k)) (test_pairs 34)).2 p.key =
            some p.value) ∧
        (∀ k, k ∉ (test_pairs 34).map pair.key →
          hashmap_at (hashmap_insert_all (hashmap_alloc (fun k => k)) (test_pairs 34)).2 k =
            none)) :=
  ⟨test_pairs_lawful 34, test_pairs_nodup 34,
    C1_round_trip (fun k => k) (test_pairs 34) (test_pairs_lawful 34) (test_pairs_nodup 34)⟩

/-- C2 (resize correctness): when a successful `hashmap_insert` or `hashmap_erase` of key `k` on
a reachable map changes the capacity, the capacity was doubled or halved and `hashmap_at` answers
every other key as before the call: a key that was present keeps its value, a key that was absent
stays absent. -/
theorem C2_resize_keeps_other_keys {K V : Type} (func : K → Nat) (m : hashmap K V)
    (c : call K V) (k2 : K) (hr : reachable func m) (hc : c.lawful)
    (hok : (run_call m c).1 = 1) (hcap : (run_call m c).2.capacity ≠ m.capacity)
    (hk : k2 ≠ c.key) :
    ((run_call m c).2.capacity = m.capacity * 2 ∨ (run_call m c).2.capacity * 2 = m.capacity) ∧
      hashmap_at (run_call m c).2 k2 = hashmap_at m k2 := by
  have hm := reachable_WF func m hr
  cases c with
  | insert p =>
    by_cases h : hashmap_at m p.key = none
    · obtain ⟨_, _, _, _, h5, _⟩ := insert_spec m p hm hc h
      refine ⟨Or.inl ?_, at_insert_other m p hm hc h k2 hk⟩
      show (hashmap_insert m p).2.capacity = m.capacity * 2
      rw [h5]
      split
      · rfl
      · rename_i hno
        exact absurd (h5.trans (if_neg hno)) hcap
    · have h1 : (hashmap_insert m p).1 = 1 := hok
      rw [insert_present m p h] at h1
      have h2 : (0 : Int) = 1 := h1
      exact absurd h2 (by decide)
  | erase k =>
    by_cases h : hashmap_at m k = none
    · have h1 : (hashmap_erase m k).1 = 1 := hok
      rw [erase_absent m k h] at h1
      have h2 : (0 : Int) = 1 := h1
      exact absurd h2 (by decide)
    · obtain ⟨_, _, _, h4, h5, _⟩ := erase_spec m k hm h
      refine ⟨Or.inr ?_, at_erase_other m k hm h k2 hk⟩
      show (hashmap_erase m k).2.capacity * 2 = m.capacity
      rw [h5]
      split
      · have h6 := (pow2_half m.capacity m.size hm.pow2 (by omega) hm.max_load).2.1
        omega
      · rename_i hno
        exact absurd (h5.trans (if_neg hno)) hcap

/-- Witness of C2: the thirteenth insert of the test suite, which grows the map from 16 to 32
slots. -/
theorem C2_resize_keeps_other_keys_witness :
    reachable (fun k => k) (test_map 12) ∧ (call.insert (test_pair 12 12)).lawful ∧
      (run_call (test_map 12) (call.insert (test_pair 12 12))).1 = 1 ∧
      (run_call (test_map 12) (call.insert (test_pair 12 12))).2.capacity ≠
        (test_map 12).capacity ∧
      3 ≠ (call.insert (test_pair 12 12)).key ∧
      ((run_call (test_map 12) (call.insert (test_pair 12 12))).2.capacity =
          (test_map 12).capacity * 2 ∨
        (run_call (test_map 12) (call.insert (test_pair 12 12))).2.capacity * 2 =
          (test_map 12).capacity) ∧
      hashmap_at (run_call (test_map 12) (call.insert (test_pair 12 12))).2 3 =
        hashmap_at (test_map 12) 3 :=
  ⟨test_map_reachable 12, test_pair_lawful 12 12, by decide!, by decide!, by decide,
    C2_resize_keeps_other_keys (fun k => k) (test_map 12) (call.insert (test_pair 12 12)) 3
      (test_map_reachable 12) (test_pair_lawful 12 12) (by decide!) (by decide!) (by decide)⟩

/-- C3 (uniqueness): on a reachable map that stores a pair `q` with the key of `in_pair`,
`hashmap_insert` returns 0 and leaves the map as it was (same size, same capacity, same slots),
and `hashmap_at` on that key still returns the value of `q`. -/
theorem C3_insert_present_key {K V : Type} (func : K → Nat) (m : hashmap K V)
    (in_pair q : pair K V) (hr : reachable func m) (hq : q ∈ all_pairs m.buckets)
    (hk : q.key = in_pair.key) :
    (hashmap_insert m in_pair).1 = 0 ∧
      (hashmap_insert m in_pair).2.size = m.size ∧
      (hashmap_insert m in_pair).2.capacity = m.capacity ∧
      (hashmap_insert m in_pair).2.buckets = m.buckets ∧
      hashmap_at (hashmap_insert m in_pair).2 in_pair.key = some q.value := by
  have hm := reachable_WF func m hr
  have hat : hashmap_at m in_pair.key = some q.value :=
    (hashmap_at_some_iff m hm.table in_pair.key q.value).2 ⟨q, hq, hk, rfl⟩
  rw [insert_present m in_pair (by rw [hat]; exact Option.some_ne_none _)]
  exact ⟨rfl, rfl, rfl, rfl, hat⟩

/-- Witness of C3: the test suite inserts its first key a second time, here with a new value. -/
theorem C3_insert_present_key_witness :
    reachable (fun k => k) (test_map 34) ∧ test_pair 0 0 ∈ all_pairs (test_map 34).buckets ∧
      (test_pair 0 0).key = (test_pair 0 99).key ∧
      ((hashmap_insert (test_map 34) (test_pair 0 99)).1 = 0 ∧
        (hashmap_insert (test_map 34) (test_pair 0 99)).2.size = (test_map 34).size ∧
        (hashmap_insert (test_map 34) (test_pair 0 99)).2.capacity = (test_map 34).capacity ∧
        (hashmap_insert (test_map 34) (test_pair 0 99)).2.buckets = (test_map 34).buckets ∧
        hashmap_at (hashmap_insert (test_map 34) (test_pair 0 99)).2 (test_pair 0 99).key =
          some (test_pair 0 0).value) :=
  ⟨test_map_reachable 34, test_map_mem 34 0 (by decide), rfl,
    C3_insert_present_key (fun k => k) (test_map 34) (test_pair 0 99) (test_pair 0 0)
      (test_map_reachable 34) (test_map_mem 34 0 (by decide)) rfl⟩

/-- C4 (erase completeness): on a reachable map that holds the key `k`, `hashmap_erase` returns
1, decreases the size by exactly 1 and leaves `hashmap_at` on `k` at NULL. Consequently erasing
distinct keys `ks` that the map holds, one by one, succeeds at every call, leaves the size at
`n - i` after `i` erases, where `n` is the size before, leaves every erased key absent, and
leaves the size at 0 when `ks` are all the keys that the map held. -/
theorem C4_erase_completeness {K V : Type} (func : K → Nat) (m : hashmap K V) (k : K)
    (ks : List K) (hr : reachable func m) (hk : present m k) (hks : ks.Nodup)
    (hsub : ∀ k ∈ ks, present m k) :
    ((hashmap_erase m k).1 = 1 ∧ (hashmap_erase m k).2.size + 1 = m.size ∧
        hashmap_at (hashmap_erase m k).2 k = none) ∧
      ((hashmap_erase_all m ks).1 = List.replicate ks.length 1 ∧
        (hashmap_erase_all m ks).2.size = m.size - ks.length ∧
        ks.length ≤ m.size ∧
        (∀ k ∈ ks, hashmap_at (hashmap_erase_all m ks).2 k = none) ∧
        ((∀ q ∈ all_pairs m.buckets, q.key ∈ ks) → (hashmap_erase_all m ks).2.size = 0)) := by
  have hm := reachable_WF func m hr
  have hpres := (present_iff_at m hm k).1 hk
  obtain ⟨h1, _, _, h4, _, _⟩ := erase_spec m k hm hpres
  refine ⟨⟨h1, h4, at_erase_self m k hm hpres⟩, ?_⟩
  obtain ⟨e1, e2, e3, _, e5, e6⟩ :=
    erase_all_spec m ks hm hks (fun k1 hk1 => (present_iff_at m hm k1).1 (hsub k1 hk1))
  refine ⟨e1, by omega, by omega, e5, fun hall => ?_⟩
  have hnil : all_pairs (hashmap_erase_all m ks).2.buckets = [] := by
    apply List.eq_nil_iff_forall_not_mem.2
    intro q hq
    have h7 : hashmap_at (hashmap_erase_all m ks).2 q.key = some q.value :=
      (hashmap_at_some_iff _ e2.table q.key q.value).2 ⟨q, hq, rfl, rfl⟩
    by_cases hqk : q.key ∈ ks
    · rw [e5 q.key hqk] at h7
      exact Option.noConfusion h7
    · rw [e6 q.key hqk] at h7
      obtain ⟨q2, hq2, hq2k, _⟩ := (hashmap_at_some_iff m hm.table q.key q.value).1 h7
      exact hqk (hq2k ▸ hall q2 hq2)
  rw [e2.size_eq, hnil]
  rfl

/-- Witness of C4: the erase test of the test suite, 34 keys inserted and then erased in the
order of their insertion. -/
theorem C4_erase_completeness_witness :
    reachable (fun k => k) (test_map 34) ∧ present (test_map 34) 5 ∧
      (List.range 34).Nodup ∧ (∀ k ∈ List.range 34, present (test_map 34) k) ∧
      ((hashmap_erase (test_map 34) 5).1 = 1 ∧
        (hashmap_erase (test_map 34) 5).2.size + 1 = (test_map 34).size ∧
        hashmap_at (hashmap_erase (test_map 34) 5).2 5 = none) ∧
      ((hashmap_erase_all (test_map 34) (List.range 34)).1 =
          List.replicate (List.range 34).length 1 ∧
        (hashmap_erase_all (test_map 34) (List.range 34)).2.size =
          (test_map 34).size - (List.range 34).length ∧
        (List.range 34).length ≤ (test_map 34).size ∧
        (∀ k ∈ List.range 34,
          hashmap_at (hashmap_erase_all (test_map 34) (List.range 34)).2 k = none) ∧
        ((∀ q ∈ all_pairs (test_map 34).buckets, q.key ∈ List.range 34) →
          (hashmap_erase_all (test_map 34) (List.range 34)).2.size = 0)) :=
  ⟨test_map_reachable 34, test_map_present 34 5 (by decide), List.nodup_range 34,
    fun k hk => test_map_present 34 k (List.mem_range.1 hk),
    C4_erase_completeness (fun k => k) (test_map 34) 5 (List.range 34)
      (test_map_reachable 34) (test_map_present 34 5 (by decide)) (List.nodup_range 34)
      (fun k hk => test_map_present 34 k (List.mem_range.1 hk))⟩

/-- C5 (erase of an absent key): on a reachable map that does not hold the key, `hashmap_erase`
returns 0 and leaves the map as it was (same size, same capacity, same slots); no shrink takes
place, whatever the load factor. -/
theorem C5_erase_absent_key {K V : Type} (func : K → Nat) (m : hashmap K V) (k : K)
    (hr : reachable func m) (habs : ¬ present m k) :
    (hashmap_erase m k).1 = 0 ∧
      (hashmap_erase m k).2.size = m.size ∧
      (hashmap_erase m k).2.capacity = m.capacity ∧
      (hashmap_erase m k).2.buckets = m.buckets := by
  have hm := reachable_WF func m hr
  have hat : hashmap_at m k = none := by
    by_contra h
    exact habs ((present_iff_at m hm k).2 h)
  rw [erase_absent m k hat]
  exact ⟨rfl, rfl, rfl, rfl⟩

/-- Witness of C5: one key in 16 slots, a load factor below the minimum, and an erase of a key
that is not there. -/
theorem C5_erase_absent_key_witness :
    reachable (fun k => k) (test_map 1) ∧ ¬ present (test_map 1) 80 ∧
      hashmap_get_load_factor (test_map 1) < HASH_MAP_MIN_LOAD_FACTOR ∧
      ((hashmap_erase (test_map 1) 80).1 = 0 ∧
        (hashmap_erase (test_map 1) 80).2.size = (test_map 1).size ∧
        (hashmap_erase (test_map 1) 80).2.capacity = (test_map 1).capacity ∧
        (hashmap_erase (test_map 1) 80).2.buckets = (test_map 1).buckets) :=
  ⟨test_map_reachable 1, test_map_absent 1 80 (by decide), by decide!,
    C5_erase_absent_key (fun k => k) (test_map 1) 80 (test_map_reachable 1)
      (test_map_absent 1 80 (by decide))⟩

/-- Counterexample to C6 as stated: one insert and one erase from the fresh map lead to a
reachable map of 8 slots, fewer than the initial 16. -/
theorem C6_counterexample :
    reachable (fun k => k) (hashmap_erase (test_map 1) 0).2 ∧
      (hashmap_erase (test_map 1) 0).2.capacity = 8 ∧
      ¬ (16 ≤ (hashmap_erase (test_map 1) 0).2.capacity) :=
  ⟨reachable.step (test_map 1) (call.erase 0) (test_map_reachable 1) trivial,
    by decide!, by decide!⟩

/-- C6 as amended: in every reachable map the capacity is a power of two, hence at least 1, and
the array of slots has that length; the capacity is 16 right after `hashmap_alloc`. No floor at
the initial 16 is kept. -/
theorem C6_capacity_power_of_two {K V : Type} (func : K → Nat) (m : hashmap K V)
    (hr : reachable func m) :
    (∃ e : Nat, m.capacity = 2 ^ e) ∧ 1 ≤ m.capacity ∧ m.buckets.length = m.capacity ∧
      (hashmap_alloc func : hashmap K V).capacity = 16 := by
  have hm := reachable_WF func m hr
  exact ⟨hm.pow2, hm.table.cap_pos, hm.table.len, rfl⟩

/-- Witness of C6 as amended: the map of 8 slots of the counterexample. -/
theorem C6_capacity_power_of_two_witness :
    reachable (fun k => k) (hashmap_erase (test_map 1) 0).2 ∧
      ((∃ e : Nat, (hashmap_erase (test_map 1) 0).2.capacity = 2 ^ e) ∧
        1 ≤ (hashmap_erase (test_map 1) 0).2.capacity ∧
        (hashmap_erase (test_map 1) 0).2.buckets.length =
          (hashmap_erase (test_map 1) 0).2.capacity ∧
        (hashmap_alloc (fun k => k) : hashmap Nat Nat).capacity = 16) :=
  ⟨reachable.step (test_map 1) (call.erase 0) (test_map_reachable 1) trivial,
    C6_capacity_power_of_two (fun k => k) (hashmap_erase (test_map 1) 0).2
      (reachable.step (test_map 1) (call.erase 0) (test_map_reachable 1) trivial)⟩

/-- C7 (maximum load): after a successful `hashmap_insert` on a reachable map the load factor is
at most 0.75, that is `4 * size <= 3 * capacity`, and the capacity is the one before the call or
its double: one doubling restores the bound. -/
theorem C7_max_load_after_insert {K V : Type} (func : K → Nat) (m : hashmap K V)
    (in_pair : pair K V) (hr : reachable func m) (hl : lawful in_pair)
    (hok : (hashmap_insert m in_pair).1 = 1) :
    4 * (hashmap_insert m in_pair).2.size ≤ 3 * (hashmap_insert m in_pair).2.capacity ∧
      hashmap_get_load_factor (hashmap_insert m in_pair).2 ≤ HASH_MAP_MAX_LOAD_FACTOR ∧
      ((hashmap_insert m in_pair).2.capacity = m.capacity ∨
        (hashmap_insert m in_pair).2.capacity = m.capacity * 2) := by
  have hm := reachable_WF func m hr
  by_cases h : hashmap_at m in_pair.key = none
  · obtain ⟨_, h2, _, _, h5, _⟩ := insert_spec m in_pair hm hl h
    refine ⟨h2.max_load, ?_, ?_⟩
    · apply not_lt.1
      intro hlt
      have h6 := (max_load_iff _ h2.table.cap_pos).1 hlt
      have h7 := h2.max_load
      omega
    · rw [h5]
      split
      · exact Or.inr rfl
      · exact Or.inl rfl
  · rw [insert_present m in_pair h] at hok
    have h2 : (0 : Int) = 1 := hok
    exact absurd h2 (by decide)

/-- Witness of C7: the thirteenth insert of the test suite, 13 keys in 32 slots. -/
theorem C7_max_load_after_insert_witness :
    reachable (fun k => k) (test_map 12) ∧ lawful (test_pair 12 12) ∧
      (hashmap_insert (test_map 12) (test_pair 12 12)).1 = 1 ∧
      (4 * (hashmap_insert (test_map 12) (test_pair 12 12)).2.size ≤
          3 * (hashmap_insert (test_map 12) (test_pair 12 12)).2.capacity ∧
        hashmap_get_load_factor (hashmap_insert (test_map 12) (test_pair 12 12)).2 ≤
          HASH_MAP_MAX_LOAD_FACTOR ∧
        ((hashmap_insert (test_map 12) (test_pair 12 12)).2.capacity = (test_map 12).capacity ∨
          (hashmap_insert (test_map 12) (test_pair 12 12)).2.capacity =
            (test_map 12).capacity * 2)) :=
  ⟨test_map_reachable 12, test_pair_lawful 12 12, by decide!,
    C7_max_load_after_insert (fun k => k) (test_map 12) (test_pair 12 12)
      (test_map_reachable 12) (test_pair_lawful 12 12) (by decide!)⟩

/-- Counterexample to C8 as stated: the erase of the only key of a map of 16 slots succeeds and
leaves size 0 and capacity 8, a load factor below 0.25 at a capacity that is not 16. -/
theorem C8_counterexample :
    reachable (fun k => k) (test_map 1) ∧ (hashmap_erase (test_map 1) 0).1 = 1 ∧
      ¬ (HASH_MAP_MIN_LOAD_FACTOR ≤ hashmap_get_load_factor (hashmap_erase (test_map 1) 0).2 ∨
          (hashmap_erase (test_map 1) 0).2.capacity = 16) ∧
      ¬ ((hashmap_erase (test_map 1) 0).2.capacity ≤ 4 * (hashmap_erase (test_map 1) 0).2.size ∨
          (hashmap_erase (test_map 1) 0).2.capacity = 16) :=
  ⟨test_map_reachable 1, by decide!, by decide!, by decide!⟩

/-- C8 as amended: after a successful `hashmap_erase` on a reachable map either the load factor
is at least 0.25, that is `capacity <= 4 * size`, or the capacity is at most 16. -/
theorem C8_min_load_after_erase {K V : Type} (func : K → Nat) (m : hashmap K V) (k : K)
    (hr : reachable func m) (hok : (hashmap_erase m k).1 = 1) :
    ((hashmap_erase m k).2.capacity ≤ 4 * (hashmap_erase m k).2.size ∨
        (hashmap_erase m k).2.capacity ≤ 16) ∧
      (HASH_MAP_MIN_LOAD_FACTOR ≤ hashmap_get_load_factor (hashmap_erase m k).2 ∨
        (hashmap_erase m k).2.capacity ≤ 16) := by
  have hm := reachable_WF func m hr
  have hpres : hashmap_at m k ≠ none := by
    intro h
    rw [erase_absent m k h] at hok
    have h2 : (0 : Int) = 1 := hok
    exact absurd h2 (by decide)
  have h3 : WF (hashmap_erase m k).2 := (erase_spec m k hm hpres).2.1
  refine ⟨h3.min_load, ?_⟩
  rcases h3.min_load with h | h
  · left
    apply not_lt.1
    intro hlt
    have h6 := (min_load_iff _ h3.table.cap_pos).1 hlt
    omega
  · exact Or.inr h

/-- Witness of C8 as amended: the erase of the counterexample, which ends at 8 slots. -/
theorem C8_min_load_after_erase_witness :
    reachable (fun k => k) (test_map 1) ∧ (hashmap_erase (test_map 1) 0).1 = 1 ∧
      (((hashmap_erase (test_map 1) 0).2.capacity ≤ 4 * (hashmap_erase (test_map 1) 0).2.size ∨
          (hashmap_erase (test_map 1) 0).2.capacity ≤ 16) ∧
        (HASH_MAP_MIN_LOAD_FACTOR ≤ hashmap_get_load_factor (hashmap_erase (test_map 1) 0).2 ∨
          (hashmap_erase (test_map 1) 0).2.capacity ≤ 16)) :=
  ⟨test_map_reachable 1, by decide!,
    C8_min_load_after_erase (fun k => k) (test_map 1) 0 (test_map_reachable 1) (by decide!)⟩

/-- C9 (growth schedule): after `n` pairs of pairwise distinct keys were inserted into a fresh
map, the size is `n` and the capacity is 16 for `n <= 12`, 32 for `13 <= n <= 24` and 64 for
`25 <= n <= 48`. The rule behind it: a `hashmap_insert` of an absent key into a reachable map
succeeds and doubles the capacity exactly when the incremented size over the current capacity is
strictly greater than 0.75, and leaves the capacity as it was otherwise. -/
theorem C9_growth_schedule {K V : Type} (func : K → Nat) (ps : List (pair K V))
    (m : hashmap K V) (in_pair : pair K V) (hl : ∀ p ∈ ps, lawful p)
    (hd : (ps.map pair.key).Nodup) (hn : ps.length ≤ 48) (hr : reachable func m)
    (hp : lawful in_pair) (habs : ¬ present m in_pair.key) :
    ((hashmap_insert_all (hashmap_alloc func) ps).2.size = ps.length ∧
        (hashmap_insert_all (hashmap_alloc func) ps).2.capacity =
          if ps.length ≤ 12 then 16 else if ps.length ≤ 24 then 32 else 64) ∧
      ((hashmap_insert m in_pair).1 = 1 ∧
        (hashmap_insert m in_pair).2.size = m.size + 1 ∧
        (hashmap_insert m in_pair).2.capacity =
          if HASH_MAP_MAX_LOAD_FACTOR < hashmap_get_load_factor { m with size := m.size + 1 }
          then m.capacity * 2 else m.capacity) := by
  constructor
  · obtain ⟨_, _, i3, i4, _⟩ :=
      insert_all_spec (hashmap_alloc func) ps (WF_alloc func) hl hd
        (fun p _ => hashmap_at_alloc func p.key)
    refine ⟨i3.trans (Nat.zero_add _), ?_⟩
    rw [i4]
    exact grow_table ps.length hn
  · have hm := reachable_WF func m hr
    have hat : hashmap_at m in_pair.key = none := by
      by_contra h
      exact habs ((present_iff_at m hm in_pair.key).2 h)
    obtain ⟨h1, _, _, h4, h5, _⟩ := insert_spec m in_pair hm hp hat
    refine ⟨h1, h4, ?_⟩
    rw [h5]
    have hiff := max_load_iff { m with size := m.size + 1 } hm.table.cap_pos
    by_cases hg : 3 * m.capacity < 4 * (m.size + 1)
    · rw [if_pos hg, if_pos (hiff.2 hg)]
    · rw [if_neg hg, if_neg (fun h => hg (hiff.1 h))]

/-- Witness of C9: the first 13 inserts of the test suite, the thirteenth being the one that
grows the map. -/
theorem C9_growth_schedule_witness :
    (∀ p ∈ test_pairs 13, lawful p) ∧ ((test_pairs 13).map pair.key).Nodup ∧
      (test_pairs 13).length ≤ 48 ∧ reachable (fun k => k) (test_map 12) ∧
      lawful (test_pair 12 12) ∧ ¬ present (test_map 12) (test_pair 12 12).key ∧
      (((hashmap_insert_all (hashmap_alloc (fun k => k)) (test_pairs 13)).2.size =
            (test_pairs 13).length ∧
          (hashmap_insert_all (hashmap_alloc (fun k => k)) (test_pairs 13)).2.capacity =
            if (test_pairs 13).length ≤ 12 then 16
            else if (test_pairs 13).length ≤ 24 then 32 else 64) ∧
        ((hashmap_insert (test_map 12) (test_pair 12 12)).1 = 1 ∧
          (hashmap_insert (test_map 12) (test_pair 12 12)).2.size = (test_map 12).size + 1 ∧
          (hashmap_insert (test_map 12) (test_pair 12 12)).2.capacity =
            if HASH_MAP_MAX_LOAD_FACTOR <
              hashmap_get_load_factor { test_map 12 with size := (test_map 12).size + 1 }
            then (test_map 12).capacity * 2 else (test_map 12).capacity)) :=
  ⟨test_pairs_lawful 13, test_pairs_nodup 13, by decide, test_map_reachable 12,
    test_pair_lawful 12 12, test_map_absent 12 12 (by decide),
    C9_growth_schedule (fun k => k) (test_pairs 13) (test_map 12) (test_pair 12 12)
      (test_pairs_lawful 13) (test_pairs_nodup 13) (by decide) (test_map_reachable 12)
      (test_pair_lawful 12 12) (test_map_absent 12 12 (by decide))⟩

/-- C10 (shrink schedule): a `hashmap_erase` of a key that a reachable map holds succeeds and
halves the capacity exactly when the decremented size over the current capacity is strictly less
than 0.25, and leaves the capacity as it was otherwise. So erasing distinct keys one by one from
a reachable map of 34 keys and 64 slots leaves, with `i` keys remaining, the load factor that
the test suite asserts: `i / 64` for `i > 15`, `i / 32` for `8 <= i <= 15`, `i / 16` for
`4 <= i <= 7`, `i / 8` for `2 <= i <= 3` and `i / 4` for `i < 2`; the capacities are 64, 32, 16
and 8 in the first four ranges, 4 for `i = 1` and 2 for `i = 0`, where the load factor is 0. -/
theorem C10_shrink_schedule {K V : Type} (func : K → Nat) (m : hashmap K V) (k : K)
    (m64 : hashmap K V) (ks : List K) (hr : reachable func m) (hk : present m k)
    (hr64 : reachable func m64) (hsize : m64.size = 34) (hcap : m64.capacity = 64)
    (hks : ks.Nodup) (hsub : ∀ k ∈ ks, present m64 k) :
    ((hashmap_erase m k).1 = 1 ∧
        (hashmap_erase m k).2.capacity =
          (if hashmap_get_load_factor { m with size := m.size - 1 } < HASH_MAP_MIN_LOAD_FACTOR
          then m.capacity / 2 else m.capacity) ∧
        m.capacity = 2 * (m.capacity / 2)) ∧
      ((hashmap_erase_all m64 ks).2.size = 34 - ks.length ∧
        (hashmap_erase_all m64 ks).2.capacity =
          (if 15 < 34 - ks.length then 64 else if 8 ≤ 34 - ks.length then 32
          else if 4 ≤ 34 - ks.length then 16 else if 2 ≤ 34 - ks.length then 8
          else if 1 ≤ 34 - ks.length then 4 else 2) ∧
        hashmap_get_load_factor (hashmap_erase_all m64 ks).2 =
          test_load_factor (34 - ks.length)) := by
  constructor
  · have hm := reachable_WF func m hr
    have hpres := (present_iff_at m hm k).1 hk
    obtain ⟨h1, _, _, h4, h5, _⟩ := erase_spec m k hm hpres
    refine ⟨h1, ?_, (pow2_half m.capacity m.size hm.pow2 (by omega) hm.max_load).2.1⟩
    rw [h5]
    have hiff := min_load_iff { m with size := m.size - 1 } hm.table.cap_pos
    by_cases hg : 4 * (m.size - 1) < m.capacity
    · rw [if_pos hg, if_pos (hiff.2 hg)]
    · rw [if_neg hg, if_neg (fun h => hg (hiff.1 h))]
  · have hm := reachable_WF func m64 hr64
    obtain ⟨_, _, e3, e4, _⟩ :=
      erase_all_spec m64 ks hm hks (fun k1 hk1 => (present_iff_at m64 hm k1).1 (hsub k1 hk1))
    rw [hsize] at e3
    rw [hsize, hcap, shrink_table ks.length (by omega)] at e4
    have hsz : (hashmap_erase_all m64 ks).2.size = 34 - ks.length := by omega
    refine ⟨hsz, e4, ?_⟩
    unfold hashmap_get_load_factor
    rw [hsz]
    exact load_table (34 - ks.length) _ (by omega) e4

/-- Witness of C10: the 34 keys of the test suite in 64 slots, erased from the last to the
first as the load factor test does. -/
theorem C10_shrink_schedule_witness :
    reachable (fun k => k) (test_map 34) ∧ present (test_map 34) 33 ∧
      reachable (fun k => k) (test_map 34) ∧ (test_map 34).size = 34 ∧
      (test_map 34).capacity = 64 ∧ (List.range 34).reverse.Nodup ∧
      (∀ k ∈ (List.range 34).reverse, present (test_map 34) k) ∧
      (((hashmap_erase (test_map 34) 33).1 = 1 ∧
          (hashmap_erase (test_map 34) 33).2.capacity =
            (if hashmap_get_load_factor { test_map 34 with size := (test_map 34).size - 1 } <
              HASH_MAP_MIN_LOAD_FACTOR
            then (test_map 34).capacity / 2 else (test_map 34).capacity) ∧
          (test_map 34).capacity = 2 * ((test_map 34).capacity / 2)) ∧
        ((hashmap_erase_all (test_map 34) (List.range 34).reverse).2.size =
            34 - (List.range 34).reverse.length ∧
          (hashmap_erase_all (test_map 34) (List.range 34).reverse).2.capacity =
            (if 15 < 34 - (List.range 34).reverse.length then 64
            else if 8 ≤ 34 - (List.range 34).reverse.length then 32
            else if 4 ≤ 34 - (List.range 34).reverse.length then 16
            else if 2 ≤ 34 - (List.range 34).reverse.length then 8
            else if 1 ≤ 34 - (List.range 34).reverse.length then 4 else 2) ∧
          hashmap_get_load_factor (hashmap_erase_all (test_map 34) (List.range 34).reverse).2 =
            test_load_factor (34 - (List.range 34).reverse.length))) :=
  ⟨test_map_reachable 34, test_map_present 34 33 (by decide), test_map_reachable 34,
    by decide!, by decide!, List.nodup_reverse.2 (List.nodup_range 34),
    fun k hk => test_map_present 34 k (List.mem_range.1 (List.mem_reverse.1 hk)),
    C10_shrink_schedule (fun k => k) (test_map 34) 33 (test_map 34) (List.range 34).reverse
      (test_map_reachable 34) (test_map_present 34 33 (by decide)) (test_map_reachable 34)
      (by decide!) (by decide!) (List.nodup_reverse.2 (List.nodup_range 34))
      (fun k hk => test_map_present 34 k (List.mem_range.1 (List.mem_reverse.1 hk)))⟩

/-! ## Vectors -/

theorem vector_max_load_iff {α : Type} (v : vector α) (h : 0 < v.capacity) :
    VECTOR_MAX_LOAD_FACTOR < vector_get_load_factor v ↔ 3 * v.capacity < 4 * v.size := by
  unfold vector_get_load_factor VECTOR_MAX_LOAD_FACTOR
  rw [if_neg (by omega)]
  have hc : (0 : ℚ) < v.capacity := by exact_mod_cast h
  rw [lt_div_iff₀ hc]
  constructor
  · intro h1
    have h2 : (3 : ℚ) * v.capacity < 4 * v.size := by linarith
    exact_mod_cast h2
  · intro h1
    have h2 : (3 : ℚ) * v.capacity < 4 * v.size := by exact_mod_cast h1
    linarith

theorem vector_min_load_iff {α : Type} (v : vector α) (h : 0 < v.capacity) :
    vector_get_load_factor v < VECTOR_MIN_LOAD_FACTOR ↔ 4 * v.size < v.capacity := by
  unfold vector_get_load_factor VECTOR_MIN_LOAD_FACTOR
  rw [if_neg (by omega)]
  have hc : (0 : ℚ) < v.capacity := by exact_mod_cast h
  rw [div_lt_iff₀ hc]
  constructor
  · intro h1
    have h2 : (4 : ℚ) * v.size < v.capacity := by linarith
    exact_mod_cast h2
  · intro h1
    have h2 : (4 : ℚ) * v.size < v.capacity := by exact_mod_cast h1
    linarith

theorem vector_at_eq {α : Type} (v : vector α) (i : Nat) : vector_at v i = v.data[i]? := by
  unfold vector_at
  split
  · rename_i h
    exact (List.getElem?_eq_none h).symm
  · rfl

theorem vector_push_back_capacity {α : Type} (v : vector α) (x : α) :
    (vector_push_back v x).2.capacity =
      if VECTOR_MAX_LOAD_FACTOR <
        vector_get_load_factor { v with data := v.data ++ [v.elem_copy_func x] }
      then v.capacity * VECTOR_GROWTH_FACTOR else v.capacity := by
  unfold vector_push_back
  dsimp only
  split <;> rfl

theorem vector_push_back_cmp {α : Type} (v : vector α) (x : α) :
    (vector_push_back v x).2.elem_cmp_func = v.elem_cmp_func := by
  unfold vector_push_back
  dsimp only
  split <;> rfl

/-- An erase at an index past the end fails and changes nothing. -/
theorem vector_erase_ge {α : Type} (v : vector α) (i : Nat) (h : v.size ≤ i) :
    vector_erase v i = (0, v) := by
  unfold vector_erase
  rw [if_pos (Or.inl h)]

/-- An erase at an index inside the vector succeeds and removes that position. -/
theorem vector_erase_lt {α : Type} (v : vector α) (i : Nat) (h : i < v.size) :
    (vector_erase v i).1 = 1 ∧ (vector_erase v i).2.data = v.data.eraseIdx i ∧
      (vector_erase v i).2.capacity =
        (if vector_get_load_factor { v with data := v.data.eraseIdx i } < VECTOR_MIN_LOAD_FACTOR
        then v.capacity / VECTOR_GROWTH_FACTOR else v.capacity) ∧
      (vector_erase v i).2.elem_copy_func = v.elem_copy_func ∧
      (vector_erase v i).2.elem_cmp_func = v.elem_cmp_func := by
  have hsz : i < v.data.length := h
  have hat : (vector_at v i).isNone = false := by
    rw [vector_at_eq, List.getElem?_eq_getElem hsz]
    rfl
  have hguard : ¬ (v.size ≤ i ∨ v.size = 0 ∨ (vector_at v i).isNone = true) := by
    rw [hat]
    simp
    omega
  unfold vector_erase
  rw [if_neg hguard]
  dsimp only
  split <;> exact ⟨rfl, rfl, rfl, rfl, rfl⟩

theorem vector_ok_alloc {α : Type} (elem_copy_func : α → α) (elem_cmp_func : α → α → Bool) :
    vector_ok (vector_alloc elem_copy_func elem_cmp_func) :=
  ⟨⟨4, rfl⟩, by show 4 * 0 ≤ 3 * 16; decide⟩

theorem vector_ok_pos {α : Type} (v : vector α) (h : vector_ok v) : 0 < v.capacity := by
  obtain ⟨e, he⟩ := h.pow2
  rw [he]
  exact Nat.pow_pos (by decide)

theorem vector_ok_push_back {α : Type} (v : vector α) (x : α) (h : vector_ok v) :
    vector_ok (vector_push_back v x).2 := by
  have hpos := vector_ok_pos v h
  have hmax := h.max_load
  obtain ⟨e, he⟩ := h.pow2
  have hsz : (vector_push_back v x).2.size = v.size + 1 := by
    unfold vector.size
    rw [vector_push_back_data]
    simp
  have hiff := vector_max_load_iff { v with data := v.data ++ [v.elem_copy_func x] } hpos
  have hsz1 : ({ v with data := v.data ++ [v.elem_copy_func x] } : vector α).size = v.size + 1 := by
    simp [vector.size]
  rw [hsz1] at hiff
  have hcap := vector_push_back_capacity v x
  by_cases hg : 3 * v.capacity < 4 * (v.size + 1)
  · rw [if_pos (hiff.2 hg)] at hcap
    refine ⟨⟨e + 1, ?_⟩, ?_⟩
    · rw [hcap, he, pow_succ]
      rfl
    · rw [hcap, hsz]
      show 4 * (v.size + 1) ≤ 3 * (v.capacity * 2)
      omega
  · rw [if_neg (fun h1 => hg (hiff.1 h1))] at hcap
    refine ⟨⟨e, by rw [hcap, he]⟩, ?_⟩
    rw [hcap, hsz]
    omega

theorem vector_ok_erase {α : Type} (v : vector α) (i : Nat) (h : vector_ok v) :
    vector_ok (vector_erase v i).2 := by
  by_cases hi : i < v.size
  · obtain ⟨_, h2, h3, _⟩ := vector_erase_lt v i hi
    have hpos := vector_ok_pos v h
    have hmax := h.max_load
    have hi2 : i < v.data.length := hi
    have hsz : (vector_erase v i).2.size = v.size - 1 := by
      unfold vector.size
      rw [h2, List.length_eraseIdx, if_pos hi2]
    have hsz1 : ({ v with data := v.data.eraseIdx i } : vector α).size = v.size - 1 := by
      unfold vector.size
      dsimp only
      rw [List.length_eraseIdx, if_pos hi2]
    have hiff := vector_min_load_iff { v with data := v.data.eraseIdx i } hpos
    rw [hsz1] at hiff
    by_cases hg : 4 * (v.size - 1) < v.capacity
    · rw [if_pos (hiff.2 hg)] at h3
      obtain ⟨_, hdouble, hpow⟩ := pow2_half v.capacity v.size h.pow2 (by omega) hmax
      refine ⟨?_, ?_⟩
      · rw [h3]
        exact hpow
      · rw [h3, hsz]
        show 4 * (v.size - 1) ≤ 3 * (v.capacity / 2)
        omega
    · rw [if_neg (fun h1 => hg (hiff.1 h1))] at h3
      refine ⟨by rw [h3]; exact h.pow2, ?_⟩
      rw [h3, hsz]
      omega
  · rw [vector_erase_ge v i (by omega)]
    exact h

theorem vector_ok_clear_loop {α : Type} (v : vector α) (n : Nat) (h : vector_ok v) :
    vector_ok (vector_clear_loop v n) := by
  induction n generalizing v with
  | zero => exact h
  | succ n ih => exact ih _ (vector_ok_erase v n h)

theorem vector_ok_clear {α : Type} (v : vector α) (h : vector_ok v) :
    vector_ok (vector_clear v) := by
  have h1 := vector_ok_clear_loop v v.size h
  refine ⟨h1.pow2, ?_⟩
  show 4 * 0 ≤ 3 * (vector_clear_loop v v.size).capacity
  omega

/-- Every reachable vector satisfies the invariant. -/
theorem vector_reachable_ok {α : Type} (elem_copy_func : α → α) (elem_cmp_func : α → α → Bool)
    (v : vector α) (h : vector_reachable elem_copy_func elem_cmp_func v) : vector_ok v := by
  induction h with
  | alloc => exact vector_ok_alloc _ _
  | step v c _ ih =>
    cases c with
    | push_back x => exact vector_ok_push_back v x ih
    | erase i => exact vector_ok_erase v i ih
    | clear => exact vector_ok_clear v ih

/-- The first index at which a test holds: an element at that index passes the test and no
element before it does. -/
theorem findIdx?_some_spec {α : Type} (p : α → Bool) (l : List α) (i : Nat) :
    l.findIdx? p = some i ↔
      (∃ e, l[i]? = some e ∧ p e = true) ∧ ∀ j, j < i → ∀ e, l[j]? = some e → p e = false := by
  induction l generalizing i with
  | nil => simp
  | cons a l ih =>
    have hz : (a :: l)[0]? = some a := by simp
    rw [List.findIdx?_cons]
    by_cases ha : p a = true
    · rw [if_pos ha]
      constructor
      · intro h
        have hi : i = 0 := (Option.some.inj h).symm
        subst hi
        exact ⟨⟨a, hz, ha⟩, fun j hj => absurd hj (Nat.not_lt_zero j)⟩
      · rintro ⟨_, h2⟩
        cases i with
        | zero => rfl
        | succ i =>
          have h3 := h2 0 (Nat.succ_pos i) a hz
          rw [ha] at h3
          exact Bool.noConfusion h3
    · rw [if_neg ha, List.findIdx?_succ]
      cases i with
      | zero =>
        constructor
        · intro h
          cases hf : List.findIdx? p l 0 with
          | none => rw [hf] at h; exact Option.noConfusion h
          | some n =>
            rw [hf] at h
            have h2 : n + 1 = 0 := Option.some.inj h
            omega
        · rintro ⟨⟨e, he, hpe⟩, _⟩
          have h3 : a = e := Option.some.inj (hz.symm.trans he)
          rw [← h3] at hpe
          exact absurd hpe ha
      | succ i =>
        have hstep : Option.map (fun i => i + 1) (List.findIdx? p l 0) = some (i + 1) ↔
            List.findIdx? p l 0 = some i := by
          cases hf : List.findIdx? p l 0 with
          | none => simp
          | some n => simp
        rw [hstep]
        have ih2 := ih i
        rw [ih2]
        constructor
        · rintro ⟨⟨e, he, hpe⟩, h2⟩
          refine ⟨⟨e, by simpa using he, hpe⟩, ?_⟩
          intro j hj e2 he2
          cases j with
          | zero =>
            have h3 : a = e2 := Option.some.inj (hz.symm.trans he2)
            rw [← h3]
            exact Bool.eq_false_iff.2 ha
          | succ j => exact h2 j (by omega) e2 (by simpa using he2)
        · rintro ⟨⟨e, he, hpe⟩, h2⟩
          refine ⟨⟨e, by simpa using he, hpe⟩, ?_⟩
          intro j hj e2 he2
          exact h2 (j + 1) (by omega) e2 (by simpa using he2)

/-! ## The claims on the vector -/

/-- C14 (vector erase compaction): for an index `i` inside the vector, `vector_erase` returns 1
and leaves the old sequence without the element at `i`, in the same order: the elements before
`i` keep their index, the elements after it move down by one, and the size drops by one. For an
index `j` past the end, `vector_erase` returns 0 and leaves size, capacity and elements as they
were. -/
theorem C14_vector_erase_compaction {α : Type} (v : vector α) (i j : Nat) (hi : i < v.size)
    (hj : v.size ≤ j) :
    ((vector_erase v i).1 = 1 ∧
        (vector_erase v i).2.data = v.data.eraseIdx i ∧
        (vector_erase v i).2.size + 1 = v.size ∧
        (∀ n, n < i → vector_at (vector_erase v i).2 n = vector_at v n) ∧
        (∀ n, i ≤ n → vector_at (vector_erase v i).2 n = vector_at v (n + 1))) ∧
      ((vector_erase v j).1 = 0 ∧ (vector_erase v j).2.size = v.size ∧
        (vector_erase v j).2.capacity = v.capacity ∧ (vector_erase v j).2.data = v.data) := by
  constructor
  · obtain ⟨h1, h2, _⟩ := vector_erase_lt v i hi
    have hi2 : i < v.data.length := hi
    refine ⟨h1, h2, ?_, ?_, ?_⟩
    · unfold vector.size
      rw [h2, List.length_eraseIdx, if_pos hi2]
      omega
    · intro n hn
      rw [vector_at_eq, vector_at_eq, h2, List.getElem?_eraseIdx, if_pos hn]
    · intro n hn
      rw [vector_at_eq, vector_at_eq, h2, List.getElem?_eraseIdx, if_neg (by omega)]
  · rw [vector_erase_ge v j hj]
    exact ⟨rfl, rfl, rfl, rfl⟩

/-- Witness of C14: the vector 4, 5, 6, its index 1 and the index 3 past its end. -/
theorem C14_vector_erase_compaction_witness :
    1 < (test_vector_of [4, 5, 6]).size ∧ (test_vector_of [4, 5, 6]).size ≤ 3 ∧
      (vector_erase (test_vector_of [4, 5, 6]) 1).2.data = [4, 6] ∧
      (((vector_erase (test_vector_of [4, 5, 6]) 1).1 = 1 ∧
          (vector_erase (test_vector_of [4, 5, 6]) 1).2.data =
            (test_vector_of [4, 5, 6]).data.eraseIdx 1 ∧
          (vector_erase (test_vector_of [4, 5, 6]) 1).2.size + 1 =
            (test_vector_of [4, 5, 6]).size ∧
          (∀ n, n < 1 → vector_at (vector_erase (test_vector_of [4, 5, 6]) 1).2 n =
            vector_at (test_vector_of [4, 5, 6]) n) ∧
          (∀ n, 1 ≤ n → vector_at (vector_erase (test_vector_of [4, 5, 6]) 1).2 n =
            vector_at (test_vector_of [4, 5, 6]) (n + 1))) ∧
        ((vector_erase (test_vector_of [4, 5, 6]) 3).1 = 0 ∧
          (vector_erase (test_vector_of [4, 5, 6]) 3).2.size = (test_vector_of [4, 5, 6]).size ∧
          (vector_erase (test_vector_of [4, 5, 6]) 3).2.capacity =
            (test_vector_of [4, 5, 6]).capacity ∧
          (vector_erase (test_vector_of [4, 5, 6]) 3).2.data = (test_vector_of [4, 5, 6]).data)) :=
  ⟨by decide, by decide, by decide!,
    C14_vector_erase_compaction (test_vector_of [4, 5, 6]) 1 3 (by decide) (by decide)⟩

/-- C15 (vector push_back appends): on a vector of size `n` and capacity at least 1,
`vector_push_back` returns 1, the size becomes `n + 1`, index `n` holds the copy that the copy
function of the vector makes of the value, the indices below `n` hold what they held, and the
capacity is multiplied by the growth factor exactly when `(n + 1) / capacity` exceeds the maximal
load factor; it is left as it was otherwise. -/
theorem C15_vector_push_back_appends {α : Type} (v : vector α) (x : α) (hc : 0 < v.capacity) :
    (vector_push_back v x).1 = 1 ∧
      (vector_push_back v x).2.size = v.size + 1 ∧
      vector_at (vector_push_back v x).2 v.size = some (v.elem_copy_func x) ∧
      (∀ j, j < v.size → vector_at (vector_push_back v x).2 j = vector_at v j) ∧
      (vector_push_back v x).2.capacity =
        (if VECTOR_MAX_LOAD_FACTOR < ((v.size + 1 : Nat) : ℚ) / (v.capacity : ℚ)
        then v.capacity * VECTOR_GROWTH_FACTOR else v.capacity) ∧
      ((vector_push_back v x).2.capacity = v.capacity * VECTOR_GROWTH_FACTOR ↔
        3 * v.capacity < 4 * (v.size + 1)) := by
  have hdata := vector_push_back_data v x
  have hcap := vector_push_back_capacity v x
  have hlf : vector_get_load_factor { v with data := v.data ++ [v.elem_copy_func x] } =
      ((v.size + 1 : Nat) : ℚ) / (v.capacity : ℚ) := by
    unfold vector_get_load_factor
    rw [if_neg (by show ¬ v.capacity = 0; omega)]
    simp [vector.size]
  have hiff := vector_max_load_iff { v with data := v.data ++ [v.elem_copy_func x] } hc
  have hsz1 : ({ v with data := v.data ++ [v.elem_copy_func x] } : vector α).size = v.size + 1 := by
    simp [vector.size]
  rw [hsz1] at hiff
  refine ⟨vector_push_back_fst v x, ?_, ?_, ?_, ?_, ?_⟩
  · unfold vector.size
    rw [hdata]
    simp
  · rw [vector_at_eq, hdata]
    exact getElem?_middle v.data [] (v.elem_copy_func x)
  · intro j hj
    rw [vector_at_eq, vector_at_eq, hdata]
    exact List.getElem?_append_left hj
  · rw [hcap, hlf]
  · rw [hcap]
    by_cases hg : 3 * v.capacity < 4 * (v.size + 1)
    · rw [if_pos (hiff.2 hg)]
      exact ⟨fun _ => hg, fun _ => rfl⟩
    · rw [if_neg (fun h1 => hg (hiff.1 h1))]
      constructor
      · intro h1
        have h2 : v.capacity = v.capacity * 2 := h1
        omega
      · intro h1
        exact absurd h1 hg

/-- Witness of C15: the thirteenth push into a vector of 16 slots, which doubles them. -/
theorem C15_vector_push_back_appends_witness :
    0 < (test_vector_of (List.range 12)).capacity ∧
      (vector_push_back (test_vector_of (List.range 12)) 12).2.capacity = 32 ∧
      ((vector_push_back (test_vector_of (List.range 12)) 12).1 = 1 ∧
        (vector_push_back (test_vector_of (List.range 12)) 12).2.size =
          (test_vector_of (List.range 12)).size + 1 ∧
        vector_at (vector_push_back (test_vector_of (List.range 12)) 12).2
          (test_vector_of (List.range 12)).size =
          some ((test_vector_of (List.range 12)).elem_copy_func 12) ∧
        (∀ j, j < (test_vector_of (List.range 12)).size →
          vector_at (vector_push_back (test_vector_of (List.range 12)) 12).2 j =
            vector_at (test_vector_of (List.range 12)) j) ∧
        (vector_push_back (test_vector_of (List.range 12)) 12).2.capacity =
          (if VECTOR_MAX_LOAD_FACTOR <
            (((test_vector_of (List.range 12)).size + 1 : Nat) : ℚ) /
              ((test_vector_of (List.range 12)).capacity : ℚ)
          then (test_vector_of (List.range 12)).capacity * VECTOR_GROWTH_FACTOR
          else (test_vector_of (List.range 12)).capacity) ∧
        ((vector_push_back (test_vector_of (List.range 12)) 12).2.capacity =
            (test_vector_of (List.range 12)).capacity * VECTOR_GROWTH_FACTOR ↔
          3 * (test_vector_of (List.range 12)).capacity <
            4 * ((test_vector_of (List.range 12)).size + 1))) :=
  ⟨by decide, by decide!,
    C15_vector_push_back_appends (test_vector_of (List.range 12)) 12 (by decide)⟩

/-- Counterexample to C16 as stated: one push and one erase from the fresh vector lead to a
reachable vector of capacity 8, smaller than `VECTOR_INITIAL_CAP`. -/
theorem C16_counterexample :
    vector_reachable (fun x => x) (fun a b => decide (a = b))
        (vector_erase (vector_push_back test_vector 7).2 0).2 ∧
      (vector_erase (vector_push_back test_vector 7).2 0).1 = 1 ∧
      (vector_erase (vector_push_back test_vector 7).2 0).2.capacity = 8 ∧
      ¬ (VECTOR_INITIAL_CAP ≤ (vector_erase (vector_push_back test_vector 7).2 0).2.capacity) :=
  ⟨vector_reachable.step _ (vector_call.erase 0)
      (vector_reachable.step _ (vector_call.push_back 7) vector_reachable.alloc),
    by decide!, by decide!, by decide!⟩

/-- C16 as amended: in every reachable vector the capacity is a power of two, hence at least 1;
it is `VECTOR_INITIAL_CAP` right after `vector_alloc`. No floor at the initial capacity is
kept. -/
theorem C16_vector_capacity_power_of_two {α : Type} (elem_copy_func : α → α)
    (elem_cmp_func : α → α → Bool) (v : vector α)
    (hr : vector_reachable elem_copy_func elem_cmp_func v) :
    (∃ e : Nat, v.capacity = 2 ^ e) ∧ 1 ≤ v.capacity ∧
      (vector_alloc elem_copy_func elem_cmp_func).capacity = VECTOR_INITIAL_CAP := by
  have h := vector_reachable_ok elem_copy_func elem_cmp_func v hr
  exact ⟨h.pow2, vector_ok_pos v h, rfl⟩

/-- Witness of C16 as amended: the vector of capacity 8 of the counterexample. -/
theorem C16_vector_capacity_power_of_two_witness :
    vector_reachable (fun x => x) (fun a b => decide (a = b))
        (vector_erase (vector_push_back test_vector 7).2 0).2 ∧
      ((∃ e : Nat, (vector_erase (vector_push_back test_vector 7).2 0).2.capacity = 2 ^ e) ∧
        1 ≤ (vector_erase (vector_push_back test_vector 7).2 0).2.capacity ∧
        (vector_alloc (fun x : Nat => x) (fun a b => decide (a = b))).capacity =
          VECTOR_INITIAL_CAP) :=
  ⟨vector_reachable.step _ (vector_call.erase 0)
      (vector_reachable.step _ (vector_call.push_back 7) vector_reachable.alloc),
    C16_vector_capacity_power_of_two (fun x => x) (fun a b => decide (a = b))
      (vector_erase (vector_push_back test_vector 7).2 0).2
      (vector_reachable.step _ (vector_call.erase 0)
        (vector_reachable.step _ (vector_call.push_back 7) vector_reachable.alloc))⟩

/-- C17 (vector invariant): in every vector reachable from `vector_alloc` by calls of
`vector_push_back`, `vector_erase` and `vector_clear`, the size is at most the capacity, the
capacity is positive, `vector_at` returns an element for every index below the size and NULL for
every index from the size on. -/
theorem C17_vector_invariant {α : Type} (elem_copy_func : α → α)
    (elem_cmp_func : α → α → Bool) (v : vector α)
    (hr : vector_reachable elem_copy_func elem_cmp_func v) :
    v.size ≤ v.capacity ∧ 0 < v.capacity ∧
      (∀ i, i < v.size → ∃ e, vector_at v i = some e) ∧
      (∀ i, v.size ≤ i → vector_at v i = none) := by
  have h := vector_reachable_ok elem_copy_func elem_cmp_func v hr
  have hmax := h.max_load
  refine ⟨by omega, vector_ok_pos v h, ?_, ?_⟩
  · intro i hi
    have hi2 : i < v.data.length := hi
    exact ⟨v.data[i], by rw [vector_at_eq, List.getElem?_eq_getElem hi2]⟩
  · intro i hi
    rw [vector_at_eq]
    exact List.getElem?_eq_none hi

/-- Witness of C17: a push, an erase, a clear and a last push, which leave one element. -/
theorem C17_vector_invariant_witness :
    vector_reachable (fun x => x) (fun a b => decide (a = b))
        (vector_push_back (vector_clear (vector_erase (vector_push_back test_vector 7).2 0).2)
          9).2 ∧
      vector_at (vector_push_back (vector_clear (vector_erase (vector_push_back test_vector
        7).2 0).2) 9).2 0 = some 9 ∧
      ((vector_push_back (vector_clear (vector_erase (vector_push_back test_vector 7).2 0).2)
            9).2.size ≤
          (vector_push_back (vector_clear (vector_erase (vector_push_back test_vector 7).2 0).2)
            9).2.capacity ∧
        0 < (vector_push_back (vector_clear (vector_erase (vector_push_back test_vector 7).2
          0).2) 9).2.capacity ∧
        (∀ i, i < (vector_push_back (vector_clear (vector_erase (vector_push_back test_vector
            7).2 0).2) 9).2.size →
          ∃ e, vector_at (vector_push_back (vector_clear (vector_erase (vector_push_back
            test_vector 7).2 0).2) 9).2 i = some e) ∧
        (∀ i, (vector_push_back (vector_clear (vector_erase (vector_push_back test_vector
            7).2 0).2) 9).2.size ≤ i →
          vector_at (vector_push_back (vector_clear (vector_erase (vector_push_back
            test_vector 7).2 0).2) 9).2 i = none)) :=
  ⟨vector_reachable.step _ (vector_call.push_back 9)
      (vector_reachable.step _ vector_call.clear (vector_reachable.step _ (vector_call.erase 0)
        (vector_reachable.step _ (vector_call.push_back 7) vector_reachable.alloc))),
    by decide!,
    C17_vector_invariant (fun x => x) (fun a b => decide (a = b)) _
      (vector_reachable.step _ (vector_call.push_back 9)
        (vector_reachable.step _ vector_call.clear (vector_reachable.step _ (vector_call.erase 0)
          (vector_reachable.step _ (vector_call.push_back 7) vector_reachable.alloc))))⟩

/-- C18 (vector find returns the first match): `vector_find` returns the index `i` exactly when
`i` is the least index below the size whose element the comparator accepts against the value, and
it returns -1 exactly when the comparator accepts no element of the vector; it returns nothing
else. -/
theorem C18_vector_find_first_match {α : Type} (v : vector α) (x : α) :
    (∀ i : Nat, vector_find v x = (i : Int) ↔
        (i < v.size ∧ (∃ e, vector_at v i = some e ∧ v.elem_cmp_func e x = true) ∧
          ∀ j, j < i → ∀ e, vector_at v j = some e → v.elem_cmp_func e x = false)) ∧
      (vector_find v x = -1 ↔ ∀ e ∈ v.data, v.elem_cmp_func e x = false) ∧
      (vector_find v x = -1 ∨ ∃ i : Nat, i < v.size ∧ vector_find v x = (i : Int)) := by
  have hspec := findIdx?_some_spec (fun e => v.elem_cmp_func e x) v.data
  have hnone := @List.findIdx?_eq_none_iff α v.data (fun e => v.elem_cmp_func e x)
  have hlt : ∀ i, (∃ e, v.data[i]? = some e ∧ v.elem_cmp_func e x = true) → i < v.size := by
    rintro i ⟨e, he, _⟩
    exact (List.getElem?_eq_some_iff.1 he).1
  cases hf : v.data.findIdx? (fun e => v.elem_cmp_func e x) with
  | none =>
    have hval : vector_find v x = -1 := by
      unfold vector_find
      rw [hf]
    refine ⟨fun i => ?_, ?_, Or.inl hval⟩
    · rw [hval]
      constructor
      · intro h
        omega
      · rintro ⟨_, ⟨e, he, hpe⟩, _⟩
        rw [vector_at_eq] at he
        have h2 := (hnone.1 hf) e (List.mem_iff_getElem?.2 ⟨i, he⟩)
        rw [hpe] at h2
        exact Bool.noConfusion h2
    · rw [hval]
      exact ⟨fun _ => hnone.1 hf, fun _ => rfl⟩
  | some n =>
    have hval : vector_find v x = (n : Int) := by
      unfold vector_find
      rw [hf]
    have hn := (hspec n).1 hf
    refine ⟨fun i => ?_, ?_, Or.inr ⟨n, hlt n hn.1, hval⟩⟩
    · rw [hval]
      constructor
      · intro h
        have hin : n = i := by omega
        subst hin
        refine ⟨hlt n hn.1, ?_, ?_⟩
        · obtain ⟨e, he, hpe⟩ := hn.1
          exact ⟨e, by rw [vector_at_eq]; exact he, hpe⟩
        · intro j hj e he
          rw [vector_at_eq] at he
          exact hn.2 j hj e he
      · rintro ⟨_, ⟨e, he, hpe⟩, h3⟩
        rw [vector_at_eq] at he
        have h4 : v.data.findIdx? (fun e => v.elem_cmp_func e x) = some i :=
          (hspec i).2 ⟨⟨e, he, hpe⟩, fun j hj e2 he2 => h3 j hj e2 (by rw [vector_at_eq]; exact he2)⟩
        rw [hf] at h4
        have h5 : n = i := Option.some.inj h4
        rw [h5]
    · rw [hval]
      constructor
      · intro h
        omega
      · intro h
        obtain ⟨e, he, hpe⟩ := hn.1
        have h2 := h e (List.mem_iff_getElem?.2 ⟨n, he⟩)
        rw [hpe] at h2
        exact Bool.noConfusion h2

/-! ## More invariants of the reachable maps -/

theorem reachable_hash {K V : Type} (func : K → Nat) (m : hashmap K V) (h : reachable func m) :
    m.hash_func = func := by
  induction h with
  | alloc => rfl
  | step m c hr hc ih =>
    rw [(run_call_WF m c (reachable_WF func m hr) hc).2]
    exact ih

/-- In a well-formed table the keys of one chain are pairwise distinct. -/
theorem chain_nodup {K V : Type} (f : K → Nat) (cap : Nat)
    (bs : List (Option (vector (pair K V)))) (h : table_ok f cap bs) (i : Nat)
    (v : vector (pair K V)) (hi : bs[i]? = some (some v)) : (v.data.map pair.key).Nodup := by
  have hlt : i < bs.length := (List.getElem?_eq_some_iff.1 hi).1
  obtain ⟨A, B, hA, _⟩ := all_pairs_set bs i hlt none
  rw [getD_of_getElem? _ _ _ hi] at hA
  have h1 := h.nodup
  rw [hA, List.map_append, List.map_append] at h1
  exact (List.nodup_append.1 (List.nodup_append.1 h1).1).2.1

/-- C12 (load factor never fails on a live map): in every reachable map the capacity is not 0,
so `hashmap_get_load_factor` returns `size / capacity`, which is not negative, and never the
failure value -1. -/
theorem C12_load_factor_never_fails {K V : Type} (func : K → Nat) (m : hashmap K V)
    (hr : reachable func m) :
    m.capacity ≠ 0 ∧ hashmap_get_load_factor m = (m.size : ℚ) / (m.capacity : ℚ) ∧
      0 ≤ hashmap_get_load_factor m ∧ hashmap_get_load_factor m ≠ -1 := by
  have hpos := (reachable_WF func m hr).table.cap_pos
  have hne : m.capacity ≠ 0 := by omega
  have heq : hashmap_get_load_factor m = (m.size : ℚ) / (m.capacity : ℚ) := by
    unfold hashmap_get_load_factor
    rw [if_neg hne]
  have hnn : (0 : ℚ) ≤ (m.size : ℚ) / (m.capacity : ℚ) :=
    div_nonneg (Nat.cast_nonneg _) (Nat.cast_nonneg _)
  refine ⟨hne, heq, heq ▸ hnn, ?_⟩
  rw [heq]
  intro h
  rw [h] at hnn
  exact absurd hnn (by norm_num)

/-- Witness of C12: the map of the test suite after 13 inserts, 13 keys in 32 slots. -/
theorem C12_load_factor_never_fails_witness :
    reachable (fun k => k) (test_map 13) ∧
      hashmap_get_load_factor (test_map 13) = 13 / 32 ∧
      ((test_map 13).capacity ≠ 0 ∧
        hashmap_get_load_factor (test_map 13) =
          ((test_map 13).size : ℚ) / ((test_map 13).capacity : ℚ) ∧
        0 ≤ hashmap_get_load_factor (test_map 13) ∧ hashmap_get_load_factor (test_map 13) ≠ -1) :=
  ⟨test_map_reachable 13, by decide!,
    C12_load_factor_never_fails (fun k => k) (test_map 13) (test_map_reachable 13)⟩

/-- C13 (key uniqueness): in every reachable map the keys of the stored pairs are pairwise
distinct: two positions, in one chain or in two, that hold pairs of equal keys are the same
position. -/
theorem C13_key_uniqueness {K V : Type} (func : K → Nat) (m : hashmap K V)
    (hr : reachable func m) :
    ((all_pairs m.buckets).map pair.key).Nodup ∧
      ∀ (i j a b : Nat) (v w : vector (pair K V)) (p q : pair K V),
        m.buckets[i]? = some (some v) → m.buckets[j]? = some (some w) →
        v.data[a]? = some p → w.data[b]? = some q → p.key = q.key → i = j ∧ a = b := by
  have hm := reachable_WF func m hr
  refine ⟨hm.table.nodup, ?_⟩
  intro i j a b v w p q hi hj ha hb hk
  have hpi := hm.table.placed i v hi p (List.mem_iff_getElem?.2 ⟨a, ha⟩)
  have hqj := hm.table.placed j w hj q (List.mem_iff_getElem?.2 ⟨b, hb⟩)
  have hij : i = j := by rw [← hpi, ← hqj, hk]
  subst hij
  have hvw : v = w := Option.some.inj (Option.some.inj (hi.symm.trans hj))
  subst hvw
  refine ⟨rfl, ?_⟩
  have hnd := chain_nodup m.hash_func m.capacity m.buckets hm.table i v hi
  obtain ⟨ha1, ha2⟩ := List.getElem?_eq_some_iff.1 ha
  obtain ⟨hb1, hb2⟩ := List.getElem?_eq_some_iff.1 hb
  have ha3 : a < (v.data.map pair.key).length := by rw [List.length_map]; exact ha1
  have hb3 : b < (v.data.map pair.key).length := by rw [List.length_map]; exact hb1
  apply (@List.Nodup.getElem_inj_iff _ _ hnd a ha3 b hb3).1
  rw [List.getElem_map, List.getElem_map, ha2, hb2]
  exact hk

/-- Witness of C13: the map of the test suite after its 34 inserts. -/
theorem C13_key_uniqueness_witness :
    reachable (fun k => k) (test_map 34) ∧
      (((all_pairs (test_map 34).buckets).map pair.key).Nodup ∧
        ∀ (i j a b : Nat) (v w : vector (pair Nat Nat)) (p q : pair Nat Nat),
          (test_map 34).buckets[i]? = some (some v) → (test_map 34).buckets[j]? = some (some w) →
          v.data[a]? = some p → w.data[b]? = some q → p.key = q.key → i = j ∧ a = b) :=
  ⟨test_map_reachable 34, C13_key_uniqueness (fun k => k) (test_map 34) (test_map_reachable 34)⟩

/-- C19 (bucket placement): in every reachable map each pair stored in slot `i` satisfies
`i = hash_func (key) & (capacity - 1)` for the capacity the map has. For an insert of an absent
key and an erase of a present key this holds after the call under the capacity the call leaves:
the capacity is `capacity * 2` exactly on the growth path, where the source computes the index
of the incoming pair from `capacity * 2`, and `capacity / 2` exactly on the shrink path, and the
incoming pair is stored in the slot of its key under the new capacity. -/
theorem C19_bucket_placement {K V : Type} (func : K → Nat) (m : hashmap K V)
    (in_pair : pair K V) (k : K) (hr : reachable func m) (hl : lawful in_pair)
    (habs : ¬ present m in_pair.key) (hk : present m k) :
    (m.hash_func = func ∧
        ∀ (i : Nat) (v : vector (pair K V)) (p : pair K V), m.buckets[i]? = some (some v) →
          p ∈ v.data → i = func p.key &&& (m.capacity - 1)) ∧
      ((hashmap_insert m in_pair).2.capacity =
          (if HASH_MAP_MAX_LOAD_FACTOR < hashmap_get_load_factor { m with size := m.size + 1 }
          then m.capacity * HASH_MAP_GROWTH_FACTOR else m.capacity) ∧
        (∃ v, (hashmap_insert m in_pair).2.buckets[
            func in_pair.key &&& ((hashmap_insert m in_pair).2.capacity - 1)]? = some (some v) ∧
          in_pair ∈ v.data) ∧
        ∀ (i : Nat) (v : vector (pair K V)) (p : pair K V),
          (hashmap_insert m in_pair).2.buckets[i]? = some (some v) → p ∈ v.data →
          i = func p.key &&& ((hashmap_insert m in_pair).2.capacity - 1)) ∧
      ((hashmap_erase m k).2.capacity =
          (if hashmap_get_load_factor { m with size := m.size - 1 } < HASH_MAP_MIN_LOAD_FACTOR
          then m.capacity / HASH_MAP_GROWTH_FACTOR else m.capacity) ∧
        ∀ (i : Nat) (v : vector (pair K V)) (p : pair K V),
          (hashmap_erase m k).2.buckets[i]? = some (some v) → p ∈ v.data →
          i = func p.key &&& ((hashmap_erase m k).2.capacity - 1)) := by
  have hm := reachable_WF func m hr
  have hf := reachable_hash func m hr
  have hplaced : ∀ (m2 : hashmap K V), WF m2 → m2.hash_func = func →
      ∀ (i : Nat) (v : vector (pair K V)) (p : pair K V), m2.buckets[i]? = some (some v) →
        p ∈ v.data → i = func p.key &&& (m2.capacity - 1) := by
    intro m2 h2 hf2 i v p hi hp
    rw [← hf2]
    exact (h2.table.placed i v hi p hp).symm
  have hat : hashmap_at m in_pair.key = none := by
    by_contra h
    exact habs ((present_iff_at m hm in_pair.key).2 h)
  have hpres := (present_iff_at m hm k).1 hk
  obtain ⟨_, i2, i3, _, i5, i6⟩ := insert_spec m in_pair hm hl hat
  obtain ⟨_, e2, e3, _, e5, _⟩ := erase_spec m k hm hpres
  refine ⟨⟨hf, hplaced m hm hf⟩, ⟨?_, ?_, hplaced _ i2 (i3.trans hf)⟩,
    ⟨?_, hplaced _ e2 (e3.trans hf)⟩⟩
  · rw [i5]
    have hiff := max_load_iff { m with size := m.size + 1 } hm.table.cap_pos
    by_cases hg : 3 * m.capacity < 4 * (m.size + 1)
    · rw [if_pos hg, if_pos (hiff.2 hg)]
      rfl
    · rw [if_neg hg, if_neg (fun h => hg (hiff.1 h))]
  · obtain ⟨cv, hget, hmem⟩ := chain_of_mem _ _ _ i2.table in_pair
      (i6.symm.subset (List.mem_cons_self _ _))
    rw [i3, hf] at hget
    exact ⟨cv, getElem?_of_getD _ _ _ hget, hmem⟩
  · rw [e5]
    have hiff := min_load_iff { m with size := m.size - 1 } hm.table.cap_pos
    by_cases hg : 4 * (m.size - 1) < m.capacity
    · rw [if_pos hg, if_pos (hiff.2 hg)]
      rfl
    · rw [if_neg hg, if_neg (fun h => hg (hiff.1 h))]

/-- Witness of C19: the thirteenth insert of the test suite, on the growth path, and the erase
of its key 3. -/
theorem C19_bucket_placement_witness :
    reachable (fun k => k) (test_map 12) ∧ lawful (test_pair 12 12) ∧
      ¬ present (test_map 12) (test_pair 12 12).key ∧ present (test_map 12) 3 ∧
      (hashmap_insert (test_map 12) (test_pair 12 12)).2.capacity = 32 ∧
      ((((test_map 12).hash_func = fun k => k) ∧
          ∀ (i : Nat) (v : vector (pair Nat Nat)) (p : pair Nat Nat),
            (test_map 12).buckets[i]? = some (some v) →
            p ∈ v.data → i = (fun k => k) p.key &&& ((test_map 12).capacity - 1)) ∧
        ((hashmap_insert (test_map 12) (test_pair 12 12)).2.capacity =
            (if HASH_MAP_MAX_LOAD_FACTOR <
              hashmap_get_load_factor { test_map 12 with size := (test_map 12).size + 1 }
            then (test_map 12).capacity * HASH_MAP_GROWTH_FACTOR else (test_map 12).capacity) ∧
          (∃ v, (hashmap_insert (test_map 12) (test_pair 12 12)).2.buckets[
              (fun k => k) (test_pair 12 12).key &&&
                ((hashmap_insert (test_map 12) (test_pair 12 12)).2.capacity - 1)]? =
              some (some v) ∧
            test_pair 12 12 ∈ v.data) ∧
          ∀ (i : Nat) (v : vector (pair Nat Nat)) (p : pair Nat Nat),
            (hashmap_insert (test_map 12) (test_pair 12 12)).2.buckets[i]? = some (some v) →
            p ∈ v.data →
            i = (fun k => k) p.key &&&
              ((hashmap_insert (test_map 12) (test_pair 12 12)).2.capacity - 1)) ∧
        ((hashmap_erase (test_map 12) 3).2.capacity =
            (if hashmap_get_load_factor { test_map 12 with size := (test_map 12).size - 1 } <
              HASH_MAP_MIN_LOAD_FACTOR
            then (test_map 12).capacity / HASH_MAP_GROWTH_FACTOR else (test_map 12).capacity) ∧
          ∀ (i : Nat) (v : vector (pair Nat Nat)) (p : pair Nat Nat),
            (hashmap_erase (test_map 12) 3).2.buckets[i]? = some (some v) → p ∈ v.data →
            i = (fun k => k) p.key &&& ((hashmap_erase (test_map 12) 3).2.capacity - 1))) :=
  ⟨test_map_reachable 12, test_pair_lawful 12 12, test_map_absent 12 12 (by decide),
    test_map_present 12 3 (by decide), by decide!,
    C19_bucket_placement (fun k => k) (test_map 12) (test_pair 12 12) 3 (test_map_reachable 12)
      (test_pair_lawful 12 12) (test_map_absent 12 12 (by decide))
      (test_map_present 12 3 (by decide))⟩

/-! ## `hashmap_apply_if` -/

theorem apply_to_pair_key {K V : Type} (kf : K → Int) (vf : V → V) (p : pair K V) :
    (apply_to_pair kf vf p).key = p.key := by
  unfold apply_to_pair
  split <;> rfl

theorem apply_to_pair_cmp {K V : Type} (kf : K → Int) (vf : V → V) (p : pair K V) :
    (apply_to_pair kf vf p).key_cmp = p.key_cmp := by
  unfold apply_to_pair
  split <;> rfl

theorem apply_to_pair_value {K V : Type} (kf : K → Int) (vf : V → V) (p : pair K V) :
    (apply_to_pair kf vf p).value = if kf p.key = 1 then vf p.value else p.value := by
  unfold apply_to_pair
  split <;> rfl

/-- The inner loop adds to the counter the number of pairs of the chain whose key is accepted
and maps every pair of the chain in place. -/
theorem apply_if_chain_spec {K V : Type} (kf : K → Int) (vf : V → V) (c : Int)
    (l : List (pair K V)) :
    apply_if_chain kf vf c l =
      (c + ((l.countP (fun p => decide (kf p.key = 1)) : Nat) : Int),
        l.map (apply_to_pair kf vf)) := by
  induction l generalizing c with
  | nil => simp [apply_if_chain]
  | cons a l ih =>
    by_cases ha : kf a.key = 1
    · simp only [apply_if_chain, if_pos ha, ih, List.map_cons, List.countP_cons, ha,
        decide_True, if_true]
      refine Prod.ext ?_ ?_
      · show c + 1 + _ = _
        push_cast
        ring
      · show _ :: _ = _ :: _
        rw [apply_to_pair, if_pos ha]
    · simp only [apply_if_chain, if_neg ha, ih, List.map_cons, List.countP_cons, ha,
        decide_False, Bool.false_eq_true, if_false]
      refine Prod.ext ?_ ?_
      · show c + _ = _
        simp
      · show _ :: _ = _ :: _
        rw [apply_to_pair, if_neg ha]

/-- The outer loop adds to the counter the number of stored pairs whose key is accepted, maps
the pairs of every chain in place and leaves the NULL slots NULL. -/
theorem apply_if_buckets_spec {K V : Type} (kf : K → Int) (vf : V → V) (c : Int)
    (bs : List (Option (vector (pair K V)))) :
    apply_if_buckets kf vf c bs =
      (c + (((all_pairs bs).countP (fun p => decide (kf p.key = 1)) : Nat) : Int),
        bs.map (Option.map (fun v => { v with data := v.data.map (apply_to_pair kf vf) }))) := by
  induction bs generalizing c with
  | nil => simp [apply_if_buckets, all_pairs_nil]
  | cons b bs ih =>
    cases b with
    | none =>
      simp only [apply_if_buckets, ih, all_pairs_cons, slot_data, List.nil_append, List.map_cons,
        Option.map_none']
    | some v =>
      simp only [apply_if_buckets, ih, apply_if_chain_spec, all_pairs_cons, slot_data,
        List.countP_append, List.map_cons, Option.map_some']
      refine Prod.ext ?_ rfl
      show c + _ + _ = _
      push_cast
      ring

theorem getD_map_slot {α : Type} (G : vector α → vector α) (bs : List (Option (vector α)))
    (i : Nat) : (bs.map (Option.map G)).getD i none = Option.map G (bs.getD i none) := by
  rw [List.getD_eq_getElem?_getD, List.getD_eq_getElem?_getD, List.getElem?_map]
  cases bs[i]? <;> rfl

theorem hashmap_apply_if_eq {K V : Type} (m : hashmap K V) (kf : K → Int) (vf : V → V) :
    hashmap_apply_if m kf vf =
      ((((all_pairs m.buckets).countP (fun p => decide (kf p.key = 1)) : Nat) : Int),
        { m with buckets := (m.buckets.map
            (Option.map (fun v => { v with data := v.data.map (apply_to_pair kf vf) }))) }) := by
  unfold hashmap_apply_if
  rw [apply_if_buckets_spec]
  simp

/-- C11 (apply_if correctness): on a reachable map `hashmap_apply_if` returns the number of
stored pairs whose key makes the key function return 1; it leaves size, capacity, hash function,
the length of the array and the allocation of every slot as they were; every chain keeps its
pairs in their slot and order, each pair keeps its key, the value of a pair whose key is accepted
goes through the value function once and the other pairs are left as they were. So `hashmap_at`
returns afterwards the mutated value for an accepted key and the old value for another key. -/
theorem C11_apply_if {K V : Type} (func : K → Nat) (m : hashmap K V) (keyT_func : K → Int)
    (valT_func : V → V) (hr : reachable func m) :
    (hashmap_apply_if m keyT_func valT_func).1 =
        (((all_pairs m.buckets).countP (fun p => decide (keyT_func p.key = 1)) : Nat) : Int) ∧
      (hashmap_apply_if m keyT_func valT_func).2.size = m.size ∧
      (hashmap_apply_if m keyT_func valT_func).2.capacity = m.capacity ∧
      (hashmap_apply_if m keyT_func valT_func).2.hash_func = m.hash_func ∧
      (hashmap_apply_if m keyT_func valT_func).2.buckets.length = m.buckets.length ∧
      (∀ i, ((hashmap_apply_if m keyT_func valT_func).2.buckets.getD i none).isSome =
            (m.buckets.getD i none).isSome ∧
          slot_data ((hashmap_apply_if m keyT_func valT_func).2.buckets.getD i none) =
            (slot_data (m.buckets.getD i none)).map (apply_to_pair keyT_func valT_func)) ∧
      (∀ p : pair K V, (apply_to_pair keyT_func valT_func p).key = p.key ∧
          (keyT_func p.key = 1 → (apply_to_pair keyT_func valT_func p).value = valT_func p.value) ∧
          (keyT_func p.key ≠ 1 → apply_to_pair keyT_func valT_func p = p)) ∧
      (∀ k, hashmap_at (hashmap_apply_if m keyT_func valT_func).2 k =
          (hashmap_at m k).map (fun val => if keyT_func k = 1 then valT_func val else val)) := by
  have hm := reachable_WF func m hr
  rw [hashmap_apply_if_eq]
  refine ⟨rfl, rfl, rfl, rfl, List.length_map _ _, ?_, ?_, ?_⟩
  · intro i
    dsimp only
    rw [getD_map_slot]
    cases m.buckets.getD i none <;> exact ⟨rfl, rfl⟩
  · intro p
    refine ⟨apply_to_pair_key _ _ p, ?_, ?_⟩
    · intro h
      rw [apply_to_pair_value, if_pos h]
    · intro h
      rw [apply_to_pair, if_neg h]
  · intro k
    unfold hashmap_at
    dsimp only
    rw [getD_map_slot]
    cases hb : m.buckets.getD (m.hash_func k &&& (m.capacity - 1)) none with
    | none => rfl
    | some v =>
      dsimp only [Option.map]
      have hpred : ((fun curr : pair K V => curr.key_cmp k curr.key) ∘
          apply_to_pair keyT_func valT_func) = fun curr => curr.key_cmp k curr.key := by
        funext curr
        show (apply_to_pair keyT_func valT_func curr).key_cmp k
          (apply_to_pair keyT_func valT_func curr).key = _
        rw [apply_to_pair_key, apply_to_pair_cmp]
      rw [List.find?_map, hpred]
      cases hf : v.data.find? (fun curr => curr.key_cmp k curr.key) with
      | none => rfl
      | some curr =>
        have hmem : curr ∈ all_pairs m.buckets :=
          (mem_all_pairs _ _).2 ⟨_, v, getElem?_of_getD _ _ _ hb, List.mem_of_find?_eq_some hf⟩
        have hp : curr.key_cmp k curr.key = true :=
          @List.find?_some _ (fun c : pair K V => c.key_cmp k c.key) curr v.data hf
        have hk : k = curr.key := (hm.table.law curr hmem k curr.key).1 hp
        show some (apply_to_pair keyT_func valT_func curr).value = _
        rw [apply_to_pair_value, ← hk]

/-- Witness of C11: the apply_if test of the test suite, which doubles the values of ten of
the 34 keys. -/
theorem C11_apply_if_witness :
    reachable (fun k => k) (test_map 34) ∧
      (hashmap_apply_if (test_map 34) (fun k => if 16 ≤ k ∧ k < 26 then 1 else 0)
        (fun val => val * 2)).1 = 10 ∧
      hashmap_at (hashmap_apply_if (test_map 34) (fun k => if 16 ≤ k ∧ k < 26 then 1 else 0)
        (fun val => val * 2)).2 20 = some 40 ∧
      hashmap_at (hashmap_apply_if (test_map 34) (fun k => if 16 ≤ k ∧ k < 26 then 1 else 0)
        (fun val => val * 2)).2 30 = some 30 ∧
      (hashmap_apply_if (test_map 34) (fun k => if 16 ≤ k ∧ k < 26 then 1 else 0)
        (fun val => val * 2)).2.size = (test_map 34).size :=
  ⟨test_map_reachable 34, by decide!, by decide!, by decide!,
    (C11_apply_if (fun k => k) (test_map 34) (fun k => if 16 ≤ k ∧ k < 26 then 1 else 0)
      (fun val => val * 2) (test_map_reachable 34)).2.1⟩

/-! ## Allocation of the slots -/

theorem getD_set_ne {α : Type} (bs : List (Option α)) (i j : Nat) (s : Option α) (h : i ≠ j) :
    (bs.set j s).getD i none = bs.getD i none := by
  rw [List.getD_eq_getElem?_getD, List.getD_eq_getElem?_getD, List.getElem?_set,
    if_neg (fun h2 => h h2.symm)]

theorem getD_set_eq {α : Type} (bs : List (Option α)) (j : Nat) (s : Option α)
    (h : j < bs.length) : (bs.set j s).getD j none = s := by
  rw [List.getD_eq_getElem?_getD, List.getElem?_set, if_pos rfl, if_pos h]
  rfl

/-- What `bucket_push_back` leaves is the array with one slot replaced by a chain that is not
empty. -/
theorem bucket_push_back_eq_set {K V : Type} (bs : List (Option (vector (pair K V))))
    (ind : Nat) (p : pair K V) :
    ∃ w : vector (pair K V), (bucket_push_back bs ind p).2 = bs.set ind (some w) ∧
      w.data ≠ [] := by
  unfold bucket_push_back
  refine ⟨_, rfl, ?_⟩
  rw [vector_push_back_data]
  simp

theorem bucket_push_back_nonempty {K V : Type} (bs : List (Option (vector (pair K V))))
    (ind : Nat) (p : pair K V) (h : ∀ v, some v ∈ bs → v.data ≠ []) :
    ∀ v, some v ∈ (bucket_push_back bs ind p).2 → v.data ≠ [] := by
  obtain ⟨w, hw, hne⟩ := bucket_push_back_eq_set bs ind p
  rw [hw]
  intro v hv
  rcases List.mem_or_eq_of_mem_set hv with h1 | h1
  · exact h v h1
  · rw [Option.some.inj h1]
    exact hne

/-- The array that `resize_buckets` builds has no allocated slot with an empty chain. -/
theorem resize_nonempty {K V : Type} (m : hashmap K V) (magnify : Int) :
    ∀ v, some v ∈ resize_buckets m magnify → v.data ≠ [] := by
  rw [resize_buckets_eq m magnify _ rfl]
  have hinit : ∀ v, some v ∈ List.replicate
      (if magnify ≠ 0 then m.capacity * HASH_MAP_GROWTH_FACTOR
        else m.capacity / HASH_MAP_GROWTH_FACTOR) (none : Option (vector (pair K V))) →
      v.data ≠ [] := fun v hv => Option.noConfusion (List.eq_of_mem_replicate hv)
  generalize List.replicate (if magnify ≠ 0 then m.capacity * HASH_MAP_GROWTH_FACTOR
    else m.capacity / HASH_MAP_GROWTH_FACTOR) (none : Option (vector (pair K V))) = init at hinit
  generalize all_pairs m.buckets = ps
  induction ps generalizing init with
  | nil => exact hinit
  | cons p ps ih =>
    rw [List.foldl_cons]
    exact ih _ (bucket_push_back_nonempty init _ p hinit)

/-- In an array without empty chains an allocated slot holds a pair. -/
theorem nonempty_of_allocated {α : Type} (bs : List (Option (vector α)))
    (h : ∀ v, some v ∈ bs → v.data ≠ []) (i : Nat) (hi : (bs.getD i none).isSome = true) :
    0 < (slot_data (bs.getD i none)).length := by
  cases hb : bs.getD i none with
  | none => rw [hb] at hi; exact Bool.noConfusion hi
  | some v =>
    have hmem : some v ∈ bs := List.mem_iff_getElem?.2 ⟨i, getElem?_of_getD _ _ _ hb⟩
    exact List.length_pos.2 (h v hmem)

/-- The array that a successful insert leaves. -/
theorem insert_buckets_eq {K V : Type} (m : hashmap K V) (p : pair K V) (hm : WF m)
    (habs : hashmap_at m p.key = none) :
    (hashmap_insert m p).2.buckets =
      if 3 * m.capacity < 4 * (m.size + 1) then
        (bucket_push_back (resize_buckets { m with size := m.size + 1 } MAGNIFY)
          (m.hash_func p.key &&& (m.capacity * 2 - 1)) p).2
      else (bucket_push_back m.buckets (m.hash_func p.key &&& (m.capacity - 1)) p).2 := by
  have hcond := max_load_iff { m with size := m.size + 1 } hm.table.cap_pos
  unfold hashmap_insert
  rw [habs]
  simp only [Option.isSome_none, Bool.false_eq_true, if_false]
  by_cases hg : 3 * m.capacity < 4 * (m.size + 1)
  · rw [if_pos (hcond.2 hg), if_pos hg]
    simp only [HASH_MAP_GROWTH_FACTOR]
    rw [if_pos (by rw [bucket_push_back_fst]; decide)]
  · rw [if_neg (fun h => hg (hcond.1 h)), if_neg hg]
    rw [if_pos (by rw [bucket_push_back_fst]; decide)]

/-- The array that a successful erase leaves: the current array, or the one built by
`resize_buckets` on the shrink path, with the slot of the key replaced by its chain after the
removal. -/
theorem erase_buckets_eq {K V : Type} (m : hashmap K V) (k : K) (hm : WF m)
    (hpres : hashmap_at m k ≠ none) :
    ∃ w : vector (pair K V), (hashmap_erase m k).2.buckets =
      (if 4 * (m.size - 1) < m.capacity then resize_buckets { m with size := m.size - 1 } MINIMIZE
        else m.buckets).set
        (m.hash_func k &&& ((if 4 * (m.size - 1) < m.capacity then m.capacity / 2
          else m.capacity) - 1)) (some w) := by
  obtain ⟨v0, hat⟩ := Option.ne_none_iff_exists'.1 hpres
  obtain ⟨q0, hq0, hq0k, _⟩ := (hashmap_at_some_iff m hm.table k v0).1 hat
  have hcond := min_load_iff { m with size := m.size - 1 } hm.table.cap_pos
  have hs1 : 1 ≤ m.size := by
    rw [hm.size_eq]
    exact List.length_pos_of_mem hq0
  have hq0c : q0.key_cmp q0.key k = true := (hm.table.law q0 hq0 q0.key k).2 hq0k
  by_cases hs : 4 * (m.size - 1) < m.capacity
  · obtain ⟨hhalf, _, _⟩ := pow2_half m.capacity m.size hm.pow2 hs1 hm.max_load
    obtain ⟨htab, hperm⟩ := resize_ok { m with size := m.size - 1 } MINIMIZE (m.capacity / 2)
      (by simp [MINIMIZE, HASH_MAP_GROWTH_FACTOR]) hhalf hm.table
    obtain ⟨cv, hget, hq0v⟩ := chain_of_mem m.hash_func (m.capacity / 2) _ htab q0
      (hperm.symm.subset hq0)
    rw [hq0k] at hget
    obtain ⟨A, q, B, w, _, _, hscan, _, _⟩ :=
      shrink_scan_spec k cv [] cv.data rfl ⟨q0, hq0v, hq0c⟩
    refine ⟨w, ?_⟩
    rw [if_pos hs, if_pos hs]
    unfold hashmap_erase
    rw [hat]
    simp only [Option.isNone_some, Bool.false_eq_true, if_false]
    rw [if_pos (hcond.2 hs)]
    simp only [HASH_MAP_GROWTH_FACTOR]
    rw [hget]
    simp only []
    rw [show shrink_scan k cv cv.data 0 = some (some w) from hscan]
  · obtain ⟨cv, hget, hq0v⟩ := chain_of_mem m.hash_func m.capacity _ hm.table q0 hq0
    rw [hq0k] at hget
    obtain ⟨A, q, B, w, _, _, hscan, _, _⟩ :=
      erase_scan_spec k cv [] cv.data rfl ⟨q0, hq0v, hq0c⟩
    refine ⟨w, ?_⟩
    rw [if_neg hs, if_neg hs]
    unfold hashmap_erase
    rw [hat]
    simp only [Option.isNone_some, Bool.false_eq_true, if_false]
    rw [if_neg (fun h => hs (hcond.1 h))]
    rw [hget]
    simp only []
    rw [show erase_scan k cv cv.data 0 = some w from hscan]

theorem allocated_alloc {K V : Type} (func : K → Nat) (i : Nat) :
    ¬ allocated (hashmap_alloc func : hashmap K V) i := by
  unfold allocated hashmap_alloc
  dsimp only
  rw [List.getD_eq_getElem?_getD, List.getElem?_replicate]
  split <;> exact Bool.noConfusion

theorem allocated_of_holds_pair {K V : Type} (m : hashmap K V) (i : Nat) (h : holds_pair m i) :
    allocated m i := by
  unfold holds_pair at h
  unfold allocated
  cases hb : m.buckets.getD i none with
  | none => rw [hb] at h; exact absurd h (Nat.lt_irrefl 0)
  | some v => rfl

/-- Counterexample to C20 as stated: after the erase of the only key of slot 2 the slot is
still allocated and holds no pair. -/
theorem C20_counterexample :
    reachable (fun k => k) (hashmap_erase (test_map 5) 2).2 ∧
      holds_pair (test_map 5) 2 ∧ (hashmap_erase (test_map 5) 2).1 = 1 ∧
      allocated (hashmap_erase (test_map 5) 2).2 2 ∧
      ¬ holds_pair (hashmap_erase (test_map 5) 2).2 2 :=
  ⟨reachable.step (test_map 5) (call.erase 2) (test_map_reachable 5) trivial,
    by unfold holds_pair; decide!, by decide!, by unfold allocated; decide!,
    by unfold holds_pair; decide!⟩

/-- C20 as amended: `hashmap_alloc` leaves every slot unallocated, and in a reachable map a slot
that holds a pair is allocated. After a successful call a slot is allocated only if it was
allocated before the call in the same array, or holds a pair, or is the slot of the key that
the call erased: a slot stays unallocated until its first pair arrives. `hashmap_erase` frees no
slot: the slot of the erased key is allocated after the call, also when its chain is empty. -/
theorem C20_lazy_allocation {K V : Type} (func : K → Nat) (m : hashmap K V) (c : call K V)
    (hr : reachable func m) (hc : c.lawful) (hok : (run_call m c).1 = 1) :
    (∀ i, ¬ allocated (hashmap_alloc func : hashmap K V) i) ∧
      (∀ i, holds_pair m i → allocated m i) ∧
      (∀ i, allocated (run_call m c).2 i →
        ((run_call m c).2.capacity = m.capacity ∧ allocated m i) ∨
          holds_pair (run_call m c).2 i ∨
          ∃ k, c = call.erase k ∧ i = func k &&& ((run_call m c).2.capacity - 1)) ∧
      (∀ k, c = call.erase k →
        allocated (run_call m c).2 (func k &&& ((run_call m c).2.capacity - 1))) := by
  have hm := reachable_WF func m hr
  have hf := reachable_hash func m hr
  subst hf
  refine ⟨allocated_alloc m.hash_func, allocated_of_holds_pair m, ?_⟩
  cases c with
  | insert p =>
    have hok2 : (hashmap_insert m p).1 = 1 := hok
    have habs : hashmap_at m p.key = none := by
      by_contra h
      rw [insert_present m p h] at hok2
      have h2 : (0 : Int) = 1 := hok2
      exact absurd h2 (by decide)
    obtain ⟨_, _, _, _, h5, _⟩ := insert_spec m p hm hc habs
    have hb := insert_buckets_eq m p hm habs
    refine ⟨?_, fun k hk => call.noConfusion hk⟩
    intro i hi
    have hi2 : ((hashmap_insert m p).2.buckets.getD i none).isSome = true := hi
    by_cases hg : 3 * m.capacity < 4 * (m.size + 1)
    · rw [if_pos hg] at hb
      right
      left
      show 0 < (slot_data ((hashmap_insert m p).2.buckets.getD i none)).length
      rw [hb] at hi2 ⊢
      exact nonempty_of_allocated _
        (bucket_push_back_nonempty _ _ p (resize_nonempty _ _)) i hi2
    · rw [if_neg hg] at hb h5
      obtain ⟨w, hw, hne⟩ := bucket_push_back_eq_set m.buckets
        (m.hash_func p.key &&& (m.capacity - 1)) p
      rw [hw] at hb
      have hlt : m.hash_func p.key &&& (m.capacity - 1) < m.buckets.length := by
        rw [hm.table.len]
        exact index_lt _ _ hm.table.cap_pos
      by_cases hie : i = m.hash_func p.key &&& (m.capacity - 1)
      · right
        left
        show 0 < (slot_data ((hashmap_insert m p).2.buckets.getD i none)).length
        rw [hb, hie, getD_set_eq _ _ _ hlt]
        exact List.length_pos.2 hne
      · left
        refine ⟨h5, ?_⟩
        show (m.buckets.getD i none).isSome = true
        rw [hb, getD_set_ne _ _ _ _ hie] at hi2
        exact hi2
  | erase k =>
    have hok2 : (hashmap_erase m k).1 = 1 := hok
    have hpres : hashmap_at m k ≠ none := by
      intro h
      rw [erase_absent m k h] at hok2
      have h2 : (0 : Int) = 1 := hok2
      exact absurd h2 (by decide)
    obtain ⟨_, e2, _, _, e5, _⟩ := erase_spec m k hm hpres
    obtain ⟨w, hw⟩ := erase_buckets_eq m k hm hpres
    rw [← e5] at hw
    have hlen := e2.table.len
    have hpos := e2.table.cap_pos
    constructor
    · intro i hi
      have hi2 : ((hashmap_erase m k).2.buckets.getD i none).isSome = true := hi
      by_cases hie : i = m.hash_func k &&& ((hashmap_erase m k).2.capacity - 1)
      · exact Or.inr (Or.inr ⟨k, rfl, hie⟩)
      · rw [hw, getD_set_ne _ _ _ _ hie] at hi2
        by_cases hs : 4 * (m.size - 1) < m.capacity
        · rw [if_pos hs] at hi2
          right
          left
          show 0 < (slot_data ((hashmap_erase m k).2.buckets.getD i none)).length
          rw [hw, getD_set_ne _ _ _ _ hie, if_pos hs]
          exact nonempty_of_allocated _ (resize_nonempty _ _) i hi2
        · rw [if_neg hs] at hi2 e5
          exact Or.inl ⟨e5, hi2⟩
    · intro k2 hk2
      have hkk : k = k2 := call.erase.inj hk2
      subst hkk
      show ((hashmap_erase m k).2.buckets.getD
        (m.hash_func k &&& ((hashmap_erase m k).2.capacity - 1)) none).isSome = true
      have hlt : m.hash_func k &&& ((hashmap_erase m k).2.capacity - 1) <
          (if 4 * (m.size - 1) < m.capacity
            then resize_buckets { m with size := m.size - 1 } MINIMIZE
            else m.buckets).length := by
        have h3 := index_lt (m.hash_func k) _ hpos
        rw [hw, List.length_set] at hlen
        omega
      rw [hw, getD_set_eq _ _ _ hlt]
      rfl

/-- Witness of C20 as amended: the erase of the counterexample. -/
theorem C20_lazy_allocation_witness :
    reachable (fun k => k) (test_map 5) ∧ (call.erase 2 : call Nat Nat).lawful ∧
      (run_call (test_map 5) (call.erase 2)).1 = 1 ∧
      ((∀ i, ¬ allocated (hashmap_alloc (fun k => k) : hashmap Nat Nat) i) ∧
        (∀ i, holds_pair (test_map 5) i → allocated (test_map 5) i) ∧
        (∀ i, allocated (run_call (test_map 5) (call.erase 2)).2 i →
          ((run_call (test_map 5) (call.erase 2)).2.capacity = (test_map 5).capacity ∧
              allocated (test_map 5) i) ∨
            holds_pair (run_call (test_map 5) (call.erase 2)).2 i ∨
            ∃ k, (call.erase 2 : call Nat Nat) = call.erase k ∧
              i = (fun k => k) k &&& ((run_call (test_map 5) (call.erase 2)).2.capacity - 1)) ∧
        (∀ k, (call.erase 2 : call Nat Nat) = call.erase k →
          allocated (run_call (test_map 5) (call.erase 2)).2
            ((fun k => k) k &&& ((run_call (test_map 5) (call.erase 2)).2.capacity - 1)))) :=
  ⟨test_map_reachable 5, trivial, by decide!,
    C20_lazy_allocation (fun k => k) (test_map 5) (call.erase 2) (test_map_reachable 5) trivial
      (by decide!)⟩

/-! ## The order of the rehash -/

/-- Pushing a pair adds it at the end of the chain of its slot and changes no other chain. -/
theorem bucket_push_back_slot {K V : Type} (bs : List (Option (vector (pair K V)))) (ind : Nat)
    (p : pair K V) (hcopy : ∀ v, some v ∈ bs → v.elem_copy_func = pair_copy)
    (hlt : ind < bs.length) :
    (bucket_push_back bs ind p).2.length = bs.length ∧
      (∀ v, some v ∈ (bucket_push_back bs ind p).2 → v.elem_copy_func = pair_copy) ∧
      (∀ j, slot_data ((bucket_push_back bs ind p).2.getD j none) =
        slot_data (bs.getD j none) ++ if j = ind then [p] else []) ∧
      (all_pairs (bucket_push_back bs ind p).2).Perm (p :: all_pairs bs) := by
  obtain ⟨v0, hv0, hdata, hc0⟩ :
      ∃ v0 : vector (pair K V),
        (bucket_push_back bs ind p).2 = bs.set ind (some (vector_push_back v0 p).2) ∧
        slot_data (bs.getD ind none) = v0.data ∧ v0.elem_copy_func = pair_copy := by
    cases hb : bs.getD ind none with
    | none =>
      refine ⟨vector_alloc pair_copy pair_cmp, ?_, rfl, rfl⟩
      unfold bucket_push_back
      rw [hb]
    | some v =>
      refine ⟨v, ?_, rfl, hcopy v (List.mem_iff_getElem?.2 ⟨ind, getElem?_of_getD _ _ _ hb⟩)⟩
      unfold bucket_push_back
      rw [hb]
  have hnewdata : (vector_push_back v0 p).2.data = v0.data ++ [p] := by
    rw [vector_push_back_data, hc0]
    rfl
  obtain ⟨A, B, hA, hB⟩ := all_pairs_set bs ind hlt (some (vector_push_back v0 p).2)
  rw [hv0]
  refine ⟨List.length_set _ _ _, ?_, ?_, ?_⟩
  · intro v hv
    rcases List.mem_or_eq_of_mem_set hv with h1 | h1
    · exact hcopy v h1
    · rw [Option.some.inj h1, vector_push_back_copy, hc0]
  · intro j
    by_cases hj : j = ind
    · rw [hj, getD_set_eq _ _ _ hlt, if_pos rfl, hdata]
      exact hnewdata
    · rw [getD_set_ne _ _ _ _ hj, if_neg hj, List.append_nil]
  · rw [hB, hA, hdata]
    show (A ++ (vector_push_back v0 p).2.data ++ B).Perm _
    rw [hnewdata]
    have h1 : A ++ (v0.data ++ [p]) ++ B = (A ++ v0.data) ++ p :: B := by simp
    rw [h1]
    exact List.perm_middle

/-- The pass of `resize_buckets` over the stored pairs appends to every chain the pairs of its
slot, in the order of the pass. -/
theorem foldl_push_chains {K V : Type} (f : K → Nat) (cap : Nat) (hpos : 0 < cap)
    (ps : List (pair K V)) (nb : List (Option (vector (pair K V)))) (hlen : nb.length = cap)
    (hcopy : ∀ v, some v ∈ nb → v.elem_copy_func = pair_copy) :
    (ps.foldl (fun nb curr_pair =>
        (bucket_push_back nb (f curr_pair.key &&& (cap - 1)) curr_pair).2) nb).length = cap ∧
      (∀ j, slot_data ((ps.foldl (fun nb curr_pair =>
          (bucket_push_back nb (f curr_pair.key &&& (cap - 1)) curr_pair).2) nb).getD j none) =
        slot_data (nb.getD j none) ++
          ps.filter (fun p => decide (f p.key &&& (cap - 1) = j))) ∧
      (all_pairs (ps.foldl (fun nb curr_pair =>
          (bucket_push_back nb (f curr_pair.key &&& (cap - 1)) curr_pair).2) nb)).Perm
        (ps ++ all_pairs nb) := by
  induction ps generalizing nb with
  | nil => exact ⟨hlen, fun j => by simp, List.Perm.refl _⟩
  | cons p ps ih =>
    have hlt : f p.key &&& (cap - 1) < nb.length := by
      rw [hlen]
      exact index_lt _ _ hpos
    obtain ⟨h1, h2, h3, h4⟩ := bucket_push_back_slot nb _ p hcopy hlt
    obtain ⟨i1, i2, i3⟩ := ih _ (h1.trans hlen) h2
    rw [List.foldl_cons]
    refine ⟨i1, ?_, ?_⟩
    · intro j
      rw [i2 j, h3 j, List.filter_cons]
      by_cases hj : j = f p.key &&& (cap - 1)
      · rw [if_pos hj, if_pos (by simpa using hj.symm)]
        simp
      · rw [if_neg hj, if_neg (by simpa using fun h => hj h.symm)]
        simp
    · exact (i3.trans (List.Perm.append_left ps h4)).trans List.perm_middle

/-- C21 (rehash preserves contents and order): for a map and a direction whose new capacity,
`capacity * 2` or `capacity / 2`, is not 0, `resize_buckets` returns an array of the new capacity
whose pairs are, as a multiset, the pairs of the old array; the chain of every slot `j` consists
of the pairs of the old array whose `hash_func (key) & (new_capacity - 1)` is `j`, in the order
of the old array: slot index first, chain position second. The old array is an argument that is
read only. -/
theorem C21_rehash_contents_and_order {K V : Type} (m : hashmap K V) (magnify : Int)
    (new_capacity : Nat)
    (hcap : new_capacity = if magnify ≠ 0 then m.capacity * HASH_MAP_GROWTH_FACTOR
      else m.capacity / HASH_MAP_GROWTH_FACTOR)
    (hpos : 0 < new_capacity) :
    (resize_buckets m magnify).length = new_capacity ∧
      (all_pairs (resize_buckets m magnify)).Perm (all_pairs m.buckets) ∧
      (∀ j, slot_data ((resize_buckets m magnify).getD j none) =
        (all_pairs m.buckets).filter
          (fun p => decide (m.hash_func p.key &&& (new_capacity - 1) = j))) ∧
      (∀ (j : Nat) (v : vector (pair K V)) (p : pair K V),
        (resize_buckets m magnify)[j]? = some (some v) → p ∈ v.data →
        j = m.hash_func p.key &&& (new_capacity - 1)) ∧
      (∀ j, ((resize_buckets m magnify).getD j none).isSome = true ↔
        ∃ p ∈ all_pairs m.buckets, m.hash_func p.key &&& (new_capacity - 1) = j) := by
  have hne := resize_nonempty m magnify
  rw [resize_buckets_eq m magnify new_capacity hcap] at hne ⊢
  obtain ⟨h1, h2, h3⟩ := foldl_push_chains m.hash_func new_capacity hpos (all_pairs m.buckets)
    (List.replicate new_capacity none) (List.length_replicate _ _)
    (fun v hv => Option.noConfusion (List.eq_of_mem_replicate hv))
  have hempty : ∀ j, slot_data ((List.replicate new_capacity
      (none : Option (vector (pair K V)))).getD j none) = [] := by
    intro j
    rw [List.getD_eq_getElem?_getD, List.getElem?_replicate]
    split <;> rfl
  have hchain : ∀ j, slot_data ((List.foldl (fun nb curr_pair =>
      (bucket_push_back nb (m.hash_func curr_pair.key &&& (new_capacity - 1)) curr_pair).2)
      (List.replicate new_capacity none) (all_pairs m.buckets)).getD j none) =
      (all_pairs m.buckets).filter
        (fun p => decide (m.hash_func p.key &&& (new_capacity - 1) = j)) := by
    intro j
    rw [h2 j, hempty j, List.nil_append]
  rw [all_pairs_replicate, List.append_nil] at h3
  refine ⟨h1, h3, hchain, ?_, ?_⟩
  · intro j v p hj hp
    have h4 := hchain j
    rw [getD_of_getElem? _ _ _ hj] at h4
    have h5 : p ∈ (all_pairs m.buckets).filter
        (fun p => decide (m.hash_func p.key &&& (new_capacity - 1) = j)) := by
      rw [← h4]
      exact hp
    have h6 := (List.mem_filter.1 h5).2
    exact (of_decide_eq_true h6).symm
  · intro j
    constructor
    · intro hj
      have h4 := nonempty_of_allocated _ hne j hj
      rw [hchain j] at h4
      obtain ⟨p, hp⟩ := List.exists_mem_of_length_pos h4
      exact ⟨p, (List.mem_filter.1 hp).1, of_decide_eq_true (List.mem_filter.1 hp).2⟩
    · rintro ⟨p, hp, hpj⟩
      have h5 : p ∈ slot_data ((List.foldl (fun nb curr_pair =>
          (bucket_push_back nb (m.hash_func curr_pair.key &&& (new_capacity - 1)) curr_pair).2)
          (List.replicate new_capacity none) (all_pairs m.buckets)).getD j none) := by
        rw [hchain j]
        exact List.mem_filter.2 ⟨hp, decide_eq_true hpj⟩
      cases hb : (List.foldl (fun nb curr_pair =>
          (bucket_push_back nb (m.hash_func curr_pair.key &&& (new_capacity - 1)) curr_pair).2)
          (List.replicate new_capacity none) (all_pairs m.buckets)).getD j none with
      | none =>
        rw [hb] at h5
        cases h5
      | some v => rfl

/-- Witness of C21: five keys that share slot 0 of 16 slots; in 32 slots the even keys stay in
slot 0 and the odd keys go to slot 16, each chain in the order of the old chain. -/
theorem C21_rehash_contents_and_order_witness :
    (32 = if MAGNIFY ≠ 0 then test_chain_map.capacity * HASH_MAP_GROWTH_FACTOR
        else test_chain_map.capacity / HASH_MAP_GROWTH_FACTOR) ∧
      0 < 32 ∧
      (slot_data (test_chain_map.buckets.getD 0 none)).map pair.key = [0, 1, 2, 3, 4] ∧
      (slot_data ((resize_buckets test_chain_map MAGNIFY).getD 0 none)).map pair.key =
        [0, 2, 4] ∧
      (slot_data ((resize_buckets test_chain_map MAGNIFY).getD 16 none)).map pair.key =
        [1, 3] ∧
      ((resize_buckets test_chain_map MAGNIFY).length = 32 ∧
        (all_pairs (resize_buckets test_chain_map MAGNIFY)).Perm
          (all_pairs test_chain_map.buckets) ∧
        (∀ j, slot_data ((resize_buckets test_chain_map MAGNIFY).getD j none) =
          (all_pairs test_chain_map.buckets).filter
            (fun p => decide (test_chain_map.hash_func p.key &&& (32 - 1) = j))) ∧
        (∀ (j : Nat) (v : vector (pair Nat Nat)) (p : pair Nat Nat),
          (resize_buckets test_chain_map MAGNIFY)[j]? = some (some v) → p ∈ v.data →
          j = test_chain_map.hash_func p.key &&& (32 - 1)) ∧
        (∀ j, ((resize_buckets test_chain_map MAGNIFY).getD j none).isSome = true ↔
          ∃ p ∈ all_pairs test_chain_map.buckets,
            test_chain_map.hash_func p.key &&& (32 - 1) = j)) :=
  ⟨by decide!, by decide, by decide!, by decide!, by decide!,
    C21_rehash_contents_and_order test_chain_map MAGNIFY 32 (by decide!) (by decide)⟩

/-! ## Calls whose allocations may fail, against the calls whose allocations succeed -/

/-- Storing back the chain a slot holds leaves the array as it was. -/
theorem set_getD_self {α : Type} (bs : List (Option α)) (i : Nat) (v : α)
    (h : bs.getD i none = some v) : bs.set i (some v) = bs := by
  apply List.ext_getElem?
  intro j
  rw [List.getElem?_set]
  by_cases hij : i = j
  · subst hij
    rw [if_pos rfl]
    by_cases hi : i < bs.length
    · rw [if_pos hi]
      exact (getElem?_of_getD bs i v h).symm
    · rw [List.getD_eq_getElem?_getD, List.getElem?_eq_none (Nat.le_of_not_lt hi)] at h
      cases h
  · rw [if_neg hij]

/-- A `vector_push_back` either appends as when its `realloc` succeeds, or fails and leaves the
vector as it was. -/
theorem vector_push_back_mem_cases {α : Type} (v : vector α) (value : α) (mem : List Bool) :
    ((vector_push_back_mem v value mem).1 = 1 ∧
        (vector_push_back_mem v value mem).2.1 = (vector_push_back v value).2) ∨
      ((vector_push_back_mem v value mem).1 = 0 ∧ (vector_push_back_mem v value mem).2.1 = v) := by
  unfold vector_push_back_mem vector_push_back
  dsimp only
  split
  · split
    · exact Or.inr ⟨rfl, rfl⟩
    · exact Or.inl ⟨rfl, rfl⟩
  · exact Or.inl ⟨rfl, rfl⟩

/-- The first `vector_push_back` into a chain that `vector_alloc` returned has no `realloc` to
make: it succeeds. -/
theorem vector_push_back_mem_alloc {α : Type} (c : α → α) (f : α → α → Bool) (value : α)
    (mem : List Bool) :
    vector_push_back_mem (vector_alloc c f) value mem =
      (1, (vector_push_back (vector_alloc c f) value).2, mem) := by
  have h : ¬ VECTOR_MAX_LOAD_FACTOR <
      vector_get_load_factor { vector_alloc c f with
        data := (vector_alloc c f).data ++ [(vector_alloc c f).elem_copy_func value] } := by
    unfold vector_get_load_factor VECTOR_MAX_LOAD_FACTOR vector.size vector_alloc
      VECTOR_INITIAL_CAP
    norm_num
  unfold vector_push_back_mem vector_push_back
  dsimp only
  rw [if_neg h, if_neg h]

/-- A `vector_erase` either removes as when its `realloc` succeeds, or fails and leaves the
vector as it was. -/
theorem vector_erase_mem_cases {α : Type} (v : vector α) (ind : Nat) (mem : List Bool) :
    ((vector_erase_mem v ind mem).1 = 1 ∧ (vector_erase v ind).1 = 1 ∧
        (vector_erase_mem v ind mem).2.1 = (vector_erase v ind).2) ∨
      ((vector_erase_mem v ind mem).1 = 0 ∧ (vector_erase_mem v ind mem).2.1 = v) := by
  unfold vector_erase_mem vector_erase
  dsimp only
  split
  · exact Or.inr ⟨rfl, rfl⟩
  · split
    · split
      · exact Or.inr ⟨rfl, rfl⟩
      · exact Or.inl ⟨rfl, rfl, rfl⟩
    · exact Or.inl ⟨rfl, rfl, rfl⟩

/-- A `vector_alloc` either fails or returns the vector it returns when its allocations
succeed. -/
theorem vector_alloc_mem_cases {α : Type} (c : α → α) (f : α → α → Bool) (mem : List Bool) :
    (vector_alloc_mem c f mem).1 = none ∨
      (vector_alloc_mem c f mem).1 = some (vector_alloc c f) := by
  unfold vector_alloc_mem
  dsimp only
  split
  · exact Or.inl rfl
  · split
    · exact Or.inl rfl
    · exact Or.inr rfl

/-- The push of a pair into a slot either does what it does when every allocation succeeds, or
fails and leaves the array as it was. -/
theorem bucket_push_back_mem_cases {K V : Type} (bs : List (Option (vector (pair K V))))
    (ind : Nat) (p : pair K V) (mem : List Bool) :
    ((bucket_push_back_mem bs ind p mem).1 = 1 ∧
        (bucket_push_back_mem bs ind p mem).2.1 = (bucket_push_back bs ind p).2) ∨
      ((bucket_push_back_mem bs ind p mem).1 = 0 ∧
        (bucket_push_back_mem bs ind p mem).2.1 = bs) := by
  unfold bucket_push_back_mem bucket_push_back
  cases hs : bs.getD ind none with
  | none =>
    dsimp only
    have h := vector_alloc_mem_cases (pair_copy : pair K V → pair K V) pair_cmp mem
    generalize vector_alloc_mem (pair_copy : pair K V → pair K V) pair_cmp mem = r at h
    obtain ⟨fst, snd⟩ := r
    dsimp only at h
    rcases h with h | h
    · subst h
      exact Or.inr ⟨rfl, rfl⟩
    · subst h
      dsimp only
      rw [vector_push_back_mem_alloc]
      exact Or.inl ⟨rfl, rfl⟩
  | some v =>
    dsimp only
    rcases vector_push_back_mem_cases v p mem with ⟨h1, h2⟩ | ⟨h1, h2⟩
    · exact Or.inl ⟨h1, by rw [h2]⟩
    · refine Or.inr ⟨h1, ?_⟩
      rw [h2]
      exact set_getD_self bs ind v hs

/-- The loops of `resize_buckets` either fail or build the array they build when every
allocation succeeds. -/
theorem resize_loop_mem_cases {K V : Type} (f : K → Nat) (cap : Nat) (l : List (pair K V))
    (nb : List (Option (vector (pair K V)))) (mem : List Bool) :
    (resize_loop_mem f cap l nb mem).1 = none ∨
      (resize_loop_mem f cap l nb mem).1 =
        some (l.foldl (fun nb curr_pair =>
          (bucket_push_back nb (f curr_pair.key &&& (cap - 1)) curr_pair).2) nb) := by
  induction l generalizing nb mem with
  | nil => exact Or.inr rfl
  | cons c rest ih =>
    unfold resize_loop_mem
    dsimp only
    rcases bucket_push_back_mem_cases nb (f c.key &&& (cap - 1)) c mem with ⟨h1, h2⟩ | ⟨h1, _⟩
    · rw [if_pos (by rw [h1]; decide), h2]
      exact ih _ _
    · rw [if_neg (by rw [h1]; decide)]
      exact Or.inl rfl

/-- A `resize_buckets` either fails or returns the array it returns when every allocation
succeeds. -/
theorem resize_buckets_mem_cases {K V : Type} (m : hashmap K V) (magnify : Int)
    (mem : List Bool) :
    (resize_buckets_mem m magnify mem).1 = none ∨
      (resize_buckets_mem m magnify mem).1 = some (resize_buckets m magnify) := by
  unfold resize_buckets_mem
  dsimp only
  split
  · exact Or.inl rfl
  · rw [resize_buckets_eq m magnify _ rfl]
    exact resize_loop_mem_cases _ _ _ _ _

/-- A `hashmap_insert` either does what it does when every allocation succeeds, or returns 0 and
leaves the map as it was. -/
theorem hashmap_insert_mem_cases {K V : Type} (m : hashmap K V) (p : pair K V)
    (mem : List Bool) :
    ((hashmap_insert_mem m p mem).1 = (hashmap_insert m p).1 ∧
        (hashmap_insert_mem m p mem).2.1 = (hashmap_insert m p).2) ∨
      ((hashmap_insert_mem m p mem).1 = 0 ∧ (hashmap_insert_mem m p mem).2.1 = m) := by
  unfold hashmap_insert_mem hashmap_insert
  dsimp only
  split
  · exact Or.inl ⟨rfl, rfl⟩
  · split
    · have h := resize_buckets_mem_cases { m with size := m.size + 1 } MAGNIFY mem
      generalize resize_buckets_mem { m with size := m.size + 1 } MAGNIFY mem = r at h
      obtain ⟨fst, snd⟩ := r
      dsimp only at h
      rcases h with h | h
      · subst h
        exact Or.inr ⟨rfl, rfl⟩
      · subst h
        dsimp only
        rcases bucket_push_back_mem_cases (resize_buckets { m with size := m.size + 1 } MAGNIFY)
          (m.hash_func p.key &&& (m.capacity * HASH_MAP_GROWTH_FACTOR - 1)) p snd
          with ⟨h1, h2⟩ | ⟨h1, _⟩
        · rw [if_pos (by rw [h1]; decide), if_pos (by rw [bucket_push_back_fst]; decide), h2]
          exact Or.inl ⟨rfl, rfl⟩
        · rw [if_neg (by rw [h1]; decide)]
          exact Or.inr ⟨rfl, rfl⟩
    · rcases bucket_push_back_mem_cases m.buckets (m.hash_func p.key &&& (m.capacity - 1)) p mem
        with ⟨h1, h2⟩ | ⟨h1, h2⟩
      · rw [if_pos (by rw [h1]; decide), if_pos (by rw [bucket_push_back_fst]; decide), h2]
        exact Or.inl ⟨rfl, rfl⟩
      · rw [if_neg (by rw [h1]; decide), h2]
        exact Or.inr ⟨rfl, rfl⟩

/-- The loop of the shrinking branch either ends as when the `realloc` of `vector_erase`
succeeds, or ends with the `return 0` that follows a failed `vector_erase`. -/
theorem shrink_scan_mem_cases {K V : Type} (key : K) (v : vector (pair K V))
    (l : List (pair K V)) (i : Nat) (mem : List Bool) :
    (shrink_scan_mem key v l i mem).1 = shrink_scan key v l i ∨
      (shrink_scan_mem key v l i mem).1 = some none := by
  induction l generalizing i with
  | nil => exact Or.inl rfl
  | cons c rest ih =>
    unfold shrink_scan_mem shrink_scan
    by_cases hc : c.key_cmp c.key key = true
    · rw [if_pos hc, if_pos hc]
      dsimp only
      rcases vector_erase_mem_cases v i mem with ⟨h1, h2, h3⟩ | ⟨h1, _⟩
      · rw [if_pos (by rw [h1]; decide), if_pos (by rw [h2]; decide), h3]
        exact Or.inl rfl
      · rw [if_neg (by rw [h1]; decide)]
        exact Or.inr rfl
    · rw [if_neg hc, if_neg hc]
      exact ih (i + 1)

/-- When the loop of the shrinking branch runs to its end, no pair of the chain has the key, and
no allocation was requested. -/
theorem shrink_scan_mem_none {K V : Type} (key : K) (v : vector (pair K V))
    (l : List (pair K V)) (i : Nat) (mem : List Bool)
    (h : (shrink_scan_mem key v l i mem).1 = none) :
    (∀ q ∈ l, q.key_cmp q.key key = false) ∧ (shrink_scan_mem key v l i mem).2 = mem := by
  induction l generalizing i with
  | nil => exact ⟨fun q hq => absurd hq (List.not_mem_nil q), rfl⟩
  | cons c rest ih =>
    unfold shrink_scan_mem at h ⊢
    by_cases hc : c.key_cmp c.key key = true
    · rw [if_pos hc] at h
      dsimp only at h
      split at h <;> cases h
    · rw [if_neg hc] at h ⊢
      obtain ⟨h1, h2⟩ := ih (i + 1) h
      refine ⟨?_, h2⟩
      intro q hq
      rcases List.mem_cons.1 hq with hq | hq
      · rw [hq]
        exact Bool.eq_false_iff.2 hc
      · exact h1 q hq

/-- Over pairs none of which has the key, the closing loop of `hashmap_erase` runs to its end
and requests no allocation. -/
theorem erase_scan_mem_no_match {K V : Type} (key : K) (v : vector (pair K V))
    (l : List (pair K V)) (i : Nat) (mem : List Bool)
    (h : ∀ q ∈ l, q.key_cmp q.key key = false) :
    erase_scan_mem key v l i mem = (none, mem) ∧ erase_scan key v l i = none := by
  induction l generalizing i with
  | nil => exact ⟨rfl, rfl⟩
  | cons c rest ih =>
    have hc : ¬ c.key_cmp c.key key = true := by
      rw [h c (List.mem_cons_self c rest)]
      decide
    unfold erase_scan_mem erase_scan
    rw [if_neg hc, if_neg hc]
    exact ih (i + 1) (fun q hq => h q (List.mem_cons_of_mem c hq))

/-- Over pairs of pairwise distinct keys with lawful comparators, the closing loop of
`hashmap_erase` either ends as when the `realloc` of `vector_erase` succeeds, or removes
nothing. -/
theorem erase_scan_mem_cases {K V : Type} (key : K) (v : vector (pair K V))
    (l : List (pair K V)) (i : Nat) (mem : List Bool)
    (hlaw : ∀ q ∈ l, lawful q) (hnd : (l.map pair.key).Nodup) :
    (erase_scan_mem key v l i mem).1 = erase_scan key v l i ∨
      (erase_scan_mem key v l i mem).1 = none := by
  induction l generalizing i mem with
  | nil => exact Or.inl rfl
  | cons c rest ih =>
    have hnd2 : c.key ∉ rest.map pair.key ∧ (rest.map pair.key).Nodup :=
      List.nodup_cons.1 hnd
    unfold erase_scan_mem erase_scan
    by_cases hc : c.key_cmp c.key key = true
    · rw [if_pos hc, if_pos hc]
      dsimp only
      rcases vector_erase_mem_cases v i mem with ⟨h1, h2, h3⟩ | ⟨h1, _⟩
      · rw [if_pos (by rw [h1]; decide), if_pos (by rw [h2]; decide), h3]
        exact Or.inl rfl
      · rw [if_neg (by rw [h1]; decide)]
        have hck : c.key = key := (hlaw c (List.mem_cons_self c rest) c.key key).1 hc
        have hno : ∀ q ∈ rest, q.key_cmp q.key key = false := by
          intro q hq
          apply Bool.eq_false_iff.2
          intro hq2
          have hqk : q.key = key := (hlaw q (List.mem_cons_of_mem c hq) q.key key).1 hq2
          exact hnd2.1 (List.mem_map.2 ⟨q, hq, hqk.trans hck.symm⟩)
        rw [(erase_scan_mem_no_match key v rest (i + 1) _ hno).1]
        exact Or.inr rfl
    · rw [if_neg hc, if_neg hc]
      exact ih (i + 1) mem (fun q hq => hlaw q (List.mem_cons_of_mem c hq)) hnd2.2

/-- A `hashmap_erase` on a map that satisfies the invariant does one of three things: what it
does when every allocation succeeds; or it returns 0 and leaves the map as it was; or, in the
shrinking branch and for a key that `hashmap_at` finds, it returns 0 and leaves the map with
the decremented size and the array it had. -/
theorem hashmap_erase_mem_cases {K V : Type} (m : hashmap K V) (key : K) (mem : List Bool)
    (hm : WF m) :
    ((hashmap_erase_mem m key mem).1 = (hashmap_erase m key).1 ∧
        (hashmap_erase_mem m key mem).2.1 = (hashmap_erase m key).2) ∨
      ((hashmap_erase_mem m key mem).1 = 0 ∧ (hashmap_erase_mem m key mem).2.1 = m) ∨
      ((hashmap_erase_mem m key mem).1 = 0 ∧
        (hashmap_erase_mem m key mem).2.1 = { m with size := m.size - 1 } ∧
        hashmap_at m key ≠ none ∧
        hashmap_get_load_factor { m with size := m.size - 1 } < HASH_MAP_MIN_LOAD_FACTOR) := by
  unfold hashmap_erase_mem hashmap_erase
  dsimp only
  split
  · exact Or.inl ⟨rfl, rfl⟩
  · rename_i hpres
    have hpres2 : hashmap_at m key ≠ none := by
      intro h0
      rw [h0] at hpres
      exact hpres rfl
    split
    · rename_i hlf
      have h := resize_buckets_mem_cases { m with size := m.size - 1 } MINIMIZE mem
      generalize resize_buckets_mem { m with size := m.size - 1 } MINIMIZE mem = r at h
      obtain ⟨fst, snd⟩ := r
      dsimp only at h
      rcases h with h | h
      · subst h
        exact Or.inr (Or.inl ⟨rfl, rfl⟩)
      · subst h
        dsimp only
        cases hs : (resize_buckets { m with size := m.size - 1 } MINIMIZE).getD
            (m.hash_func key &&& (m.capacity / HASH_MAP_GROWTH_FACTOR - 1)) none with
        | none => exact Or.inl ⟨rfl, rfl⟩
        | some cv =>
          dsimp only
          have h2 := shrink_scan_mem_cases key cv cv.data 0 snd
          have h3 := shrink_scan_mem_none key cv cv.data 0 snd
          generalize shrink_scan_mem key cv cv.data 0 snd = r2 at h2 h3
          obtain ⟨o, mem2⟩ := r2
          dsimp only at h2 h3
          rcases h2 with h2 | h2
          · subst h2
            cases hss : shrink_scan key cv cv.data 0 with
            | none =>
              rw [hss] at h3
              obtain ⟨h4, _⟩ := h3 rfl
              dsimp only
              rw [(erase_scan_mem_no_match key cv cv.data 0 mem2 h4).1,
                (erase_scan_mem_no_match key cv cv.data 0 mem2 h4).2]
              exact Or.inl ⟨rfl, rfl⟩
            | some o2 =>
              cases o2 with
              | none => exact Or.inl ⟨rfl, rfl⟩
              | some w => exact Or.inl ⟨rfl, rfl⟩
          · subst h2
            exact Or.inr (Or.inr ⟨rfl, rfl, hpres2, hlf⟩)
    · cases hs : m.buckets.getD (m.hash_func key &&& (m.capacity - 1)) none with
      | none => exact Or.inl ⟨rfl, rfl⟩
      | some cv =>
        dsimp only
        have hi := getElem?_of_getD _ _ _ hs
        have hnd := chain_nodup _ _ _ hm.table _ cv hi
        have hlaw : ∀ q ∈ cv.data, lawful q :=
          fun q hq => hm.table.law q ((mem_all_pairs _ _).2 ⟨_, cv, hi, hq⟩)
        have h2 := erase_scan_mem_cases key cv cv.data 0 mem hlaw hnd
        generalize erase_scan_mem key cv cv.data 0 mem = r2 at h2
        obtain ⟨o, mem2⟩ := r2
        dsimp only at h2
        rcases h2 with h2 | h2
        · subst h2
          cases erase_scan key cv cv.data 0 <;> exact Or.inl ⟨rfl, rfl⟩
        · subst h2
          exact Or.inr (Or.inl ⟨rfl, rfl⟩)

/-- When no allocation fails, `vector_push_back` does what the translation without failures
does. -/
theorem vector_push_back_mem_nil {α : Type} (v : vector α) (value : α) :
    vector_push_back_mem v value [] = (1, (vector_push_back v value).2, []) := by
  unfold vector_push_back_mem vector_push_back
  dsimp only
  split
  · rfl
  · rfl

/-- When no allocation fails, `vector_erase` does what the translation without failures
does. -/
theorem vector_erase_mem_nil {α : Type} (v : vector α) (ind : Nat) :
    vector_erase_mem v ind [] = ((vector_erase v ind).1, (vector_erase v ind).2, []) := by
  unfold vector_erase_mem vector_erase
  dsimp only
  split
  · rfl
  · split
    · rfl
    · rfl

/-- When no allocation fails, the push of a pair into a slot does what the translation without
failures does. -/
theorem bucket_push_back_mem_nil {K V : Type} (bs : List (Option (vector (pair K V))))
    (ind : Nat) (p : pair K V) :
    bucket_push_back_mem bs ind p [] = (1, (bucket_push_back bs ind p).2, []) := by
  unfold bucket_push_back_mem bucket_push_back
  cases bs.getD ind none with
  | none =>
    have h : vector_alloc_mem (pair_copy : pair K V → pair K V) pair_cmp [] =
        (some (vector_alloc pair_copy pair_cmp), []) := rfl
    dsimp only
    rw [h]
    dsimp only
    rw [vector_push_back_mem_nil]
  | some v =>
    dsimp only
    rw [vector_push_back_mem_nil]

/-- When no allocation fails, the loops of `resize_buckets` build the array of the translation
without failures. -/
theorem resize_loop_mem_nil {K V : Type} (f : K → Nat) (cap : Nat) (l : List (pair K V))
    (nb : List (Option (vector (pair K V)))) :
    resize_loop_mem f cap l nb [] =
      (some (l.foldl (fun nb curr_pair =>
        (bucket_push_back nb (f curr_pair.key &&& (cap - 1)) curr_pair).2) nb), []) := by
  induction l generalizing nb with
  | nil => rfl
  | cons c rest ih =>
    unfold resize_loop_mem
    dsimp only
    rw [bucket_push_back_mem_nil]
    dsimp only
    rw [if_pos (by decide)]
    exact ih _

/-- When no allocation fails, `resize_buckets` returns the array of the translation without
failures. -/
theorem resize_buckets_mem_nil {K V : Type} (m : hashmap K V) (magnify : Int) :
    resize_buckets_mem m magnify [] = (some (resize_buckets m magnify), []) := by
  unfold resize_buckets_mem
  dsimp only
  have h : next_alloc [] = (true, []) := rfl
  rw [h]
  dsimp only
  rw [if_neg (by decide), resize_buckets_eq m magnify _ rfl]
  exact resize_loop_mem_nil _ _ _ _

/-- When no allocation fails, the closing loop of `hashmap_erase` ends as in the translation
without failures. -/
theorem erase_scan_mem_nil {K V : Type} (key : K) (v : vector (pair K V))
    (l : List (pair K V)) (i : Nat) :
    erase_scan_mem key v l i [] = (erase_scan key v l i, []) := by
  induction l generalizing i with
  | nil => rfl
  | cons c rest ih =>
    unfold erase_scan_mem erase_scan
    split
    · dsimp only
      rw [vector_erase_mem_nil]
      dsimp only
      split
      · rfl
      · exact ih (i + 1)
    · exact ih (i + 1)

/-- When no allocation fails, the loop of the shrinking branch ends as in the translation
without failures. -/
theorem shrink_scan_mem_nil {K V : Type} (key : K) (v : vector (pair K V))
    (l : List (pair K V)) (i : Nat) :
    shrink_scan_mem key v l i [] = (shrink_scan key v l i, []) := by
  induction l generalizing i with
  | nil => rfl
  | cons c rest ih =>
    unfold shrink_scan_mem shrink_scan
    split
    · dsimp only
      rw [vector_erase_mem_nil]
      dsimp only
      split
      · rfl
      · rfl
    · exact ih (i + 1)

/-- When no allocation fails, `hashmap_insert` returns and leaves what the translation without
failures does. -/
theorem hashmap_insert_mem_nil {K V : Type} (m : hashmap K V) (p : pair K V) :
    hashmap_insert_mem m p [] = ((hashmap_insert m p).1, (hashmap_insert m p).2, []) := by
  unfold hashmap_insert_mem hashmap_insert
  dsimp only
  split
  · rfl
  · split
    · rw [resize_buckets_mem_nil]
      dsimp only
      rw [bucket_push_back_mem_nil]
      dsimp only
      rw [if_pos (by decide), if_pos (by rw [bucket_push_back_fst]; decide)]
    · rw [bucket_push_back_mem_nil]
      dsimp only
      rw [if_pos (by decide), if_pos (by rw [bucket_push_back_fst]; decide)]

/-- When no allocation fails, `hashmap_erase` returns and leaves what the translation without
failures does. -/
theorem hashmap_erase_mem_nil {K V : Type} (m : hashmap K V) (key : K) :
    hashmap_erase_mem m key [] = ((hashmap_erase m key).1, (hashmap_erase m key).2, []) := by
  unfold hashmap_erase_mem hashmap_erase
  dsimp only
  split
  · rfl
  · split
    · rw [resize_buckets_mem_nil]
      dsimp only
      cases (resize_buckets { m with size := m.size - 1 } MINIMIZE).getD
          (m.hash_func key &&& (m.capacity / HASH_MAP_GROWTH_FACTOR - 1)) none with
      | none => rfl
      | some cv =>
        dsimp only
        rw [shrink_scan_mem_nil]
        cases shrink_scan key cv cv.data 0 with
        | none =>
          dsimp only
          rw [erase_scan_mem_nil]
          cases erase_scan key cv cv.data 0 <;> rfl
        | some o =>
          cases o <;> rfl
    · cases m.buckets.getD (m.hash_func key &&& (m.capacity - 1)) none with
      | none => rfl
      | some cv =>
        dsimp only
        rw [erase_scan_mem_nil]
        cases erase_scan key cv cv.data 0 <;> rfl

/-- Every map reachable when all allocations succeed is reachable when allocations may fail. -/
theorem reachable_mem_of_reachable {K V : Type} (func : K → Nat) (m : hashmap K V)
    (h : reachable func m) : reachable_mem func m := by
  induction h with
  | alloc => exact reachable_mem.alloc
  | step m c _ hc ih =>
    have h2 : (run_call m c).2 = (run_call_mem m c []).2.1 := by
      cases c with
      | insert p =>
        show (hashmap_insert m p).2 = (hashmap_insert_mem m p []).2.1
        rw [hashmap_insert_mem_nil]
      | erase k =>
        show (hashmap_erase m k).2 = (hashmap_erase_mem m k []).2.1
        rw [hashmap_erase_mem_nil]
    rw [h2]
    exact reachable_mem.step m c [] ih hc

/-- One call on a map that satisfies the invariant, under any outcomes of its allocation
requests: either the map it leaves satisfies the invariant, the size bookkeeping included, or
the call is a `hashmap_erase` of a key that `hashmap_at` finds, in the shrinking branch, that
returns 0 and leaves the array it had with the decremented size, one less than the number of
stored pairs. -/
theorem run_call_mem_WF {K V : Type} (m : hashmap K V) (c : call K V) (mem : List Bool)
    (hm : WF m) (hc : c.lawful) :
    (WF (run_call_mem m c mem).2.1 ∧ (run_call_mem m c mem).2.1.hash_func = m.hash_func) ∨
      (∃ key, c = call.erase key ∧ hashmap_at m key ≠ none ∧
        hashmap_get_load_factor { m with size := m.size - 1 } < HASH_MAP_MIN_LOAD_FACTOR ∧
        (run_call_mem m c mem).1 = 0 ∧
        (run_call_mem m c mem).2.1 = { m with size := m.size - 1 } ∧
        (run_call_mem m c mem).2.1.size + 1 =
          (all_pairs (run_call_mem m c mem).2.1.buckets).length) := by
  cases c with
  | insert p =>
    left
    show WF (hashmap_insert_mem m p mem).2.1 ∧
      (hashmap_insert_mem m p mem).2.1.hash_func = m.hash_func
    rcases hashmap_insert_mem_cases m p mem with ⟨_, h2⟩ | ⟨_, h2⟩
    · rw [h2]
      exact run_call_WF m (call.insert p) hm hc
    · rw [h2]
      exact ⟨hm, rfl⟩
  | erase k =>
    show (WF (hashmap_erase_mem m k mem).2.1 ∧
        (hashmap_erase_mem m k mem).2.1.hash_func = m.hash_func) ∨
      (∃ key, call.erase k = call.erase key ∧ hashmap_at m key ≠ none ∧
        hashmap_get_load_factor { m with size := m.size - 1 } < HASH_MAP_MIN_LOAD_FACTOR ∧
        (hashmap_erase_mem m k mem).1 = 0 ∧
        (hashmap_erase_mem m k mem).2.1 = { m with size := m.size - 1 } ∧
        (hashmap_erase_mem m k mem).2.1.size + 1 =
          (all_pairs (hashmap_erase_mem m k mem).2.1.buckets).length)
    rcases hashmap_erase_mem_cases m k mem hm with ⟨_, h2⟩ | ⟨_, h2⟩ | ⟨h1, h2, h3, h4⟩
    · left
      rw [h2]
      exact run_call_WF m (call.erase k) hm hc
    · left
      rw [h2]
      exact ⟨hm, rfl⟩
    · right
      refine ⟨k, rfl, h3, h4, h1, h2, ?_⟩
      rw [h2]
      obtain ⟨v0, hat⟩ := Option.ne_none_iff_exists'.1 h3
      obtain ⟨q0, hq0, _⟩ := (hashmap_at_some_iff m hm.table k v0).1 hat
      have hlen : 0 < (all_pairs m.buckets).length := List.length_pos_of_mem hq0
      have hsz := hm.size_eq
      show m.size - 1 + 1 = (all_pairs m.buckets).length
      omega

/-- After one call on a map that satisfies the invariant, under any outcomes of its allocation
requests, the size field is the number of stored pairs unless the call returned 0: a call that
returns 1 never leaves the size field wrong. -/
theorem size_eq_of_success {K V : Type} (m : hashmap K V) (c : call K V) (mem : List Bool)
    (hm : WF m) (hc : c.lawful) (hok : (run_call_mem m c mem).1 ≠ 0) :
    (run_call_mem m c mem).2.1.size = (all_pairs (run_call_mem m c mem).2.1.buckets).length := by
  rcases run_call_mem_WF m c mem hm hc with ⟨h, _⟩ | ⟨_, _, _, _, h, _⟩
  · exact h.size_eq
  · exact absurd h hok

/-! ## The size field when an allocation fails -/

/-- C22 (refuted at a failing input). A fresh map receives the pair of key 0: the insert returns
1 and leaves size 1 with one pair stored. `hashmap_erase` of the key 0 follows, and the
`realloc` inside `vector_erase`, the fourth allocation request of that call, fails. The call
returns 0 through the `return 0` of the shrinking branch, which has no `size++`: the map it
leaves is reachable, keeps its 16 slots and still stores the pair of key 0, which `hashmap_at`
finds, while its size field is 0. The size field differs from the number of stored pairs. -/
theorem C22_failed_erase_keeps_decremented_size :
    (hashmap_insert_mem (hashmap_alloc (fun k => k)) (test_pair 0 0) []).1 = 1 ∧
      (hashmap_insert_mem (hashmap_alloc (fun k => k)) (test_pair 0 0) []).2.1.size = 1 ∧
      (all_pairs (hashmap_insert_mem (hashmap_alloc (fun k => k))
        (test_pair 0 0) []).2.1.buckets).length = 1 ∧
      reachable_mem (fun k => k) test_failed_erase.2.1 ∧
      test_failed_erase.1 = 0 ∧
      test_failed_erase.2.1.capacity = 16 ∧
      (all_pairs test_failed_erase.2.1.buckets).map (fun p => (p.key, p.value)) = [(0, 0)] ∧
      hashmap_at test_failed_erase.2.1 0 = some 0 ∧
      test_failed_erase.2.1.size = 0 ∧
      test_failed_erase.2.1.size ≠ (all_pairs test_failed_erase.2.1.buckets).length := by
  refine ⟨by decide!, by decide!, by decide!, ?_, by decide!, by decide!, by decide!, by decide!,
    by decide!, by decide!⟩
  exact reachable_mem.step _ (call.erase 0) [true, true, true, false]
    (reachable_mem.step _ (call.insert (test_pair 0 0)) [] reachable_mem.alloc
      (fun a b => by simp [test_pair]))
    trivial

end Hashmap
